import Mathlib

/-! rcs2git: reconstruction of one revision from RCS deltas

A shallow embedding of `src/rcs2git.c` and a verification development over it.

Conventions of the embedding

* `size_t` and `unsigned long` are naturals reduced modulo `2^64`; `long` is an
  integer kept in the two's complement range by `wrapLong`.
* A byte is a natural number; the end-of-file value of the readers is `-1`.
* A text is the list of its bytes.  A read at the index equal to the length of
  the list yields `0`, the terminator of the C string.
* A `uchar *` that points into a text is the list of the bytes from the pointee
  to the end of the text; the null pointer is `none`.
* `fatal_error` ends the run: a run is a value of `Run`, which also records a
  loop that never ends and a read that leaves the storage of the text.
* A loop whose every turn moves the read pointer forward is cut by the bound
  `readFuel`; the keyword engine, whose `Log` substitution moves the pointer
  back, takes its bound as a parameter.
-/

namespace Rcs2git

/-! ## Machine integers -/

/-- The number of values of `size_t` and of `unsigned long`: `2^64`. -/
def SIZE_MOD : Nat := 18446744073709551616

/-- The value of a `long` expression after two's complement wrap-around. -/
def wrapLong (x : Int) : Int :=
  (x + 9223372036854775808) % 18446744073709551616 - 9223372036854775808

/-- The conversion `(unsigned long) x` of a `long`. -/
def toULong (x : Int) : Nat := (x % 18446744073709551616).toNat

/-- The difference `a - b` of two `size_t` values. -/
def usub (a b : Nat) : Nat := (a + SIZE_MOD - b % SIZE_MOD) % SIZE_MOD

/-! ## Outcome of a run -/

/-- The calls of `fatal_error` in the source, by message. -/
inductive Fatal where
  /-- The message "edit script tried to insert beyond eof". -/
  | insertBeyondEof
  /-- The message "edit script tried to delete beyond eof". -/
  | deleteBeyondEof
  /-- The message "Corrupt delta". -/
  | corruptDelta
  /-- The message "backward insertion in delta". -/
  | backwardInsertion
  /-- The message "backward deletion in delta". -/
  | backwardDeletion
  /-- The message "Illegal buffer, missing @". -/
  | missingDelimiter
  deriving DecidableEq, Repr

/-- The outcome of running a piece of the program. -/
inductive Run (α : Type) where
  /-- The code returns normally. -/
  | ok (a : α)
  /-- The code calls `fatal_error`, which exits the process. -/
  | fatal (e : Fatal)
  /-- The code is in a loop whose state no longer changes. -/
  | hang
  /-- The code reads outside the storage of a text or through a null pointer. -/
  | fault
  /-- The bound on the number of steps that the model was given is used up. -/
  | outOfFuel
  deriving DecidableEq, Repr

/-- Sequencing of runs: the continuation is entered on normal return only. -/
def Run.bind {α β : Type} (r : Run α) (f : α → Run β) : Run β :=
  match r with
  | .ok a => f a
  | .fatal e => .fatal e
  | .hang => .hang
  | .fault => .fault
  | .outOfFuel => .outOfFuel

/-! ## The edit buffer (`Gline`, `Ggap`, `Ggapsize`, `Glinemax`) -/

/-- The edit buffer.  `Gline` is the backing array seen as memory cells: cells
that the program has not written hold whatever the function says. -/
structure EditBuffer (α : Type) where
  /-- The cells of the array `Gline`. -/
  Gline : Nat → α
  /-- The index of the first cell of the gap. -/
  Ggap : Nat
  /-- The number of cells of the gap. -/
  Ggapsize : Nat
  /-- The capacity of the array. -/
  Glinemax : Nat

/-- The call `memmove(m + dst, m + src, len * sizeof *m)`: the cells are read
before any is written. -/
def memmove {α : Type} (m : Nat → α) (dst src len : Nat) (i : Nat) : α :=
  if dst ≤ i ∧ i < dst + len then m (src + (i - dst)) else m i

/-- The assignment `m[n] = l`. -/
def store {α : Type} (m : Nat → α) (n : Nat) (l : α) (i : Nat) : α :=
  if i = n then l else m i

/-- The state set by `Gline = NULL; Ggap = Ggapsize = Glinemax = 0`; the cells
that a later allocation hands out hold `g`. -/
def emptyBuffer {α : Type} (g : Nat → α) : EditBuffer α :=
  { Gline := g, Ggap := 0, Ggapsize := 0, Glinemax := 0 }

/-- The first part of `insertline`: when the gap is empty the array is doubled
(`Glinemax <<= 1` on a `size_t`), or allocated with 1024 cells. -/
def growGap {α : Type} (s : EditBuffer α) : EditBuffer α :=
  if s.Ggapsize = 0 then
    if s.Glinemax ≠ 0 then
      { s with Ggap := s.Glinemax, Ggapsize := s.Glinemax,
               Glinemax := (s.Glinemax * 2) % SIZE_MOD }
    else
      { s with Glinemax := 1024, Ggapsize := 1024 }
  else s

/-- The function `insertline`: before line `n` (0-origin) insert line `l`. -/
def insertline {α : Type} (n : Nat) (l : α) (s : EditBuffer α) : Run (EditBuffer α) :=
  if n > usub s.Glinemax s.Ggapsize then .fatal .insertBeyondEof
  else
    let s1 := growGap s
    let g :=
      if n < s1.Ggap then memmove s1.Gline (n + s1.Ggapsize) n (s1.Ggap - n)
      else if s1.Ggap < n then
        memmove s1.Gline s1.Ggap (s1.Ggap + s1.Ggapsize) (n - s1.Ggap)
      else s1.Gline
    .ok { Gline := store g n l, Ggap := n + 1,
          Ggapsize := usub s1.Ggapsize 1, Glinemax := s1.Glinemax }

/-- The function `deletelines`: delete lines `n` through `n + nlines - 1`. -/
def deletelines {α : Type} (n nlines : Nat) (s : EditBuffer α) : Run (EditBuffer α) :=
  let l := (n + nlines) % SIZE_MOD
  if usub s.Glinemax s.Ggapsize < l ∨ l < n then .fatal .deleteBeyondEof
  else
    let g :=
      if l < s.Ggap then memmove s.Gline (l + s.Ggapsize) l (s.Ggap - l)
      else if s.Ggap < n then
        memmove s.Gline s.Ggap (s.Ggap + s.Ggapsize) (n - s.Ggap)
      else s.Gline
    .ok { Gline := g, Ggap := n,
          Ggapsize := (s.Ggapsize + nlines) % SIZE_MOD, Glinemax := s.Glinemax }

/-- The lines the buffer represents: `Gline[0 .. Ggap-1]` followed by
`Gline[Ggap+Ggapsize .. Glinemax-1]`. -/
def liveLines {α : Type} (s : EditBuffer α) : List α :=
  (List.range s.Ggap).map s.Gline ++
    (List.range (s.Glinemax - (s.Ggap + s.Ggapsize))).map
      (fun i => s.Gline (s.Ggap + s.Ggapsize + i))

/-- The gap lies inside the array, and the array has at most `2^62` cells. -/
def EditBuffer.WF {α : Type} (s : EditBuffer α) : Prop :=
  s.Ggap + s.Ggapsize ≤ s.Glinemax ∧ s.Glinemax ≤ 4611686018427387904

/-- A call of one of the two editing functions. -/
inductive EditOp (α : Type) where
  /-- The call `insertline(n, l)`. -/
  | insert (n : Nat) (l : α)
  /-- The call `deletelines(n, count)`. -/
  | delete (n count : Nat)

/-- One call on the edit buffer. -/
def runOp {α : Type} (op : EditOp α) (s : EditBuffer α) : Run (EditBuffer α) :=
  match op with
  | .insert n l => insertline n l s
  | .delete n count => deletelines n count s

/-- A sequence of calls on the edit buffer, first call first. -/
def runOps {α : Type} : List (EditOp α) → EditBuffer α → Run (EditBuffer α)
  | [], s => .ok s
  | op :: ops, s => (runOp op s).bind (runOps ops)

/-- Reference model: one call on a plain list. -/
def listOp {α : Type} (op : EditOp α) (xs : List α) : List α :=
  match op with
  | .insert n l => xs.take n ++ l :: xs.drop n
  | .delete n count => xs.take n ++ xs.drop (n + count)

/-- Reference model: a sequence of calls on a plain list. -/
def listOps {α : Type} : List (EditOp α) → List α → List α
  | [], xs => xs
  | op :: ops, xs => listOps ops (listOp op xs)

/-- Every call stays within the bounds of the list it is applied to. -/
def opsInBounds {α : Type} : List (EditOp α) → List α → Prop
  | [], _ => True
  | .insert n l :: ops, xs =>
      n ≤ xs.length ∧ opsInBounds ops (listOp (.insert n l) xs)
  | .delete n count :: ops, xs =>
      n + count ≤ xs.length ∧ opsInBounds ops (listOp (.delete n count) xs)

/-- The line at index `i` of the represented sequence. -/
def lineAt {α : Type} (s : EditBuffer α) (i : Nat) : α :=
  if i < s.Ggap then s.Gline i else s.Gline (i + s.Ggapsize)

/-! ## The input cursor (`Ginbuf`) -/

/-- The value `EOF` of the readers. -/
def EOF : Int := -1

/-- The string delimiter `SDELIM`, the byte `@`. -/
def SDELIM : Nat := 64

/-- The input cursor `struct in_buffer_type`: `buffer` is the text the cursor
was initialised with, `ptr` the offset of the read pointer from `buffer`. The
counter `read_count` is an `int` that counts the bytes handed out; it is kept
as an integer without wrap-around (a wrap needs `2^31` reads from one text). -/
structure in_buffer_type where
  /-- The bytes of the text, from the pointer `buffer` on. -/
  buffer : List Nat
  /-- The offset `ptr - buffer`. -/
  ptr : Nat
  /-- The counter `read_count`. -/
  read_count : Int
  deriving DecidableEq, Repr

/-- The byte at offset `i` of a text; offset `length` holds the terminator. -/
def peek (b : List Nat) (i : Nat) : Nat := b.getD i 0

/-- The function `in_buffer_getc`. -/
def in_buffer_getc (s : in_buffer_type) : Int × in_buffer_type :=
  let c := peek s.buffer s.ptr
  let s1 : in_buffer_type := { s with ptr := s.ptr + 1, read_count := s.read_count + 1 }
  if c = SDELIM then
    let c2 := peek s1.buffer s1.ptr
    let s2 : in_buffer_type := { s1 with ptr := s1.ptr + 1 }
    if c2 ≠ SDELIM then
      (EOF, { s2 with ptr := s2.ptr - 2, read_count := s2.read_count - 1 })
    else ((c2 : Int), s2)
  else ((c : Int), s1)

/-- The result of the last of `n + 1` successive calls of `in_buffer_getc`. -/
def in_buffer_getc_repeat : Nat → in_buffer_type → Int × in_buffer_type
  | 0, s => in_buffer_getc s
  | n + 1, s => in_buffer_getc_repeat n (in_buffer_getc s).2

/-- The function `in_buffer_ungetc`. -/
def in_buffer_ungetc (s : in_buffer_type) : Int × in_buffer_type :=
  if s.read_count = 0 then (EOF, s)
  else
    let s1 : in_buffer_type := { s with read_count := s.read_count - 1, ptr := s.ptr - 1 }
    let c := peek s1.buffer s1.ptr
    if c = SDELIM then
      let s2 : in_buffer_type := { s1 with ptr := s1.ptr - 1 }
      ((peek s2.buffer s2.ptr : Int), s2)
    else ((c : Int), s1)

/-- The function `in_buffer_init`. -/
def in_buffer_init (text : List Nat) (bypass_initial : Bool) : Run in_buffer_type :=
  if bypass_initial then
    if peek text 0 ≠ SDELIM then .fatal .missingDelimiter
    else .ok { buffer := text, ptr := 1, read_count := 0 }
  else .ok { buffer := text, ptr := 0, read_count := 0 }

/-- A bound on the number of reads a loop can make from the cursor before it
leaves the storage of the text (every read that is not at the end of the
delimited string advances `ptr`). A loop that uses it up ends in `Run.fault`. -/
def readFuel (s : in_buffer_type) : Nat := s.buffer.length + 2 - s.ptr

/-- A `uchar *` into a text: the bytes from the pointee on; `none` is `NULL`. -/
abbrev LinePtr := Option (List Nat)

/-- The loop `while (c != EOF && c != '\n') c = in_buffer_getc();` of
`in_get_line`. -/
def in_get_line_loop : Nat → Int → in_buffer_type → Run in_buffer_type
  | 0, _, _ => .fault
  | fuel + 1, c, s =>
    if c ≠ EOF ∧ c ≠ 10 then
      in_get_line_loop fuel (in_buffer_getc s).1 (in_buffer_getc s).2
    else .ok s

/-- The function `in_get_line`: the pointer to the next line, or `NULL`. -/
def in_get_line (s : in_buffer_type) : Run (LinePtr × in_buffer_type) :=
  let r := in_buffer_getc s
  if r.1 = EOF then .ok (none, r.2)
  else (in_get_line_loop (readFuel r.2) r.1 r.2).bind
    (fun s' => .ok (some (s.buffer.drop s.ptr), s'))

/-! ## The diff-script interpreter -/

/-- The record `struct diffcmd`. -/
structure diffcmd where
  /-- The field `line1`. -/
  line1 : Int
  /-- The field `nlines`. -/
  nlines : Int
  /-- The field `adprev`. -/
  adprev : Int
  /-- The field `dafter`. -/
  dafter : Int
  deriving DecidableEq, Repr

/-- The test `isdigit(c)` in the C locale. -/
def isdigit (c : Int) : Bool := decide (48 ≤ c) && decide (c ≤ 57)

/-- The loop of `parsenum`: `for (...; isdigit(c); c = in_buffer_getc())
ret = (ret * 10) + (c - '0');`. -/
def parsenum_loop : Nat → Int → Int → in_buffer_type → Run (Int × in_buffer_type)
  | 0, _, _, _ => .fault
  | fuel + 1, ret, c, s =>
    if isdigit c then
      parsenum_loop fuel (wrapLong (ret * 10 + (c - 48))) (in_buffer_getc s).1
        (in_buffer_getc s).2
    else .ok (ret, s)

/-- The function `parsenum`. -/
def parsenum (s : in_buffer_type) : Run (Int × in_buffer_type) :=
  (parsenum_loop (readFuel s) 0 (in_buffer_getc s).1 (in_buffer_getc s).2).bind
    (fun r => .ok (r.1, (in_buffer_ungetc r.2).2))

/-- The loop `while (in_buffer_getc() == ' ') ;`. -/
def skip_spaces : Nat → in_buffer_type → Run in_buffer_type
  | 0, _ => .fault
  | fuel + 1, s =>
    if (in_buffer_getc s).1 = 32 then skip_spaces fuel (in_buffer_getc s).2
    else .ok (in_buffer_getc s).2

/-- The loop `while (in_buffer_getc() != '\n') ;`.  At the end of the delimited
string `in_buffer_getc` returns `EOF` and leaves the cursor as it was, so the
loop repeats the same read for ever. -/
def skip_to_newline : Nat → in_buffer_type → Run in_buffer_type
  | 0, _ => .fault
  | fuel + 1, s =>
    if (in_buffer_getc s).1 = 10 then .ok (in_buffer_getc s).2
    else if (in_buffer_getc s).1 = EOF then .hang
    else skip_to_newline fuel (in_buffer_getc s).2

/-- The function `parse_next_delta_command`: the result is `-1` at the end of
the script, `1` for an `a` command and `0` for a `d` command. -/
def parse_next_delta_command (dc : diffcmd) (s : in_buffer_type) :
    Run (Int × diffcmd × in_buffer_type) :=
  let cmd := (in_buffer_getc s).1
  let s1 := (in_buffer_getc s).2
  if cmd = EOF then .ok (-1, dc, s1)
  else
    (parsenum s1).bind fun r1 =>
    let line1 := r1.1
    (skip_spaces (readFuel r1.2) r1.2).bind fun s3 =>
    (parsenum (in_buffer_ungetc s3).2).bind fun r2 =>
    let nlines := r2.1
    (skip_to_newline (readFuel r2.2) r2.2).bind fun s6 =>
    if nlines = 0 ∨ (cmd ≠ 97 ∧ cmd ≠ 100) ∨ wrapLong (line1 + nlines) < line1 then
      .fatal .corruptDelta
    else if cmd = 97 then
      if line1 < dc.adprev then .fatal .backwardInsertion
      else .ok (1, { line1 := line1, nlines := nlines,
                     adprev := wrapLong (line1 + 1), dafter := dc.dafter }, s6)
    else
      if line1 < dc.adprev ∨ line1 < dc.dafter then .fatal .backwardDeletion
      else .ok (0, { line1 := line1, nlines := nlines,
                     adprev := line1, dafter := wrapLong (line1 + nlines) }, s6)

/-- The loop `while (linecnt--) insertline(editline++, in_get_line());` of
`process_delta`, entered with `linecnt` equal to `k`. -/
def insert_lines : Nat → Int → EditBuffer LinePtr → in_buffer_type →
    Run (EditBuffer LinePtr × in_buffer_type)
  | 0, _, e, s => .ok (e, s)
  | k + 1, editline, e, s =>
    (in_get_line s).bind fun r =>
    (insertline (toULong editline) r.1 e).bind fun e' =>
    insert_lines k (wrapLong (editline + 1)) e' r.2

/-- The loop of the `EDIT` case of `process_delta`:
`while ((editor_command = parse_next_delta_command(&dc)) >= 0) ...`. -/
def edit_loop : Nat → diffcmd → Int → EditBuffer LinePtr → in_buffer_type →
    Run (EditBuffer LinePtr × in_buffer_type)
  | 0, _, _, _, _ => .fault
  | fuel + 1, dc, adjust, e, s =>
    (parse_next_delta_command dc s).bind fun r =>
    let dc' := r.2.1
    if r.1 ≥ 0 then
      if r.1 ≠ 0 then
        (insert_lines (toULong dc'.nlines) (wrapLong (dc'.line1 + adjust)) e r.2.2).bind
          fun r' => edit_loop fuel dc' (wrapLong (adjust + dc'.nlines)) r'.1 r'.2
      else
        (deletelines (toULong (wrapLong (wrapLong (dc'.line1 - 1) + adjust)))
            (toULong dc'.nlines) e).bind
          fun e' => edit_loop fuel dc' (wrapLong (adjust - dc'.nlines)) e' r.2.2
    else .ok (e, r.2.2)

/-- The initial `diffcmd` of the `EDIT` case: `dc.dafter = dc.adprev = 0`.  The
fields `line1` and `nlines` are not initialised by the source and not read
before `parse_next_delta_command` sets them. -/
def dcInit : diffcmd := { line1 := 0, nlines := 0, adprev := 0, dafter := 0 }

/-- The `EDIT` case of `process_delta` after `in_buffer_init`:
`dc.dafter = dc.adprev = 0;` and the loop. -/
def process_delta_EDIT (e : EditBuffer LinePtr) (s : in_buffer_type) :
    Run (EditBuffer LinePtr × in_buffer_type) :=
  edit_loop (readFuel s) dcInit 0 e s

/-! ## Reference reading of an edit script -/

/-- A command of an edit script together with the literal lines that follow
it: `a line1 nlines` when `isAppend`, `d line1 nlines` otherwise. -/
structure EditCmd where
  /-- The command letter is `a`. -/
  isAppend : Bool
  /-- The first number of the command. -/
  line1 : Int
  /-- The second number of the command. -/
  nlines : Int
  /-- The literal lines of an `a` command, as `in_get_line` returns them. -/
  lines : List LinePtr
  deriving DecidableEq, Repr

/-- The literal lines of an `a` command: `k` calls of `in_get_line`. -/
def read_lines : Nat → in_buffer_type → Run (List LinePtr × in_buffer_type)
  | 0, s => .ok ([], s)
  | k + 1, s =>
    (in_get_line s).bind fun r =>
    (read_lines k r.2).bind fun r' => .ok (r.1 :: r'.1, r'.2)

/-- The commands of a script, read with `parse_next_delta_command` and
`in_get_line` as `process_delta` reads them, without touching the edit buffer. -/
def script_commands : Nat → diffcmd → in_buffer_type → Run (List EditCmd)
  | 0, _, _ => .fault
  | fuel + 1, dc, s =>
    (parse_next_delta_command dc s).bind fun r =>
    let dc' := r.2.1
    if r.1 ≥ 0 then
      if r.1 ≠ 0 then
        (read_lines (toULong dc'.nlines) r.2.2).bind fun r' =>
        (script_commands fuel dc' r'.2).bind fun cs =>
        .ok ({ isAppend := true, line1 := dc'.line1, nlines := dc'.nlines,
               lines := r'.1 } :: cs)
      else
        (script_commands fuel dc' r.2.2).bind fun cs =>
        .ok ({ isAppend := false, line1 := dc'.line1, nlines := dc'.nlines,
               lines := [] } :: cs)
    else .ok []

/-- Reference: original line `i` (1-origin) is removed by some `d` command. -/
def deletedAt (cmds : List EditCmd) (i : Nat) : Bool :=
  cmds.any fun c =>
    !c.isAppend && decide (c.line1 ≤ (i : Int)) && decide ((i : Int) < c.line1 + c.nlines)

/-- Reference: the literal lines of the `a` commands whose `line1` is `i`. -/
def appendedAt (cmds : List EditCmd) (i : Nat) : List LinePtr :=
  (cmds.filter fun c => c.isAppend && decide (c.line1 = (i : Int))).flatMap fun c => c.lines

/-- Reference: what the edited text holds for position `i` of the original
numbering: original line `i` unless `i = 0` or the line is deleted, followed by
the lines appended after line `i`. -/
def segmentAt (cmds : List EditCmd) (orig : List LinePtr) (i : Nat) : List LinePtr :=
  (if i = 0 ∨ deletedAt cmds i then [] else (orig.get? (i - 1)).toList) ++ appendedAt cmds i

/-- Reference: the text obtained by reading every command against the
numbering of the original text. -/
def applyOriginal (cmds : List EditCmd) (orig : List LinePtr) : List LinePtr :=
  (List.range (orig.length + 1)).flatMap (segmentAt cmds orig)

/-- The number of lines the `a` commands of a script insert. -/
def totalAppended (cmds : List EditCmd) : Nat :=
  ((cmds.filter fun c => c.isAppend).map fun c => c.lines.length).sum

/-- No `a` command addresses a line inside a range that an earlier `d` command
of the script deleted, other than the last line of that range. -/
def appendsClearOfDeletes (cmds : List EditCmd) : Prop :=
  cmds.Pairwise fun d c => d.isAppend = false → c.isAppend = true →
    d.line1 + d.nlines ≤ c.line1 + 1

/-- The reference text for the positions `0 .. w` of the original numbering. -/
def prefixUpTo (cmds : List EditCmd) (orig : List LinePtr) (w : Nat) : List LinePtr :=
  (List.range (w + 1)).flatMap (segmentAt cmds orig)

/-- Every command of `cmds` concerns positions `0 .. w` only: an `a` command has
`line1 ≤ w` and a `d` command removes lines up to `w` at most. -/
def touchesUpTo (cmds : List EditCmd) (w : Int) : Prop :=
  ∀ c ∈ cmds, (c.isAppend = true → c.line1 ≤ w) ∧
    (c.isAppend = false → c.line1 + c.nlines ≤ w + 1)

/-- The invariant of the loop of the `EDIT` case: `P` are the commands carried
out so far. -/
structure EditInv (orig : List LinePtr) (P : List EditCmd) (dc : diffcmd) (adjust : Int)
    (e : EditBuffer LinePtr) : Prop where
  /-- The edit buffer is well formed. -/
  wf : e.WF
  /-- The edit buffer holds the reference text of the commands so far. -/
  live : liveLines e = applyOriginal P orig
  /-- The counter `adjust` is the growth of the text. -/
  len : ((liveLines e).length : Int) = orig.length + adjust
  /-- The field `adprev` is not negative. -/
  adprev : 0 ≤ dc.adprev
  /-- The field `dafter` is not negative. -/
  dafter : 0 ≤ dc.dafter
  /-- After an insertion `adprev` is positive. -/
  adj : adjust ≤ 0 ∨ 1 ≤ dc.adprev
  /-- The commands so far lie before `adprev` and `dafter`. -/
  past : ∀ c ∈ P, (c.isAppend = true → c.line1 + 1 ≤ dc.adprev) ∧
    (c.isAppend = false → c.line1 + c.nlines ≤ dc.dafter)

/-! ## Output, entering a text and the snapshot -/

/-- The function `out_putc`: the byte `(char) c` is appended to the output
buffer. The buffer grows when it is full, so the model keeps its contents
only. -/
def out_putc (c : Int) (out : List Nat) : List Nat := out ++ [(c % 256).toNat]

/-- The loop `while ((ptr = in_get_line())) insertline(editline++, ptr);` of the
`ENTER` case of `process_delta`. -/
def enter_loop : Nat → Int → EditBuffer LinePtr → in_buffer_type →
    Run (EditBuffer LinePtr × in_buffer_type)
  | 0, _, _, _ => .fault
  | fuel + 1, editline, e, s =>
    (in_get_line s).bind fun r =>
    match r.1 with
    | none => .ok (e, r.2)
    | some p =>
      (insertline (toULong editline) (some p) e).bind fun e' =>
      enter_loop fuel (wrapLong (editline + 1)) e' r.2

/-- The loop `while ((c = in_buffer_getc()) != EOF) out_putc(c);` of the `COPY`
case of `process_delta`. -/
def copy_loop : Nat → in_buffer_type → List Nat → Run (in_buffer_type × List Nat)
  | 0, _, _ => .fault
  | fuel + 1, s, out =>
    if (in_buffer_getc s).1 ≠ EOF then
      copy_loop fuel (in_buffer_getc s).2 (out_putc (in_buffer_getc s).1 out)
    else .ok ((in_buffer_getc s).2, out)

/-- The `COPY` case of `process_delta` after `in_buffer_init`. -/
def process_delta_COPY (s : in_buffer_type) (out : List Nat) :
    Run (in_buffer_type × List Nat) :=
  copy_loop (readFuel s) s out

/-- The `ENTER` case of `process_delta` after `in_buffer_init`: the loop over
the lines, with `editline` starting at 0, and then, as the case has no `break`,
the statements of the `COPY` case. -/
def process_delta_ENTER (e : EditBuffer LinePtr) (s : in_buffer_type) (out : List Nat) :
    Run (EditBuffer LinePtr × in_buffer_type × List Nat) :=
  (enter_loop (readFuel s) 0 e s).bind fun r =>
  (process_delta_COPY r.2 out).bind fun r' => .ok (r.1, r'.1, r'.2)

/-- The loop of `snapshotline`:
`do { if ((c = *l++) == SDELIM && *l++ != SDELIM) return; out_putc(c); } while (c != '\n');`. -/
def snapshotline_loop : Nat → List Nat → List Nat → Run (List Nat)
  | 0, _, _ => .fault
  | fuel + 1, l, out =>
    let c := l.headD 0
    let l1 := l.tail
    if c = SDELIM ∧ l1.headD 0 ≠ SDELIM then .ok out
    else
      let l2 := if c = SDELIM then l1.tail else l1
      if c ≠ 10 then snapshotline_loop fuel l2 (out_putc c out)
      else .ok (out_putc c out)

/-- The function `snapshotline`. -/
def snapshotline (l : LinePtr) (out : List Nat) : Run (List Nat) :=
  match l with
  | none => .fault
  | some bytes => snapshotline_loop (bytes.length + 1) bytes out

/-- The calls `snapshotline(*p++)` for a sequence of line pointers. -/
def snapshot_lines : List LinePtr → List Nat → Run (List Nat)
  | [], out => .ok out
  | l :: ls, out => (snapshotline l out).bind (snapshot_lines ls)

/-- The function `snapshotedit`: `snapshotline` on `Gline[0 .. Ggap)` and then
on `Gline[Ggap+Ggapsize .. Glinemax)`. -/
def snapshotedit (e : EditBuffer LinePtr) (out : List Nat) : Run (List Nat) :=
  snapshot_lines (liveLines e) out

/-- Reference: the stored form of a text, every `@` doubled. -/
def doubleDelimiters : List Nat → List Nat
  | [] => []
  | c :: cs => if c = SDELIM then SDELIM :: SDELIM :: doubleDelimiters cs
               else c :: doubleDelimiters cs

/-- The stored text of a delta: the opening `@`, the text with every `@`
doubled, the closing `@` and what follows it in the file. -/
def storedText (d rest : List Nat) : List Nat :=
  SDELIM :: (doubleDelimiters d ++ SDELIM :: rest)

/-- The cursor `s` has read `pre` and `tail` is what lies ahead. -/
def CursorAt (s : in_buffer_type) (pre tail : List Nat) : Prop :=
  s.buffer = pre ++ tail ∧ s.ptr = pre.length

/-! ## Delta selection and ordering -/

/-- Modelled from the spec: the type `cvs_number` of `cvs.h`, which is not among
the sources: "ordered sequence of non-negative integers (dotted path)".  The
field `c` is the length of the list and `n[i]` its entry `i`. -/
abbrev cvs_number := List Nat

/-- The entry `x->n[i]`, for an index computed as an `int`.  The source reads it
for `0 ≤ i < x->c` whenever `x` has a component; an index outside the number
yields `0` in the model. -/
def numAt (x : cvs_number) (i : Int) : Nat := if i < 0 then 0 else x.getD i.toNat 0

/-- Modelled from the spec: the function `cvs_number_compare` of the delta-graph
provider, which is not among the sources.  The spec pairs "by revision-number
equality": the result is `0` exactly for equal numbers, and otherwise has the
sign of the lexicographic comparison. -/
def cvs_number_compare (a b : cvs_number) : Int :=
  if a = b then 0 else if a < b then -1 else 1

/-- Modelled from the spec: the version record `cvs_version` of `cvs.h`
("revision number, author, timestamp, state label"); the collection of the
versions of a file is the list of the records in the order of the `next`
links. -/
structure cvs_version where
  /-- The field `number`. -/
  number : cvs_number
  /-- The field `author`, a string. -/
  author : List Nat
  /-- The field `date`, a `time_t`. -/
  date : Int
  /-- The field `state`, a string. -/
  state : List Nat
  deriving DecidableEq, Repr

/-- Modelled from the spec: the patch record `cvs_patch` of `cvs.h` ("revision
number, raw diff text or full text, and an associated log message"). -/
structure cvs_patch where
  /-- The field `number`. -/
  number : cvs_number
  /-- The field `log`, a string. -/
  log : List Nat
  /-- The field `text`: the bytes from the opening `@` on. -/
  text : List Nat
  deriving DecidableEq, Repr

/-- Modelled from the spec: the record `cvs_file` of `cvs.h`, with the fields
this file reads. -/
structure cvs_file where
  /-- The field `name`, a string. -/
  name : List Nat
  /-- The field `expand`, a string or `NULL`. -/
  expand : Option (List Nat)
  /-- The list `versions`. -/
  versions : List cvs_version
  /-- The list `patches`. -/
  patches : List cvs_patch
  deriving DecidableEq, Repr

/-- An entry of the linked list `struct delta_list`; the list itself is the list
of its entries in the order of the `next` links.  The field `patch` is not set
by `add_delta_to_list`; `none` stands for that state and for `NULL`. -/
structure delta_list where
  /-- The field `version`. -/
  version : cvs_version
  /-- The field `patch`. -/
  patch : Option cvs_patch
  deriving DecidableEq, Repr

/-- The loop of `compare_deltas` from index `i` on, with `k` indices left:
the result of the `return` inside the loop, if one is reached. -/
def compare_deltas_loop (a b : cvs_number) : Nat → Nat → Option Int
  | 0, _ => none
  | k + 1, i =>
    if a.getD i 0 > b.getD i 0 then some (if i < 2 then -1 else 1)
    else if a.getD i 0 < b.getD i 0 then some (if i < 2 then 1 else -1)
    else compare_deltas_loop a b k (i + 1)

/-- The function `compare_deltas`. -/
def compare_deltas (a b : cvs_number) : Int :=
  match compare_deltas_loop a b (min a.length b.length) 0 with
  | some r => r
  | none => if a.length > b.length then 1 else if a.length < b.length then -1 else 0

/-- The loop `for (q=list; q->next; q=q->next) if (compare_deltas(dvn, ...) <= 0) break;`
of `add_delta_to_list`, at the entry `q` followed by `rest`, and the two
assignments after it. -/
def add_delta_after (p : delta_list) : delta_list → List delta_list → List delta_list
  | q, [] => [q, p]
  | q, r :: rest =>
    if compare_deltas p.version.number r.version.number ≤ 0 then q :: p :: r :: rest
    else q :: add_delta_after p r rest

/-- The function `add_delta_to_list`. -/
def add_delta_to_list (deltaversion : cvs_version) (list : List delta_list) :
    List delta_list :=
  match list with
  | [] => [{ version := deltaversion, patch := none }]
  | h :: rest =>
    if compare_deltas deltaversion.number h.version.number < 0 then
      { version := deltaversion, patch := none } :: h :: rest
    else add_delta_after { version := deltaversion, patch := none } h rest

/-- The function `delta_is_needed`. -/
def delta_is_needed (delta revision : cvs_number) : Int :=
  let n : Int := min (delta.length : Int) (revision.length : Int) - 1
  if delta.length > revision.length then 0
  else if delta.length = 2 ∧ revision.length ≥ 2 ∧ delta.getD 0 0 > revision.getD 0 0 then 1
  else if (List.range (delta.length - 1)).any
      (fun i => decide (delta.getD i 0 ≠ revision.getD i 0)) then 0
  else if n < 2 ∧ numAt delta n < numAt revision n then 0
  else if n > 1 ∧ numAt delta n > numAt revision n then 0
  else 1

/-- The first loop of `get_revision_delta_list`: the needed versions, added
to `deltas` in the order of the collection. -/
def needed_deltas : List cvs_version → cvs_number → List delta_list → List delta_list
  | [], _, deltas => deltas
  | vp :: vs, revision, deltas =>
    needed_deltas vs revision
      (if delta_is_needed vp.number revision ≠ 0 then add_delta_to_list vp deltas
       else deltas)

/-- The inner loop `for ( ; pp ; pp=pp->next) if (cvs_number_compare(...) == 0) break;`
of `get_revision_delta_list`: the value of `pp` when the loop ends, `[]` for
`NULL`. -/
def find_patch (number : cvs_number) : List cvs_patch → List cvs_patch
  | [] => []
  | pp :: rest =>
    if cvs_number_compare pp.number number = 0 then pp :: rest else find_patch number rest

/-- The second loop of `get_revision_delta_list`: `pp` is not reset between
two entries. -/
def pair_patches : List delta_list → List cvs_patch → List delta_list
  | [], _ => []
  | dp :: rest, pp =>
    { dp with patch := (find_patch dp.version.number pp).head? } ::
      pair_patches rest (find_patch dp.version.number pp)

/-- The function `get_revision_delta_list`. -/
def get_revision_delta_list (cvs : cvs_file) (revision : cvs_number) : List delta_list :=
  pair_patches (needed_deltas cvs.versions revision []) cvs.patches

/-- The revision numbers of a delta list, in order. -/
def chainNumbers (l : List delta_list) : List cvs_number := l.map fun d => d.version.number

/-- Reference: the needed-delta predicate as the specification words it. -/
def neededAsSpecified (d t : cvs_number) : Prop :=
  d.length ≤ t.length ∧
  (d.length = 2 → d.getD 0 0 ≤ t.getD 0 0) ∧
  (∀ i < d.length - 1, d.getD i 0 = t.getD i 0) ∧
  (d.length = 2 → d.getD (d.length - 1) 0 ≤ t.getD (d.length - 1) 0) ∧
  (2 < d.length → d.getD (d.length - 1) 0 ≥ t.getD (d.length - 1) 0)

/-- A version record with the given number, by `author` with state `Exp`. -/
def versionOf (number : cvs_number) : cvs_version :=
  { number := number, author := [97], date := 0, state := [69, 120, 112] }

/-! ## Keyword expansion -/

/-- The constant `KEYLENGTH`. -/
def KEYLENGTH : Nat := 8

/-- The keyword delimiter `KDELIM`, the byte `$`. -/
def KDELIM : Nat := 36

/-- The value delimiter `VDELIM`, the byte `:`. -/
def VDELIM : Nat := 58

/-- The type `enum expand_mode`, in the order of its declaration. -/
inductive expand_mode where
  /-- The mode `kv`. -/
  | EXPANDKKV
  /-- The mode `kvl`. -/
  | EXPANDKKVL
  /-- The mode `k`. -/
  | EXPANDKK
  /-- The mode `v`. -/
  | EXPANDKV
  /-- The mode `o`. -/
  | EXPANDKO
  /-- The mode `b`. -/
  | EXPANDKB
  deriving DecidableEq, Repr

/-- The integer value of a mode. -/
def expand_mode.toNat : expand_mode → Nat
  | .EXPANDKKV => 0
  | .EXPANDKKVL => 1
  | .EXPANDKK => 2
  | .EXPANDKV => 3
  | .EXPANDKO => 4
  | .EXPANDKB => 5

/-- The type `enum markers`. -/
inductive markers where
  /-- No keyword. -/
  | Nomatch
  /-- The keyword `Author`. -/
  | Author
  /-- The keyword `Date`. -/
  | Date
  /-- The keyword `Header`. -/
  | Header
  /-- The keyword `Id`. -/
  | Id
  /-- The keyword `Locker`. -/
  | Locker
  /-- The keyword `Log`. -/
  | Log
  /-- The keyword `Name`. -/
  | Name
  /-- The keyword `RCSfile`. -/
  | RCSfile
  /-- The keyword `Revision`. -/
  | Revision
  /-- The keyword `Source`. -/
  | Source
  /-- The keyword `State`. -/
  | State
  deriving DecidableEq, Repr

/-- The table `Keyword`; the entry of `Nomatch` is the null pointer of the
source and is not read. -/
def Keyword : markers → List Nat
  | .Nomatch => []
  | .Author => [65, 117, 116, 104, 111, 114]
  | .Date => [68, 97, 116, 101]
  | .Header => [72, 101, 97, 100, 101, 114]
  | .Id => [73, 100]
  | .Locker => [76, 111, 99, 107, 101, 114]
  | .Log => [76, 111, 103]
  | .Name => [78, 97, 109, 101]
  | .RCSfile => [82, 67, 83, 102, 105, 108, 101]
  | .Revision => [82, 101, 118, 105, 115, 105, 111, 110]
  | .Source => [83, 111, 117, 114, 99, 101]
  | .State => [83, 116, 97, 116, 101]

/-- The string `ciklog`, "checked in with -k by ". -/
def ciklog : List Nat :=
  [99, 104, 101, 99, 107, 101, 100, 32, 105, 110, 32, 119, 105, 116, 104, 32, 45, 107, 32,
   98, 121, 32]

/-- The C string held by a buffer with the given contents: the bytes before
the first `0`. -/
def cstr (l : List Nat) : List Nat := l.takeWhile fun b => b ≠ 0

/-- The function `latin1_alpha`, on a `uchar`. -/
def latin1_alpha (c : Nat) : Bool :=
  (decide (c ≥ 192) && decide (c ≠ 215) && decide (c ≠ 247)) ||
  ((decide (c ≥ 97) && decide (c < 123)) || (decide (c ≥ 65) && decide (c < 91)))

/-- The function `latin1_whitespace`, on a `uchar`. -/
def latin1_whitespace (c : Nat) : Bool :=
  decide (c = 32) || (decide (c ≥ 8) && decide (c ≤ 13) && decide (c ≠ 10))

/-- The function `expand_override`. -/
def expand_override (s : List Nat) : expand_mode :=
  if s = [107, 118] then .EXPANDKKV
  else if s = [107, 118, 108] then .EXPANDKKVL
  else if s = [107] then .EXPANDKK
  else if s = [118] then .EXPANDKV
  else if s = [111] then .EXPANDKO
  else if s = [98] then .EXPANDKB
  else .EXPANDKK

/-- The function `basefilename`: the part of `p` after its last `/`. -/
def basefilename : List Nat → List Nat
  | [] => []
  | c :: q =>
    if c = 47 then basefilename q
    else if 47 ∈ q then basefilename q else c :: q

/-- The loop `while (*p++ == *s++)` of `trymatch` for one keyword `p`:
`some true` when the keyword is followed by `KDELIM` or `VDELIM`, `some false`
when it is followed by another byte (the source returns `Nomatch`), `none`
when the loop ends without a `return`. -/
def trymatch_keyword : List Nat → List Nat → Option Bool
  | [], _ => none
  | p0 :: ps, s =>
    if s.headD 0 = p0 then
      if ps = [] then
        some (decide (s.tail.headD 0 = KDELIM) || decide (s.tail.headD 0 = VDELIM))
      else trymatch_keyword ps s.tail
    else none

/-- The loop over the keywords of `trymatch`, for the keywords still to try. -/
def trymatch_from (string : List Nat) : List markers → markers
  | [] => .Nomatch
  | j :: js =>
    match trymatch_keyword (Keyword j) string with
    | some true => j
    | some false => .Nomatch
    | none => trymatch_from string js

/-- The function `trymatch`: the keywords are tried from the last entry of the
table down to the first. -/
def trymatch (string : List Nat) : markers :=
  trymatch_from string [.State, .Source, .Revision, .RCSfile, .Name, .Log, .Locker, .Id,
    .Header, .Date, .Author]

/-- The function `out_fputs`: the bytes of the string up to its terminator. -/
def out_fputs (s : List Nat) (out : List Nat) : List Nat := out ++ cstr s

/-- The function `out_awrite`, for the bytes `s` (`len` is their number). -/
def out_awrite (s : List Nat) (out : List Nat) : List Nat := out ++ s

/-- The function `escape_string`. -/
def escape_string : List Nat → List Nat → List Nat
  | [], out => out
  | c :: s, out =>
    if c = 9 then escape_string s (out_fputs [92, 116] out)
    else if c = 10 then escape_string s (out_fputs [92, 110] out)
    else if c = 32 then escape_string s (out_fputs [92, 48, 52, 48] out)
    else if c = KDELIM then escape_string s (out_fputs [92, 48, 52, 52] out)
    else if c = 92 then escape_string s (out_fputs [92, 92] out)
    else escape_string s (out_putc c out)

/-- Modelled from the spec: the function `cvs_number_string` of the delta-graph
provider ("canonical string rendering", the "dotted revision string"): the
decimal digits of a component, most significant first. -/
def decimalDigits : Nat → Nat → List Nat
  | 0, _ => []
  | fuel + 1, k =>
    if k < 10 then [48 + k] else decimalDigits fuel (k / 10) ++ [48 + k % 10]

/-- Modelled from the spec: the function `cvs_number_string` of the delta-graph
provider: the components in decimal, separated by dots. -/
def cvs_number_string : cvs_number → List Nat
  | [] => []
  | [k] => decimalDigits (k + 1) k
  | k :: k' :: ks => decimalDigits (k + 1) k ++ 46 :: cvs_number_string (k' :: ks)

/-- What the run takes from the C library and the process: the rendering of a
`time_t` by `localtime` and `strftime` with the format `%Y/%m/%d %H:%M:%S`, and
the working directory that `getcwd` returns. -/
structure Env where
  /-- The string `date_string` for a value of the field `date`. -/
  date_string : Int → List Nat
  /-- The working directory. -/
  cwd : List Nat

/-- The global variables of the file.  The contents of the scratch buffer
`Gkeyval` are written anew by every use, and the model keeps its size `Gkvlen`
only (an `int`, kept without wrap-around). -/
structure Globals where
  /-- The variable `Gexpand`. -/
  Gexpand : expand_mode
  /-- The variable `Glog`, a string. -/
  Glog : List Nat
  /-- The variable `Gkvlen`. -/
  Gkvlen : Int
  /-- The variable `Gfilename`, a string. -/
  Gfilename : List Nat
  /-- The variable `Gabspath`, a string or `NULL`. -/
  Gabspath : Option (List Nat)
  /-- The variable `Gversion`. -/
  Gversion : cvs_version
  /-- The variable `Gversion_number`, a string. -/
  Gversion_number : List Nat
  /-- The contents of the output buffer `Goutbuf`. -/
  Goutbuf : List Nat
  /-- The input cursor `Ginbuf`. -/
  Ginbuf : in_buffer_type
  /-- The edit buffer `Gline`, `Ggap`, `Ggapsize`, `Glinemax`. -/
  edit : EditBuffer LinePtr

/-- The function `getfullRCSname`.  The working directory is asked for with a
buffer of `_POSIX_PATH_MAX + 1 = 257` bytes; when it does not fit, the source
repeats the same call of `getcwd` for ever. -/
def getfullRCSname (env : Env) (g : Globals) : Run (List Nat × Globals) :=
  if g.Gfilename.headD 0 = 47 then .ok (g.Gfilename, g)
  else
    match g.Gabspath with
    | some path => .ok (path, g)
    | none =>
      if env.cwd.length + 1 > 257 then .hang
      else
        let wd := (env.cwd.reverse.dropWhile fun b => b = 47).reverse
        let path := wd ++ 47 :: stripDotSlash (g.Gfilename.length + 1) g.Gfilename
        .ok (path, { g with Gabspath := some path })
where
  /-- The loop `for (r = Gfilename; r[0]=='.' && r[1] == '/'; r += 2)
  while (r[2] == '/') r++;`. -/
  stripDotSlash : Nat → List Nat → List Nat
    | 0, r => r
    | fuel + 1, r =>
      if r.headD 0 = 46 ∧ r.tail.headD 0 = 47 then
        stripDotSlash fuel ((r.drop 2).dropWhile fun b => b = 47)
      else r

/-- The loop `for (;;) { c = in_buffer_ungetc(); ... }` of `keyreplace` that
backs up to the start of the current input line. -/
def back_to_line_start : Nat → in_buffer_type → Run in_buffer_type
  | 0, _ => .fault
  | fuel + 1, s =>
    if (in_buffer_ungetc s).1 = EOF then .ok (in_buffer_ungetc s).2
    else if (in_buffer_ungetc s).1 = 10 then .ok (in_buffer_getc (in_buffer_ungetc s).2).2
    else back_to_line_start fuel (in_buffer_ungetc s).2

/-- The loop `for (cs = 0; ; cs++) { c = in_buffer_getc(); if (c == KDELIM) break;
leader[cs] = c; }` of `keyreplace`: the bytes stored in `leader`.  At the end of
the text the source stores `EOF` bytes without end. -/
def read_leader : Nat → in_buffer_type → List Nat → Run (List Nat × in_buffer_type)
  | 0, _, _ => .fault
  | fuel + 1, s, leader =>
    if (in_buffer_getc s).1 = KDELIM then .ok (leader, (in_buffer_getc s).2)
    else if (in_buffer_getc s).1 = EOF then .fault
    else read_leader fuel (in_buffer_getc s).2 (leader ++ [((in_buffer_getc s).1 % 256).toNat])

/-- The loop `do { c = in_buffer_getc(); } while (c != KDELIM);` of `keyreplace`.
At the end of the text the read returns `EOF` for ever. -/
def skip_to_kdelim : Nat → in_buffer_type → Run in_buffer_type
  | 0, _ => .fault
  | fuel + 1, s =>
    if (in_buffer_getc s).1 = KDELIM then .ok (in_buffer_getc s).2
    else if (in_buffer_getc s).1 = EOF then .hang
    else skip_to_kdelim fuel (in_buffer_getc s).2

/-- The conversion of a C or Pascal comment leader in `keyreplace`: when the
first byte that is not white space is `/` or `(`, the next one is `*` and only
white space follows, the first of the two is replaced by a blank. -/
def convert_leader (leader : List Nat) : List Nat :=
  let cs := leader.length
  let cw := (leader.takeWhile fun b => latin1_whitespace b).length
  if cw + 1 < cs ∧ leader.getD (cw + 1) 0 = 42 ∧
      (leader.getD cw 0 = 47 ∨ leader.getD cw 0 = 40) then
    if (leader.drop (cw + 2)).all fun b => latin1_whitespace b then leader.set cw 32
    else leader
  else leader

/-- The loop `for (; cw && (xxp[cw-1]==' ' || xxp[cw-1]=='\t'); --cw);` of
`keyreplace`: the leader without its trailing blanks and tabs. -/
def trim_leader (leader : List Nat) : List Nat :=
  (leader.reverse.dropWhile fun b => decide (b = 32) || decide (b = 9)).reverse

/-- The inner loop `do { out_putc(c); if (!ls) break; --ls; c = *sp++; }
while (c != '\n');` of the log output of `keyreplace`: the output and the rest of
the log after the loop, and whether the loop left by `break`. -/
def log_line : Int → List Nat → List Nat → List Nat × List Nat
  | c, sp, out =>
    match sp with
    | [] => (out_putc c out, [])
    | c' :: sp' => if c' ≠ 10 then log_line c' sp' (out_putc c out)
                   else (out_putc c out, sp')

/-- The loop `for (;;) { out_putc('\n'); out_awrite(xxp, cw); if (!ls) break; ... }`
of the log output of `keyreplace`, with `trimmed` the first `cw` bytes of the
leader and `tail` the `cs - cw` bytes after them. -/
def log_lines : Nat → List Nat → List Nat → List Nat → List Nat → List Nat
  | 0, _, _, _, out => out
  | fuel + 1, trimmed, tail, sp, out =>
    let out1 := out_awrite trimmed (out_putc 10 out)
    match sp with
    | [] => out1
    | c :: sp' =>
      if c ≠ 10 then
        let r := log_line c sp' (out_awrite tail out1)
        log_lines fuel trimmed tail r.2 r.1
      else log_lines fuel trimmed tail sp' out1

/-- The value part of `keyreplace`: the `switch (marker)`.  The variable
`target_lockedby` of the source is always `NULL`, so that the `Locker` case and
the locker of `Id` and `Header` write nothing. -/
def keyvalue (env : Env) (marker : markers) (g : Globals) : Run Globals :=
  let date_string := env.date_string g.Gversion.date
  let tail : List Nat := 32 :: g.Gversion_number ++ 32 :: date_string ++
    32 :: cstr g.Gversion.author ++ 32 :: cstr g.Gversion.state
  match marker with
  | .Author => .ok { g with Goutbuf := out_fputs g.Gversion.author g.Goutbuf }
  | .Date => .ok { g with Goutbuf := out_fputs date_string g.Goutbuf }
  | .Id =>
    .ok { g with Goutbuf := escape_string (basefilename g.Gfilename) g.Goutbuf ++ tail }
  | .Header =>
    (getfullRCSname env g).bind fun r =>
    .ok { r.2 with Goutbuf := escape_string r.1 r.2.Goutbuf ++ tail }
  | .Locker => .ok g
  | .Log => .ok { g with Goutbuf := escape_string (basefilename g.Gfilename) g.Goutbuf }
  | .RCSfile => .ok { g with Goutbuf := escape_string (basefilename g.Gfilename) g.Goutbuf }
  | .Revision => .ok { g with Goutbuf := out_fputs g.Gversion_number g.Goutbuf }
  | .Source =>
    (getfullRCSname env g).bind fun r =>
    .ok { r.2 with Goutbuf := escape_string r.1 r.2.Goutbuf }
  | .State => .ok { g with Goutbuf := out_fputs g.Gversion.state g.Goutbuf }
  | _ => .ok g

/-- The `Log` part of `keyreplace`, after the test of `ciklog`. -/
def keyreplace_log (env : Env) (g : Globals) : Run Globals :=
  (back_to_line_start (g.Ginbuf.read_count.toNat + 1) g.Ginbuf).bind fun s1 =>
  (read_leader (readFuel s1) s1 []).bind fun r =>
  let leader := convert_leader r.1
  (skip_to_kdelim (readFuel r.2) r.2).bind fun s3 =>
  let trimmed := trim_leader leader
  let out1 := out_awrite leader (out_putc 10 g.Goutbuf)
  let out2 := out1 ++ [82, 101, 118, 105, 115, 105, 111, 110, 32] ++ g.Gversion_number ++
    [32, 32] ++ env.date_string g.Gversion.date ++ [32, 32] ++ cstr g.Gversion.author
  .ok { g with Ginbuf := s3,
               Goutbuf := log_lines (g.Glog.length + 1) trimmed
                 (leader.drop trimmed.length) (cstr g.Glog) out2 }

/-- The function `keyreplace`. -/
def keyreplace (env : Env) (marker : markers) (g : Globals) : Run Globals :=
  let exp := g.Gexpand
  let g1 : Globals :=
    if exp ≠ .EXPANDKV then { g with Goutbuf := g.Goutbuf ++ KDELIM :: Keyword marker } else g
  (if exp ≠ .EXPANDKK then
    let g2 : Globals :=
      if exp ≠ .EXPANDKV then { g1 with Goutbuf := g1.Goutbuf ++ [VDELIM, 32] } else g1
    (keyvalue env marker g2).bind fun g3 =>
    .ok (if exp ≠ .EXPANDKV then { g3 with Goutbuf := out_putc 32 g3.Goutbuf } else g3)
   else .ok g1).bind fun g4 =>
  let g5 : Globals :=
    if exp ≠ .EXPANDKV then { g4 with Goutbuf := out_putc KDELIM g4.Goutbuf } else g4
  if marker = .Log then
    if ciklog.length ≤ (cstr g5.Glog).length ∧ (cstr g5.Glog).take ciklog.length = ciklog then
      .ok g5
    else keyreplace_log env g5
  else .ok g5

/-- The loop of `expandline` that copies the letters after `KDELIM` into
`Gkeyval`: `for (;;) { c = in_buffer_getc(); if (tp <= &Gkeyval[KEYLENGTH] &&
latin1_alpha(c)) *tp++ = c; else break; }`, with `kv` the bytes stored so far.
The argument of `latin1_alpha` is a `uchar`, so that `EOF` counts as the letter
255. -/
def scan_keyword : Nat → List Nat → in_buffer_type → Run (List Nat × Int × in_buffer_type)
  | 0, _, _ => .fault
  | fuel + 1, kv, s =>
    if kv.length ≤ KEYLENGTH ∧ latin1_alpha (((in_buffer_getc s).1 % 256).toNat) then
      scan_keyword fuel (kv ++ [((in_buffer_getc s).1 % 256).toNat]) (in_buffer_getc s).2
    else .ok (kv, (in_buffer_getc s).1, (in_buffer_getc s).2)

/-- The loop of `expandline` that reads the value after `VDELIM`: the bytes
stored, the byte that ended the loop, the cursor and the value of `Gkvlen`. -/
def scan_value : Nat → List Nat → Int → in_buffer_type →
    Run (List Nat × Int × in_buffer_type × Int)
  | 0, _, _, _ => .fault
  | fuel + 1, kv, kvlen, s =>
    let c := (in_buffer_getc s).1
    if c = 10 ∨ c = KDELIM then .ok (kv, c, (in_buffer_getc s).2, kvlen)
    else
      let kv' := kv ++ [(c % 256).toNat]
      let kvlen' := if kvlen ≤ kv'.length then kvlen * 2 else kvlen
      if c = EOF then .ok (kv', c, (in_buffer_getc s).2, kvlen')
      else scan_value fuel kv' kvlen' (in_buffer_getc s).2

/-- The two nested loops of `expandline`, entered at the `switch` with the byte
`c`; the result is the value `r + e` that `expandline` returns. -/
def expandline_loop (env : Env) : Nat → Int → Int → Int → Globals → Run (Int × Globals)
  | 0, _, _, _, _ => .outOfFuel
  | fuel + 1, c, r, e, g =>
    if c = EOF then .ok (r + e, g)
    else if c = 10 then .ok (2 + e, { g with Goutbuf := out_putc c g.Goutbuf })
    else if c = KDELIM then
      (scan_keyword (KEYLENGTH + 2) [KDELIM] g.Ginbuf).bind fun k =>
      let kv := k.1 ++ [(k.2.1 % 256).toNat]
      let c1 := k.2.1
      let g1 : Globals := { g with Ginbuf := k.2.2 }
      let matchresult := trymatch kv.tail
      if matchresult = .Nomatch then
        expandline_loop env fuel c1 0 e { g1 with Goutbuf := out_fputs k.1 g1.Goutbuf }
      else if c1 = VDELIM then
        (scan_value (readFuel g1.Ginbuf) kv g1.Gkvlen g1.Ginbuf).bind fun v =>
        let g2 : Globals := { g1 with Ginbuf := v.2.2.1, Gkvlen := v.2.2.2 }
        if v.2.1 = EOF then
          .ok (0 + e, { g2 with Goutbuf := out_fputs v.1 g2.Goutbuf })
        else if v.2.1 ≠ KDELIM then
          expandline_loop env fuel v.2.1 0 e { g2 with Goutbuf := out_fputs v.1 g2.Goutbuf }
        else
          (keyreplace env matchresult g2).bind fun g3 =>
          expandline_loop env fuel (in_buffer_getc g3.Ginbuf).1 0 1
            { g3 with Ginbuf := (in_buffer_getc g3.Ginbuf).2 }
      else
        (keyreplace env matchresult g1).bind fun g3 =>
        expandline_loop env fuel (in_buffer_getc g3.Ginbuf).1 0 1
          { g3 with Ginbuf := (in_buffer_getc g3.Ginbuf).2 }
    else
      expandline_loop env fuel (in_buffer_getc g.Ginbuf).1 0 e
        { g with Goutbuf := out_putc c g.Goutbuf, Ginbuf := (in_buffer_getc g.Ginbuf).2 }

/-- The function `expandline`; `fuel` bounds the number of turns of its loop. -/
def expandline (env : Env) (fuel : Nat) (g : Globals) : Run (Int × Globals) :=
  let g0 : Globals := if g.Gkvlen < KEYLENGTH + 3 then { g with Gkvlen := KEYLENGTH + 3 } else g
  expandline_loop env fuel (in_buffer_getc g0.Ginbuf).1 (-1) 0
    { g0 with Ginbuf := (in_buffer_getc g0.Ginbuf).2 }

/-- The type `enum stringwork`. -/
inductive stringwork where
  /-- The work `ENTER`. -/
  | ENTER
  /-- The work `COPY`. -/
  | COPY
  /-- The work `EDIT`. -/
  | EDIT
  /-- The work `EXPAND`. -/
  | EXPAND
  deriving DecidableEq, Repr

/-- The loop `while (expandline() > 1) ;` of the `EXPAND` case of
`process_delta`. -/
def expand_loop (env : Env) : Nat → Globals → Run Globals
  | 0, _ => .outOfFuel
  | fuel + 1, g =>
    (expandline env fuel g).bind fun r =>
    if r.1 > 1 then expand_loop env fuel r.2 else .ok r.2

/-- The function `process_delta`.  A null `patch` is read through; `fuel`
bounds the work of the keyword engine. -/
def process_delta (env : Env) (fuel : Nat) (deltas : delta_list) (func : stringwork)
    (g : Globals) : Run Globals :=
  match deltas.patch with
  | none => .fault
  | some patch =>
    (in_buffer_init patch.text true).bind fun s =>
    let g1 : Globals :=
      { g with Glog := patch.log, Ginbuf := s, Gversion := deltas.version,
               Gversion_number := cvs_number_string deltas.version.number }
    match func with
    | .ENTER =>
      (process_delta_ENTER g1.edit g1.Ginbuf g1.Goutbuf).bind fun r =>
      .ok { g1 with edit := r.1, Ginbuf := r.2.1, Goutbuf := r.2.2 }
    | .COPY =>
      (process_delta_COPY g1.Ginbuf g1.Goutbuf).bind fun r =>
      .ok { g1 with Ginbuf := r.1, Goutbuf := r.2 }
    | .EXPAND => expand_loop env fuel g1
    | .EDIT =>
      (process_delta_EDIT g1.edit g1.Ginbuf).bind fun r =>
      .ok { g1 with edit := r.1, Ginbuf := r.2 }

/-- The calls `in_buffer_init(*p++, 0); expandline();` of `finishedit` for a
sequence of line pointers. -/
def finish_lines (env : Env) (fuel : Nat) : List LinePtr → Globals → Run Globals
  | [], g => .ok g
  | l :: ls, g =>
    match l with
    | none => .fault
    | some bytes =>
      (in_buffer_init bytes false).bind fun s =>
      (expandline env fuel { g with Ginbuf := s }).bind fun r =>
      finish_lines env fuel ls r.2

/-- The function `finishedit`. -/
def finishedit (env : Env) (fuel : Nat) (g : Globals) : Run Globals :=
  finish_lines env fuel (liveLines g.edit) g

/-- The calls `process_delta(deltas, EDIT)` of `buildrevision` for the entries
after the first. -/
def edit_deltas (env : Env) (fuel : Nat) : List delta_list → Globals → Run Globals
  | [], g => .ok g
  | d :: ds, g => (process_delta env fuel d .EDIT g).bind (edit_deltas env fuel ds)

/-- The function `buildrevision`; an empty list is the null pointer, which the
source reads through.  The final `free(Gabspath)` leaves the variable as it
is. -/
def buildrevision (env : Env) (fuel : Nat) (deltas : List delta_list) (g : Globals) :
    Run Globals :=
  let expandflag := decide (g.Gexpand.toNat < expand_mode.EXPANDKO.toNat)
  let g0 : Globals := { g with Gabspath := none }
  (match deltas with
   | [] => Run.fault
   | [d] => process_delta env fuel d (if expandflag then .EXPAND else .COPY) g0
   | d :: ds =>
     (process_delta env fuel d .ENTER { g0 with edit := emptyBuffer g0.edit.Gline }).bind
       fun g1 =>
     (edit_deltas env fuel ds g1).bind fun g2 =>
     (if expandflag then finishedit env fuel g2
      else (snapshotedit g2.edit g2.Goutbuf).bind fun out =>
        .ok { g2 with Goutbuf := out }).bind fun g3 =>
     .ok { g3 with edit := emptyBuffer g3.edit.Gline }).bind fun g4 =>
  .ok { g4 with Gkvlen := 0 }

/-- The global variables as `rcs2git` sets them before it calls
`get_revision_delta_list` and `buildrevision`: `Gfilename`, `Gexpand`, the empty
output buffer; the other variables have their initial values. -/
def initialGlobals (cvs : cvs_file) (gline : Nat → LinePtr) : Globals :=
  { Gexpand := match cvs.expand with
      | some e => expand_override e
      | none => .EXPANDKK,
    Glog := [], Gkvlen := 0, Gfilename := cvs.name, Gabspath := none,
    Gversion := { number := [], author := [], date := 0, state := [] },
    Gversion_number := [], Goutbuf := [],
    Ginbuf := { buffer := [], ptr := 0, read_count := 0 },
    edit := emptyBuffer gline }

/-- The function `rcs2git` up to the call of `write_sha1_file`: the bytes of the
blob it hands over. -/
def rcs2git (env : Env) (fuel : Nat) (cvs : cvs_file) (revision : cvs_number)
    (gline : Nat → LinePtr) : Run (List Nat) :=
  (buildrevision env fuel (get_revision_delta_list cvs revision)
    (initialGlobals cvs gline)).bind fun g => .ok g.Goutbuf

/-! ## Concrete inputs -/

/-- An edit buffer that holds the three lines `A`, `B`, `C` in an array of 1024
cells, as `process_delta` in `ENTER` mode leaves it. -/
def bufferABC : EditBuffer LinePtr :=
  { Gline := fun i => some [65 + i, 10], Ggap := 3, Ggapsize := 1021, Glinemax := 1024 }

/-- The cursor after `in_buffer_init(text, 1)` on the script
`d2 2`, `a2 1`, `X`: the append addresses line 2, which the delete removed. -/
def scriptAppendInsideDelete : in_buffer_type :=
  { buffer := [64, 100, 50, 32, 50, 10, 97, 50, 32, 49, 10, 88, 10, 64], ptr := 1,
    read_count := 0 }

/-- The cursor after `in_buffer_init(text, 1)` on the script
`d2 1`, `a2 1`, `X`, which replaces line 2. -/
def scriptReplaceLine : in_buffer_type :=
  { buffer := [64, 100, 50, 32, 49, 10, 97, 50, 32, 49, 10, 88, 10, 64], ptr := 1,
    read_count := 0 }

/-- The state `process_delta` in `EDIT` mode reaches on `bufferABC` and
`scriptReplaceLine`. -/
def editedReplaceLine : EditBuffer LinePtr × in_buffer_type :=
  match process_delta_EDIT bufferABC scriptReplaceLine with
  | .ok r => r
  | _ => (bufferABC, scriptReplaceLine)

/-- The invariant of the first loop of `get_revision_delta_list`: the entries
are needed versions with a component, and if the target is among them it is
the last. -/
def TargetLast (t : cvs_number) (l : List delta_list) : Prop :=
  (∀ x ∈ l, x.version.number ≠ [] ∧ delta_is_needed x.version.number t ≠ 0) ∧
  (t ∈ chainNumbers l → (chainNumbers l).getLast? = some t)

/-- A file with the trunk revisions 1.3, 1.2, 1.1, head first, and no patch. -/
def fileTrunk : cvs_file :=
  { name := [102], expand := none,
    versions := [versionOf [1, 3], versionOf [1, 2], versionOf [1, 1]], patches := [] }

/-- A file with the revisions 1.2, 1.1 and the branch revision 1.2.1.1. -/
def fileBranch : cvs_file :=
  { name := [102], expand := none,
    versions := [versionOf [1, 2], versionOf [1, 1], versionOf [1, 2, 1, 1]], patches := [] }

/-- A patch record with the given number, an empty log and an empty text. -/
def patchOf (number : cvs_number) : cvs_patch :=
  { number := number, log := [], text := [64, 64] }

/-- A file with the revisions 1.2, 1.1 whose patch collection lists the patch
of 1.1 before the patch of 1.2. -/
def filePatchesReversed : cvs_file :=
  { name := [102], expand := none, versions := [versionOf [1, 2], versionOf [1, 1]],
    patches := [patchOf [1, 1], patchOf [1, 2]] }

/-- A file with the revisions 1.2, 1.1 whose patch collection lists the patch
of 1.2 before the patch of 1.1. -/
def filePatchesInOrder : cvs_file :=
  { name := [102], expand := none, versions := [versionOf [1, 2], versionOf [1, 1]],
    patches := [patchOf [1, 2], patchOf [1, 1]] }

/-- A file with the revisions 1.2, 1.1 and the patch of 1.2 only. -/
def filePatchMissing : cvs_file :=
  { name := [102], expand := none, versions := [versionOf [1, 2], versionOf [1, 1]],
    patches := [patchOf [1, 2]] }

/-- An environment: every date is rendered as `2020/01/02 03:04:05`, the
working directory is `/w`. -/
def envExample : Env :=
  { date_string := fun _ => [50, 48, 50, 48, 47, 48, 49, 47, 48, 50, 32, 48, 51, 58, 48, 52,
      58, 48, 53],
    cwd := [47, 119] }

/-- A file in mode `o` with the trunk revisions 1.3, 1.2, 1.1; the patch of the
head 1.3 holds the text `a@b` and a newline, stored as `@a@@b`, newline, `@`. -/
def fileBase : cvs_file :=
  { name := [102], expand := some [111],
    versions := [versionOf [1, 3], versionOf [1, 2], versionOf [1, 1]],
    patches := [{ number := [1, 3], log := [], text := storedText [97, 64, 98, 10] [10] },
                patchOf [1, 2], patchOf [1, 1]] }

/-- The order that `compare_deltas` decides, read off the first index at which
two numbers differ. -/
def AppliedBefore (a b : cvs_number) : Prop :=
  (∃ i, i < a.length ∧ i < b.length ∧ (∀ j < i, a.getD j 0 = b.getD j 0) ∧
    (if i < 2 then b.getD i 0 < a.getD i 0 else a.getD i 0 < b.getD i 0)) ∨
  ((∀ j, j < a.length → j < b.length → a.getD j 0 = b.getD j 0) ∧ a.length < b.length)

/-- The reads of `parse_next_delta_command` on a command line, after the test of
`EOF`: the command letter `cmd`, `line1 = parsenum()`, the blanks,
`nlines = parsenum()` and the rest of the line up to its newline.  The result is
`cmd`, `line1`, `nlines` and the cursor behind the newline. -/
def read_delta_command (s : in_buffer_type) : Run (Int × Int × Int × in_buffer_type) :=
  (parsenum (in_buffer_getc s).2).bind fun r1 =>
  (skip_spaces (readFuel r1.2) r1.2).bind fun s3 =>
  (parsenum (in_buffer_ungetc s3).2).bind fun r2 =>
  (skip_to_newline (readFuel r2.2) r2.2).bind fun s6 =>
  .ok ((in_buffer_getc s).1, r1.1, r2.1, s6)

/-- The cursor after `in_buffer_init(text, 1)` on the script `d4 1`, `d3 2`. -/
def scriptBackwardDelete : in_buffer_type :=
  { buffer := [64, 100, 52, 32, 49, 10, 100, 51, 32, 50, 10, 64], ptr := 1, read_count := 0 }

/-- The record `dc` and the cursor after `parse_next_delta_command` has read the
first command of `scriptBackwardDelete`. -/
def afterFirstDelete : diffcmd × in_buffer_type :=
  ({ line1 := 4, nlines := 1, adprev := 4, dafter := 5 },
   { buffer := [64, 100, 52, 32, 49, 10, 100, 51, 32, 50, 10, 64], ptr := 6, read_count := 5 })

/-- The cursor after `in_buffer_init(text, 1)` on the script `a1 1`, `X`, `a1 1`,
`Y`: two appends with the same `line1`. -/
def scriptTwoAppends : in_buffer_type :=
  { buffer := [64, 97, 49, 32, 49, 10, 88, 10, 97, 49, 32, 49, 10, 89, 10, 64],
    ptr := 1, read_count := 0 }

/-- The cursor of `scriptTwoAppends` at the second command, behind the line `X`. -/
def scriptSecondAppend : in_buffer_type :=
  { buffer := [64, 97, 49, 32, 49, 10, 88, 10, 97, 49, 32, 49, 10, 89, 10, 64],
    ptr := 8, read_count := 7 }

/-- The cursor after `in_buffer_init(text, 1)` on the script `a1 1`, `X`, `a2 1`,
`Y`, at its second command. -/
def scriptIncreasingAppend : in_buffer_type :=
  { buffer := [64, 97, 49, 32, 49, 10, 88, 10, 97, 50, 32, 49, 10, 89, 10, 64],
    ptr := 8, read_count := 7 }

/-- The cursor after `in_buffer_init(text, 1)` on the script `a5 0`. -/
def scriptZeroAppend : in_buffer_type :=
  { buffer := [64, 97, 53, 32, 48, 10, 64], ptr := 1, read_count := 0 }

/-- Reference: the keyword token that `keyreplace` writes for a keyword `name`
with the value `value`: the value alone in mode `v`, `$name$` in mode `k`, and
`$name: value $` in the other modes. -/
def keywordToken (exp : expand_mode) (name value : List Nat) : List Nat :=
  if exp = .EXPANDKV then value
  else if exp = .EXPANDKK then KDELIM :: name ++ [KDELIM]
  else KDELIM :: name ++ [VDELIM, 32] ++ value ++ [32, KDELIM]

/-- The global variables for the file `foo.c` at revision 1.3 by `alice` in
state `Exp`, in the expansion mode `mode`, with the log `log` and the input
cursor at the start of `text`, as `in_buffer_init(text, 0)` leaves it. -/
def globalsFoo (mode : expand_mode) (text log : List Nat) : Globals :=
  { Gexpand := mode, Glog := log, Gkvlen := 0, Gfilename := [102, 111, 111, 46, 99],
    Gabspath := none,
    Gversion := { number := [1, 3], author := [97, 108, 105, 99, 101], date := 0,
                  state := [69, 120, 112] },
    Gversion_number := [49, 46, 51], Goutbuf := [],
    Ginbuf := { buffer := text, ptr := 0, read_count := 0 },
    edit := emptyBuffer fun _ => none }

/-- The bytes that `keyvalue` writes for the keyword `Id`: the output of
`escape_string(basefilename(Gfilename))` and of the `out_printf` with the format
`" %s %s %s %s"` that follows it. -/
def idValue (env : Env) (g : Globals) : List Nat :=
  escape_string (basefilename g.Gfilename) [] ++ 32 :: g.Gversion_number ++
    32 :: env.date_string g.Gversion.date ++ 32 :: cstr g.Gversion.author ++
    32 :: cstr g.Gversion.state

/-- Reference: the lines of a log message: the bytes up to each newline; a
newline at the very end opens no further line.  The first argument bounds the
number of lines. -/
def messageLines : Nat → List Nat → List (List Nat)
  | 0, _ => []
  | _ + 1, [] => []
  | fuel + 1, c :: sp =>
    (c :: sp).takeWhile (fun b => b ≠ 10) ::
      messageLines fuel (((c :: sp).dropWhile fun b => b ≠ 10).drop 1)

/-- Reference: the keyword token of `Log`, whose value is the escaped base file
name. -/
def logToken (g : Globals) : List Nat :=
  keywordToken g.Gexpand (Keyword .Log) (escape_string (basefilename g.Gfilename) [])

/-- Reference: the header `Revision <rev>  <date>  <author>` of a log entry. -/
def logHeader (rev date author : List Nat) : List Nat :=
  [82, 101, 118, 105, 115, 105, 111, 110, 32] ++ rev ++ [32, 32] ++ date ++ [32, 32] ++ author

/-- Reference: the log entry after the keyword token, for the leader `L`: a
newline, `L` and the header; then every line of the message on an output line
of its own, a line that is not empty after `L` and an empty one after `L`
without its trailing blanks and tabs; then a newline and `L` without its
trailing blanks and tabs. -/
def logEntry (L rev date author log : List Nat) : List Nat :=
  10 :: L ++ logHeader rev date author ++
    (messageLines log.length log).flatMap
      (fun line => if line = [] then 10 :: trim_leader L else 10 :: L ++ line) ++
    10 :: trim_leader L

/-- Reference: the log entry in the words of the specification: a newline, `L`
and the header, then every line of the message on an output line of its own
after `L` without its trailing blanks and tabs. -/
def logEntryAsSpecified (L rev date author log : List Nat) : List Nat :=
  10 :: L ++ logHeader rev date author ++
    (messageLines log.length log).flatMap (fun line => 10 :: trim_leader L ++ line)

/-- The global variables of `globalsFoo` in mode `kv` with the log `fix`, on the
line ` * $Log$` followed by a newline and the end of the text, with the input
cursor behind the keyword, where `expandline` calls `keyreplace`. -/
def globalsAtLog : Globals :=
  { globalsFoo .EXPANDKKV [32, 42, 32, 36, 76, 111, 103, 36, 10, 64] [102, 105, 120] with
    Ginbuf := { buffer := [32, 42, 32, 36, 76, 111, 103, 36, 10, 64], ptr := 8,
                read_count := 8 } }

/-- No keyword of the table, followed by `$` or `:`, stands directly behind a
`$` of the text `W`. -/
def NoKeywordIn (W : List Nat) : Prop :=
  ∀ U V, W = U ++ 36 :: V → ∀ k, k ≠ markers.Nomatch →
    ¬ (Keyword k ++ [36] <+: V) ∧ ¬ (Keyword k ++ [58] <+: V)

/-- A cursor on the text `a@@b@` that has read the byte `a` and stands before the
doubled delimiter. -/
def cursorBeforeDoubled : in_buffer_type :=
  { buffer := [97, 64, 64, 98, 64], ptr := 1, read_count := 1 }

/-- The cursor after `in_buffer_init(text, 1)` on the script `d1 1` whose command
line has no newline before the closing delimiter: the text `@d1 1@`. -/
def scriptNoNewline : in_buffer_type :=
  { buffer := [64, 100, 49, 32, 49, 64], ptr := 1, read_count := 0 }

/-- The cursor `s` after the bytes `W` have been read from it: the position has
moved over their stored form and the read count has grown by their number. -/
def cursorAfter (s : in_buffer_type) (W : List Nat) : in_buffer_type :=
  { s with ptr := s.ptr + (doubleDelimiters W).length, read_count := s.read_count + W.length }

/-- Reference: the base file name in the words of the specification, the "final
path segment after the last separator": the longest part at the end of the name
that holds no `/`. -/
def baseNameAsSpecified (p : List Nat) : List Nat :=
  (p.reverse.takeWhile fun b => b ≠ 47).reverse

/-- Reference: the escaping rule of the specification for one byte: "tab→`\t`,
newline→`\n`, space→`\040`, the keyword-delimiter character→its octal escape,
backslash→`\\`, all else verbatim". -/
def escapeByteAsSpecified (c : Nat) : List Nat :=
  if c = 9 then [92, 116]
  else if c = 10 then [92, 110]
  else if c = 32 then [92, 48, 52, 48]
  else if c = 36 then [92, 48, 52, 52]
  else if c = 92 then [92, 92]
  else [c]

/-- Reference: a string with the escaping rule applied to each of its bytes. -/
def escapeAsSpecified (s : List Nat) : List Nat := s.flatMap escapeByteAsSpecified

/-- Reference: the value of the keyword `Id` in the words of the specification:
the escaped base file name, then the revision, the date, the author and the
state, each preceded by one blank. -/
def idValueAsSpecified (env : Env) (g : Globals) : List Nat :=
  escapeAsSpecified (baseNameAsSpecified g.Gfilename) ++ 32 :: g.Gversion_number ++
    32 :: env.date_string g.Gversion.date ++ 32 :: cstr g.Gversion.author ++
    32 :: cstr g.Gversion.state

/-- The global variables of `globalsFoo` in mode `kv` on the input `$Id$`, for a
file with the name `src/a $b.c`: a directory, a blank and a `$`. -/
def globalsInDir : Globals :=
  { globalsFoo .EXPANDKKV [36, 73, 100, 36, 64] [] with
    Gfilename := [115, 114, 99, 47, 97, 32, 36, 98, 46, 99] }

/-! ## The edit buffer refines the list model -/

theorem liveLines_length {α : Type} (s : EditBuffer α) (h : s.Ggap + s.Ggapsize ≤ s.Glinemax) :
    (liveLines s).length = s.Glinemax - s.Ggapsize := by
  simp [liveLines]; omega

theorem liveLines_getElem {α : Type} (s : EditBuffer α) (i : Nat)
    (h : i < (liveLines s).length) : (liveLines s)[i] = lineAt s i := by
  unfold liveLines at h ⊢
  simp only [List.length_append, List.length_map, List.length_range] at h
  by_cases hi : i < s.Ggap
  · rw [List.getElem_append_left (by simpa using hi)]
    simp [lineAt, hi]
  · rw [List.getElem_append_right (by simpa using hi)]
    simp only [List.length_map, List.length_range, List.getElem_map, List.getElem_range,
      lineAt, hi, if_false]
    congr 1; omega

theorem growGap_spec {α : Type} (s : EditBuffer α) (hwf : s.WF)
    (hsz : s.Glinemax - s.Ggapsize < 2305843009213693952) :
    (growGap s).WF ∧ 0 < (growGap s).Ggapsize ∧
      (growGap s).Glinemax - (growGap s).Ggapsize = s.Glinemax - s.Ggapsize ∧
      ∀ i, i < s.Glinemax - s.Ggapsize → lineAt (growGap s) i = lineAt s i := by
  obtain ⟨h1, h2⟩ := hwf
  unfold growGap
  by_cases hg : s.Ggapsize = 0
  · by_cases hm : s.Glinemax ≠ 0
    · rw [if_pos hg, if_pos hm]
      refine ⟨⟨?_, ?_⟩, ?_, ?_, ?_⟩
      · simp only [SIZE_MOD]; omega
      · simp only [SIZE_MOD]; omega
      · simp only; omega
      · simp only [SIZE_MOD]; omega
      · intro i hi
        simp only [lineAt]
        rw [if_pos (by omega)]
        by_cases h : i < s.Ggap
        · rw [if_pos h]
        · rw [if_neg h, hg]; rfl
    · rw [if_pos hg, if_neg hm]
      refine ⟨⟨?_, ?_⟩, ?_, ?_, ?_⟩
      · simp only; omega
      · simp only; omega
      · simp only; omega
      · simp only; omega
      · intro i hi
        omega
  · rw [if_neg hg]
    exact ⟨⟨h1, h2⟩, by omega, rfl, fun _ _ => rfl⟩

theorem insertline_spec {α : Type} (n : Nat) (l : α) (s : EditBuffer α)
    (hwf : s.WF) (hn : n ≤ s.Glinemax - s.Ggapsize)
    (hsz : s.Glinemax - s.Ggapsize < 2305843009213693952) :
    ∃ s', insertline n l s = .ok s' ∧ s'.WF ∧
      s'.Glinemax - s'.Ggapsize = s.Glinemax - s.Ggapsize + 1 ∧
      ∀ i, i < s.Glinemax - s.Ggapsize + 1 →
        lineAt s' i = if i < n then lineAt s i else if i = n then l else lineAt s (i - 1) := by
  have hfat : ¬ (n > usub s.Glinemax s.Ggapsize) := by
    obtain ⟨h1, h2⟩ := hwf
    unfold usub SIZE_MOD; omega
  obtain ⟨⟨g1, g2⟩, g3, g4, g5⟩ := growGap_spec s hwf hsz
  unfold insertline
  rw [if_neg hfat]
  generalize growGap s = s1 at *
  refine ⟨_, rfl, ⟨?_, ?_⟩, ?_, ?_⟩
  · simp only [usub, SIZE_MOD]; omega
  · exact g2
  · simp only [usub, SIZE_MOD]; omega
  · intro i hi
    have hu : usub s1.Ggapsize 1 = s1.Ggapsize - 1 := by simp only [usub, SIZE_MOD]; omega
    by_cases hin : i < n
    · have hx : i < s.Glinemax - s.Ggapsize := by omega
      have hy : i < n + 1 := by omega
      rw [if_pos hin, ← g5 i hx]
      unfold lineAt
      dsimp only
      rw [hu, if_pos hy]
      simp only [store]
      split_ifs <;> (try simp only [memmove]) <;> (try split_ifs) <;>
        first | rfl | (exfalso; omega) | (apply congrArg; omega)
    · by_cases hie : i = n
      · rw [if_neg hin, if_pos hie]
        unfold lineAt
        dsimp only
        have hy : i < n + 1 := by omega
        rw [if_pos hy]
        simp only [store]
        rw [if_pos hie]
      · have hx : i - 1 < s.Glinemax - s.Ggapsize := by omega
        have hy : ¬ i < n + 1 := by omega
        rw [if_neg hin, if_neg hie, ← g5 (i - 1) hx]
        unfold lineAt
        dsimp only
        rw [hu, if_neg hy]
        simp only [store]
        split_ifs <;> (try simp only [memmove]) <;> (try split_ifs) <;>
          first | rfl | (exfalso; omega) | (apply congrArg; omega)

theorem deletelines_spec {α : Type} (n count : Nat) (s : EditBuffer α)
    (hwf : s.WF) (hn : n + count ≤ s.Glinemax - s.Ggapsize) :
    ∃ s', deletelines n count s = .ok s' ∧ s'.WF ∧
      s'.Glinemax - s'.Ggapsize = s.Glinemax - s.Ggapsize - count ∧
      ∀ i, i < s.Glinemax - s.Ggapsize - count →
        lineAt s' i = if i < n then lineAt s i else lineAt s (i + count) := by
  obtain ⟨h1, h2⟩ := hwf
  have hl : (n + count) % SIZE_MOD = n + count := by unfold SIZE_MOD; omega
  have hfat : ¬ (usub s.Glinemax s.Ggapsize < n + count ∨ n + count < n) := by
    unfold usub SIZE_MOD; omega
  have hg : (s.Ggapsize + count) % SIZE_MOD = s.Ggapsize + count := by unfold SIZE_MOD; omega
  unfold deletelines
  dsimp only
  rw [hl, hg, if_neg hfat]
  refine ⟨_, rfl, ⟨?_, ?_⟩, ?_, ?_⟩
  · simp only; omega
  · exact h2
  · simp only; omega
  · intro i hi
    simp only [lineAt]
    split_ifs <;> (try simp only [memmove]) <;> (try split_ifs) <;>
      first | rfl | (exfalso; omega) | (apply congrArg; omega)

theorem liveLines_insertline {α : Type} (n : Nat) (l : α) (s : EditBuffer α)
    (hwf : s.WF) (hn : n ≤ (liveLines s).length)
    (hsz : (liveLines s).length < 2305843009213693952) :
    ∃ s', insertline n l s = .ok s' ∧ s'.WF ∧
      liveLines s' = (liveLines s).take n ++ l :: (liveLines s).drop n := by
  have hlen := liveLines_length s hwf.1
  rw [hlen] at hn hsz
  obtain ⟨s', h1, h2, h3, h4⟩ := insertline_spec n l s hwf hn hsz
  refine ⟨s', h1, h2, ?_⟩
  have hlen' := liveLines_length s' h2.1
  apply List.ext_getElem
  · simp only [List.length_append, List.length_cons, List.length_take, List.length_drop]
    omega
  · intro i hi1 hi2
    rw [liveLines_getElem, h4 i (by omega)]
    by_cases hin : i < n
    · rw [if_pos hin, List.getElem_append_left (by simp; omega), List.getElem_take,
        liveLines_getElem]
    · rw [if_neg hin, List.getElem_append_right (by simp; omega)]
      have hk : (List.take n (liveLines s)).length = n := by simp; omega
      by_cases hie : i = n
      · rw [if_pos hie]
        simp only [hk, hie, Nat.sub_self, List.getElem_cons_zero]
      · rw [if_neg hie]
        simp only [hk]
        obtain ⟨k, hk2⟩ : ∃ k, i - n = k + 1 := ⟨i - n - 1, by omega⟩
        simp only [hk2, List.getElem_cons_succ, List.getElem_drop]
        rw [liveLines_getElem]
        apply congrArg; omega

theorem liveLines_deletelines {α : Type} (n count : Nat) (s : EditBuffer α)
    (hwf : s.WF) (hn : n + count ≤ (liveLines s).length) :
    ∃ s', deletelines n count s = .ok s' ∧ s'.WF ∧
      liveLines s' = (liveLines s).take n ++ (liveLines s).drop (n + count) := by
  have hlen := liveLines_length s hwf.1
  rw [hlen] at hn
  obtain ⟨s', h1, h2, h3, h4⟩ := deletelines_spec n count s hwf hn
  refine ⟨s', h1, h2, ?_⟩
  have hlen' := liveLines_length s' h2.1
  apply List.ext_getElem
  · simp only [List.length_append, List.length_take, List.length_drop]
    omega
  · intro i hi1 hi2
    rw [liveLines_getElem, h4 i (by omega)]
    by_cases hin : i < n
    · rw [if_pos hin, List.getElem_append_left (by simp; omega), List.getElem_take,
        liveLines_getElem]
    · rw [if_neg hin, List.getElem_append_right (by simp; omega)]
      have hk : (List.take n (liveLines s)).length = n := by simp; omega
      simp only [hk, List.getElem_drop]
      rw [liveLines_getElem]
      apply congrArg; omega

theorem runOps_refines {α : Type} (ops : List (EditOp α)) :
    ∀ (s : EditBuffer α), s.WF →
      (liveLines s).length + ops.length ≤ 2305843009213693952 →
      opsInBounds ops (liveLines s) →
      ∃ s', runOps ops s = .ok s' ∧ s'.WF ∧ liveLines s' = listOps ops (liveLines s) := by
  induction ops with
  | nil => intro s hwf _ _; exact ⟨s, rfl, hwf, rfl⟩
  | cons op ops ih =>
    intro s hwf hsz hb
    cases op with
    | insert n l =>
      obtain ⟨hb1, hb2⟩ := hb
      simp only [List.length_cons] at hsz
      obtain ⟨s1, e1, w1, l1⟩ := liveLines_insertline n l s hwf hb1 (by omega)
      have hl1 : (liveLines s1).length = (liveLines s).length + 1 := by
        rw [l1]; simp; omega
      obtain ⟨s2, e2, w2, l2⟩ := ih s1 w1 (by omega) (by rw [l1]; exact hb2)
      refine ⟨s2, ?_, w2, ?_⟩
      · simp only [runOps, runOp, e1, Run.bind]; exact e2
      · rw [l2, l1]; rfl
    | delete n count =>
      obtain ⟨hb1, hb2⟩ := hb
      simp only [List.length_cons] at hsz
      obtain ⟨s1, e1, w1, l1⟩ := liveLines_deletelines n count s hwf hb1
      have hl1 : (liveLines s1).length ≤ (liveLines s).length := by
        rw [l1]; simp; omega
      obtain ⟨s2, e2, w2, l2⟩ := ih s1 w1 (by omega) (by rw [l1]; exact hb2)
      refine ⟨s2, ?_, w2, ?_⟩
      · simp only [runOps, runOp, e1, Run.bind]; exact e2
      · rw [l2, l1]; rfl

theorem emptyBuffer_WF {α : Type} (g : Nat → α) : (emptyBuffer g).WF := by
  simp [emptyBuffer, EditBuffer.WF]

theorem liveLines_emptyBuffer {α : Type} (g : Nat → α) : liveLines (emptyBuffer g) = [] := by
  simp [emptyBuffer, liveLines]

/-- C1: starting from the empty edit buffer, a sequence of fewer than `2^61`
calls of `insertline` and `deletelines` that stay within the current bounds runs
to completion, the live lines `Gline[0 .. Ggap)` followed by
`Gline[Ggap+Ggapsize .. Glinemax)` are the result of the same calls on a plain
list, and their number is `Glinemax - Ggapsize`. -/
theorem gap_buffer_refines_list {α : Type} (g : Nat → α) (ops : List (EditOp α))
    (hlen : ops.length ≤ 2305843009213693952) (hb : opsInBounds ops []) :
    ∃ s, runOps ops (emptyBuffer g) = .ok s ∧
      liveLines s = listOps ops [] ∧
      (liveLines s).length = s.Glinemax - s.Ggapsize := by
  have h0 := liveLines_emptyBuffer g
  obtain ⟨s, e, w, l⟩ := runOps_refines ops (emptyBuffer g) (emptyBuffer_WF g)
    (by rw [h0]; simpa using hlen) (by rw [h0]; exact hb)
  exact ⟨s, e, by rw [l, h0], liveLines_length s w.1⟩


theorem gap_buffer_refines_list_witness :
    ∃ s, runOps [EditOp.insert 0 10, EditOp.insert 1 20, EditOp.insert 1 30, EditOp.delete 0 2]
        (emptyBuffer fun _ => 0) = .ok s ∧
      liveLines s =
        listOps [EditOp.insert 0 10, EditOp.insert 1 20, EditOp.insert 1 30, EditOp.delete 0 2] [] ∧
      (liveLines s).length = s.Glinemax - s.Ggapsize :=
  gap_buffer_refines_list (fun _ => 0)
    [EditOp.insert 0 10, EditOp.insert 1 20, EditOp.insert 1 30, EditOp.delete 0 2]
    (by decide) (by simp [opsInBounds, listOp])

/-! ## The diff-script interpreter against the original numbering -/

theorem Run.bind_eq_ok {α β : Type} (r : Run α) (f : α → Run β) (b : β) :
    r.bind f = .ok b ↔ ∃ a, r = .ok a ∧ f a = .ok b := by
  cases r <;> simp [Run.bind]

theorem wrapLong_range (x : Int) :
    -9223372036854775808 ≤ wrapLong x ∧ wrapLong x < 9223372036854775808 := by
  unfold wrapLong; omega

theorem wrapLong_id (x : Int) (h1 : -9223372036854775808 ≤ x) (h2 : x < 9223372036854775808) :
    wrapLong x = x := by
  unfold wrapLong; omega

theorem toULong_nonneg (x : Int) (h1 : 0 ≤ x) (h2 : x < 9223372036854775808) :
    toULong x = x.toNat := by
  unfold toULong; omega

theorem toULong_neg (x : Int) (h1 : -9223372036854775808 ≤ x) (h2 : x < 0) :
    (toULong x : Int) = x + 18446744073709551616 := by
  unfold toULong; omega

theorem parsenum_loop_range (fuel : Nat) : ∀ (ret c : Int) (s : in_buffer_type)
    (v : Int) (s' : in_buffer_type),
    -9223372036854775808 ≤ ret → ret < 9223372036854775808 →
    parsenum_loop fuel ret c s = .ok (v, s') →
    -9223372036854775808 ≤ v ∧ v < 9223372036854775808 := by
  induction fuel with
  | zero => intro ret c s v s' _ _ h; simp [parsenum_loop] at h
  | succ fuel ih =>
    intro ret c s v s' h1 h2 h
    unfold parsenum_loop at h
    split_ifs at h with hd
    · exact ih _ _ _ _ _ (wrapLong_range _).1 (wrapLong_range _).2 h
    · simp only [Run.ok.injEq, Prod.mk.injEq] at h
      omega

theorem parsenum_range (s : in_buffer_type) (v : Int) (s' : in_buffer_type)
    (h : parsenum s = .ok (v, s')) :
    -9223372036854775808 ≤ v ∧ v < 9223372036854775808 := by
  unfold parsenum at h
  rw [Run.bind_eq_ok] at h
  obtain ⟨⟨v', s''⟩, h1, h2⟩ := h
  simp only [Run.ok.injEq, Prod.mk.injEq] at h2
  have := parsenum_loop_range _ _ _ _ _ _ (by omega) (by omega) h1
  omega


theorem parse_next_delta_command_ok (dc : diffcmd) (s : in_buffer_type) (cmd : Int)
    (dc' : diffcmd) (s' : in_buffer_type)
    (h : parse_next_delta_command dc s = .ok (cmd, dc', s')) (ha : 0 ≤ dc.adprev) :
    (cmd = -1 ∧ dc' = dc) ∨
    (cmd = 1 ∧ dc.adprev ≤ dc'.line1 ∧ 0 < dc'.nlines ∧
      dc'.line1 + dc'.nlines < 9223372036854775808 ∧
      dc'.adprev = dc'.line1 + 1 ∧ dc'.dafter = dc.dafter) ∨
    (cmd = 0 ∧ dc.adprev ≤ dc'.line1 ∧ dc.dafter ≤ dc'.line1 ∧ 0 < dc'.nlines ∧
      dc'.line1 + dc'.nlines < 9223372036854775808 ∧
      dc'.adprev = dc'.line1 ∧ dc'.dafter = dc'.line1 + dc'.nlines) := by
  unfold parse_next_delta_command at h
  dsimp only at h
  by_cases heof : (in_buffer_getc s).1 = EOF
  · rw [if_pos heof] at h
    simp only [Run.ok.injEq, Prod.mk.injEq] at h
    left; exact ⟨h.1.symm, h.2.1.symm⟩
  · rw [if_neg heof, Run.bind_eq_ok] at h
    obtain ⟨⟨line1, s2⟩, hp1, h⟩ := h
    rw [Run.bind_eq_ok] at h
    obtain ⟨s3, _, h⟩ := h
    rw [Run.bind_eq_ok] at h
    obtain ⟨⟨nlines, s5⟩, hp2, h⟩ := h
    rw [Run.bind_eq_ok] at h
    obtain ⟨s6, _, h⟩ := h
    have r1 := parsenum_range _ _ _ hp1
    have r2 := parsenum_range _ _ _ hp2
    dsimp only at h
    by_cases hc : nlines = 0 ∨ ((in_buffer_getc s).1 ≠ 97 ∧ (in_buffer_getc s).1 ≠ 100) ∨
        wrapLong (line1 + nlines) < line1
    · rw [if_pos hc] at h; exact absurd h (by simp)
    · rw [if_neg hc] at h
      by_cases h97 : (in_buffer_getc s).1 = 97
      · rw [if_pos h97] at h
        by_cases hb : line1 < dc.adprev
        · rw [if_pos hb] at h; exact absurd h (by simp)
        · rw [if_neg hb] at h
          simp only [Run.ok.injEq, Prod.mk.injEq] at h
          obtain ⟨h1, h2, _⟩ := h
          subst h2
          dsimp only
          right; left
          unfold wrapLong at hc ⊢
          refine ⟨h1.symm, ?_, ?_, ?_, ?_, rfl⟩ <;> omega
      · rw [if_neg h97] at h
        by_cases hb : line1 < dc.adprev ∨ line1 < dc.dafter
        · rw [if_pos hb] at h; exact absurd h (by simp)
        · rw [if_neg hb] at h
          simp only [Run.ok.injEq, Prod.mk.injEq] at h
          obtain ⟨h1, h2, _⟩ := h
          subst h2
          dsimp only
          right; right
          unfold wrapLong at hc ⊢
          refine ⟨h1.symm, ?_, ?_, ?_, ?_, rfl, ?_⟩ <;> omega

theorem insertline_ok_bound {α : Type} (n : Nat) (l : α) (e e' : EditBuffer α) (hwf : e.WF)
    (h : insertline n l e = .ok e') : n ≤ (liveLines e).length := by
  rw [liveLines_length e hwf.1]
  obtain ⟨h1, h2⟩ := hwf
  unfold insertline at h
  by_cases hc : n > usub e.Glinemax e.Ggapsize
  · rw [if_pos hc] at h; exact absurd h (by simp)
  · unfold usub SIZE_MOD at hc
    omega

theorem deletelines_ok_bound {α : Type} (n c : Nat) (e e' : EditBuffer α) (hwf : e.WF)
    (hn : n < 18446744073709551616) (hc : c < 18446744073709551616)
    (h : deletelines n c e = .ok e') : n + c ≤ (liveLines e).length := by
  rw [liveLines_length e hwf.1]
  obtain ⟨h1, h2⟩ := hwf
  unfold deletelines at h
  dsimp only at h
  by_cases hf : usub e.Glinemax e.Ggapsize < (n + c) % SIZE_MOD ∨ (n + c) % SIZE_MOD < n
  · rw [if_pos hf] at h; exact absurd h (by simp)
  · unfold usub SIZE_MOD at hf
    omega

theorem toULong_lt (x : Int) : toULong x < 18446744073709551616 := by
  unfold toULong; omega

theorem insert_lines_spec (k : Nat) : ∀ (editline : Int) (e : EditBuffer LinePtr)
    (s : in_buffer_type) (e' : EditBuffer LinePtr) (s' : in_buffer_type),
    insert_lines k editline e s = .ok (e', s') → e.WF →
    (liveLines e).length + k ≤ 2305843009213693952 →
    -9223372036854775808 ≤ editline → editline < 9223372036854775808 →
    ∃ ls, read_lines k s = .ok (ls, s') ∧ ls.length = k ∧ e'.WF ∧
      (0 < k → 0 ≤ editline ∧ editline ≤ (liveLines e).length) ∧
      liveLines e' = (liveLines e).take editline.toNat ++ ls ++
        (liveLines e).drop editline.toNat := by
  induction k with
  | zero =>
    intro editline e s e' s' h hwf _ _ _
    simp only [insert_lines, Run.ok.injEq, Prod.mk.injEq] at h
    obtain ⟨rfl, rfl⟩ := h
    exact ⟨[], rfl, rfl, hwf, by omega, by simp⟩
  | succ k ih =>
    intro editline e s e' s' h hwf hsz hlo hhi
    unfold insert_lines at h
    rw [Run.bind_eq_ok] at h
    obtain ⟨⟨l, s1⟩, hg, h⟩ := h
    rw [Run.bind_eq_ok] at h
    obtain ⟨e1, hi, h⟩ := h
    dsimp only at hi h
    have hb := insertline_ok_bound _ _ _ _ hwf hi
    have hnn : 0 ≤ editline := by
      by_contra hneg
      have := toULong_neg editline hlo (by omega)
      omega
    have hu : toULong editline = editline.toNat := toULong_nonneg _ hnn hhi
    rw [hu] at hi hb
    obtain ⟨e1', hi', w1, l1⟩ := liveLines_insertline editline.toNat l e hwf hb (by omega)
    rw [hi] at hi'
    simp only [Run.ok.injEq] at hi'
    subst hi'
    have hl1 : (liveLines e1).length = (liveLines e).length + 1 := by
      rw [l1]; simp; omega
    have hw : wrapLong (editline + 1) = editline + 1 := wrapLong_id _ (by omega) (by omega)
    rw [hw] at h
    obtain ⟨ls, hr, hlen, w', _, hl'⟩ := ih (editline + 1) e1 s1 e' s' h w1 (by omega)
      (by omega) (by omega)
    refine ⟨l :: ls, ?_, by simp [hlen], w', fun _ => ⟨hnn, by omega⟩, ?_⟩
    · unfold read_lines
      rw [hg]
      simp only [Run.bind, hr]
    · rw [hl', l1]
      have e1 : (editline + 1).toNat = editline.toNat + 1 := by omega
      have hk : (List.take editline.toNat (liveLines e)).length = editline.toNat := by
        simp; omega
      have t1 : List.take (editline.toNat + 1) (List.take editline.toNat (liveLines e)) =
          List.take editline.toNat (liveLines e) := List.take_of_length_le (by omega)
      have t2 : List.drop (editline.toNat + 1) (List.take editline.toNat (liveLines e)) = [] :=
        List.drop_of_length_le (by omega)
      rw [e1, List.take_append_eq_append_take, List.drop_append_eq_append_drop, hk, t1, t2]
      simp

theorem prefixUpTo_succ (cmds : List EditCmd) (orig : List LinePtr) (w : Nat) :
    prefixUpTo cmds orig (w + 1) = prefixUpTo cmds orig w ++ segmentAt cmds orig (w + 1) := by
  unfold prefixUpTo
  rw [List.range_succ (w + 1), List.flatMap_append]
  simp

theorem segmentAt_untouched (cmds : List EditCmd) (orig : List LinePtr) (w : Int) (i : Nat)
    (ht : touchesUpTo cmds w) (hw : 0 ≤ w) (hi : w < i) :
    segmentAt cmds orig i = (orig.get? (i - 1)).toList := by
  have hd : deletedAt cmds i = false := by
    unfold deletedAt
    rw [List.any_eq_false]
    intro c hc
    have := ht c hc
    cases hA : c.isAppend
    · have h2 := this.2 hA
      simp only [Bool.not_false, Bool.true_and, Bool.and_eq_true, decide_eq_true_eq, not_and,
        not_lt]
      intro _; omega
    · simp
  have ha : appendedAt cmds i = [] := by
    unfold appendedAt
    rw [List.flatMap_eq_nil_iff]
    intro c hc
    rw [List.mem_filter] at hc
    obtain ⟨hc, hp⟩ := hc
    simp only [Bool.and_eq_true, decide_eq_true_eq] at hp
    have := (ht c hc).1 hp.1
    omega
  have h0 : i ≠ 0 := by omega
  simp [segmentAt, hd, ha, h0]

theorem applyOriginal_split (cmds : List EditCmd) (orig : List LinePtr) (k : Nat) :
    ∀ (w : Nat), w + k = orig.length → touchesUpTo cmds w →
      applyOriginal cmds orig = prefixUpTo cmds orig w ++ orig.drop w := by
  induction k with
  | zero =>
    intro w hw _
    have : w = orig.length := by omega
    subst this
    simp [applyOriginal, prefixUpTo]
  | succ k ih =>
    intro w hw ht
    have ht' : touchesUpTo cmds ((w + 1 : Nat) : Int) := by
      intro c hc
      have := ht c hc
      constructor
      · intro h; have := this.1 h; push_cast; omega
      · intro h; have := this.2 h; push_cast; omega
    rw [ih (w + 1) (by omega) ht', prefixUpTo_succ,
      segmentAt_untouched cmds orig w (w + 1) ht (by omega) (by push_cast; omega)]
    have hlt : w < orig.length := by omega
    rw [List.drop_eq_getElem_cons hlt]
    simp [List.getElem?_eq_getElem hlt]


theorem deletedAt_snoc (P : List EditCmd) (c : EditCmd) (i : Nat) :
    deletedAt (P ++ [c]) i = (deletedAt P i ||
      (!c.isAppend && decide (c.line1 ≤ (i : Int)) && decide ((i : Int) < c.line1 + c.nlines))) := by
  simp [deletedAt, List.any_append]

theorem appendedAt_snoc (P : List EditCmd) (c : EditCmd) (i : Nat) :
    appendedAt (P ++ [c]) i = appendedAt P i ++
      (if c.isAppend = true ∧ c.line1 = (i : Int) then c.lines else []) := by
  unfold appendedAt
  rw [List.filter_append, List.flatMap_append]
  congr 1
  by_cases h : c.isAppend = true ∧ c.line1 = (i : Int)
  · rw [if_pos h]
    simp [List.filter_cons, h.1, h.2]
  · rw [if_neg h]
    have : (c.isAppend && decide (c.line1 = (i : Int))) = false := by
      rw [Bool.eq_false_iff]
      simpa using h
    simp [List.filter_cons, this]

theorem segmentAt_snoc_append (P : List EditCmd) (c : EditCmd) (orig : List LinePtr) (i : Nat)
    (hc : c.isAppend = true) :
    segmentAt (P ++ [c]) orig i = segmentAt P orig i ++
      (if c.line1 = (i : Int) then c.lines else []) := by
  unfold segmentAt
  rw [deletedAt_snoc, appendedAt_snoc]
  simp [hc]

theorem segmentAt_snoc_delete_out (P : List EditCmd) (c : EditCmd) (orig : List LinePtr)
    (i : Nat) (hc : c.isAppend = false)
    (ho : ¬ (c.line1 ≤ (i : Int) ∧ (i : Int) < c.line1 + c.nlines)) :
    segmentAt (P ++ [c]) orig i = segmentAt P orig i := by
  unfold segmentAt
  rw [deletedAt_snoc, appendedAt_snoc]
  have : (decide (c.line1 ≤ (i : Int)) && decide ((i : Int) < c.line1 + c.nlines)) = false := by
    rw [Bool.eq_false_iff]
    simpa using ho
  simp [hc, this]

theorem segmentAt_snoc_delete_in (P : List EditCmd) (c : EditCmd) (orig : List LinePtr)
    (i : Nat) (hc : c.isAppend = false)
    (hi : c.line1 ≤ (i : Int) ∧ (i : Int) < c.line1 + c.nlines)
    (ha : appendedAt P i = []) :
    segmentAt (P ++ [c]) orig i = [] := by
  unfold segmentAt
  rw [deletedAt_snoc, appendedAt_snoc, ha]
  simp [hc, hi.1, hi.2]

theorem appendedAt_untouched (cmds : List EditCmd) (w : Int) (i : Nat)
    (ht : touchesUpTo cmds w) (hi : w < i) : appendedAt cmds i = [] := by
  unfold appendedAt
  rw [List.flatMap_eq_nil_iff]
  intro c hc
  rw [List.mem_filter] at hc
  obtain ⟨hc, hp⟩ := hc
  simp only [Bool.and_eq_true, decide_eq_true_eq] at hp
  have := (ht c hc).1 hp.1
  omega

theorem prefixUpTo_snoc_append (P : List EditCmd) (c : EditCmd) (orig : List LinePtr) (w : Nat)
    (hc : c.isAppend = true) (hl : c.line1 = (w : Int)) :
    prefixUpTo (P ++ [c]) orig w = prefixUpTo P orig w ++ c.lines := by
  unfold prefixUpTo
  rw [List.range_succ, List.flatMap_append, List.flatMap_append]
  simp only [List.flatMap_cons, List.flatMap_nil, List.append_nil]
  rw [segmentAt_snoc_append P c orig w hc, if_pos hl, List.append_assoc]
  congr 1
  apply List.flatMap_congr
  intro i hi
  rw [List.mem_range] at hi
  rw [segmentAt_snoc_append P c orig i hc, if_neg (by omega)]
  simp

theorem prefixUpTo_snoc_delete (P : List EditCmd) (c : EditCmd) (orig : List LinePtr) (w : Nat)
    (hc : c.isAppend = false) (hl : c.line1 = (w : Int) + 1) (ht : touchesUpTo P w) :
    ∀ j : Nat, (j : Int) ≤ c.nlines →
      prefixUpTo (P ++ [c]) orig (w + j) = prefixUpTo P orig w := by
  intro j
  induction j with
  | zero =>
    intro _
    unfold prefixUpTo
    apply List.flatMap_congr
    intro i hi
    rw [List.mem_range] at hi
    exact segmentAt_snoc_delete_out P c orig i hc (by omega)
  | succ j ih =>
    intro hj
    rw [← Nat.add_assoc, prefixUpTo_succ, ih (by omega),
      segmentAt_snoc_delete_in P c orig (w + j + 1) hc (by push_cast; omega)
        (appendedAt_untouched P w _ ht (by push_cast; omega))]
    simp

theorem read_lines_length (k : Nat) : ∀ (s : in_buffer_type) (ls : List LinePtr)
    (s' : in_buffer_type), read_lines k s = .ok (ls, s') → ls.length = k := by
  induction k with
  | zero =>
    intro s ls s' h
    simp only [read_lines, Run.ok.injEq, Prod.mk.injEq] at h
    rw [← h.1]; rfl
  | succ k ih =>
    intro s ls s' h
    unfold read_lines at h
    rw [Run.bind_eq_ok] at h
    obtain ⟨r, _, h⟩ := h
    rw [Run.bind_eq_ok] at h
    obtain ⟨r', h1, h⟩ := h
    simp only [Run.ok.injEq, Prod.mk.injEq] at h
    have := ih _ _ _ (show read_lines k r.2 = .ok (r'.1, r'.2) from h1)
    rw [← h.1]; simp [this]

theorem totalAppended_cons_append (c : EditCmd) (Q : List EditCmd) (hc : c.isAppend = true) :
    totalAppended (c :: Q) = c.lines.length + totalAppended Q := by
  simp [totalAppended, List.filter_cons, hc]

theorem totalAppended_cons_delete (c : EditCmd) (Q : List EditCmd) (hc : c.isAppend = false) :
    totalAppended (c :: Q) = totalAppended Q := by
  simp [totalAppended, List.filter_cons, hc]

theorem edit_step_append (orig : List LinePtr) (hm : orig.length ≤ 2305843009213693952)
    (P : List EditCmd) (dc dc' : diffcmd) (adjust : Int) (e e1 : EditBuffer LinePtr)
    (s1 s2 : in_buffer_type) (hinv : EditInv orig P dc adjust e)
    (h1 : dc.adprev ≤ dc'.line1) (h2 : 0 < dc'.nlines)
    (h3 : dc'.line1 + dc'.nlines < 9223372036854775808)
    (h4 : dc'.adprev = dc'.line1 + 1) (h5 : dc'.dafter = dc.dafter)
    (hins : insert_lines dc'.nlines.toNat (wrapLong (dc'.line1 + adjust)) e s1 = .ok (e1, s2))
    (hsz : (liveLines e).length + dc'.nlines.toNat ≤ 2305843009213693952)
    (hdaL : dc.dafter ≤ dc'.line1 + 1) :
    ∃ ls, read_lines dc'.nlines.toNat s1 = .ok (ls, s2) ∧
      EditInv orig (P ++ [(⟨true, dc'.line1, dc'.nlines, ls⟩ : EditCmd)]) dc'
        (adjust + dc'.nlines) e1 ∧
      (liveLines e1).length = (liveLines e).length + dc'.nlines.toNat ∧
      wrapLong (adjust + dc'.nlines) = adjust + dc'.nlines := by
  obtain ⟨hwf, hlive, hlen, hap, hda, hadj, hP⟩ := hinv
  obtain ⟨ls, hrd, hlsl, w1, hb, hl1⟩ := insert_lines_spec _ _ _ _ _ _ hins hwf hsz
    (wrapLong_range _).1 (wrapLong_range _).2
  obtain ⟨hb1, hb2⟩ := hb (by omega)
  have hed : wrapLong (dc'.line1 + adjust) = dc'.line1 + adjust := by
    unfold wrapLong at hb1 hb2 ⊢; omega
  rw [hed] at hl1 hb1 hb2
  have hLm : dc'.line1.toNat ≤ orig.length := by omega
  have htP : touchesUpTo P (dc'.line1.toNat : Int) := by
    intro c hc
    have := hP c hc
    constructor
    · intro hA; have := this.1 hA; omega
    · intro hA; have := this.2 hA; omega
  have hsplit := applyOriginal_split P orig (orig.length - dc'.line1.toNat) dc'.line1.toNat
    (by omega) htP
  rw [hsplit] at hlive
  have hpl : (prefixUpTo P orig dc'.line1.toNat).length = (dc'.line1 + adjust).toNat := by
    have := congrArg List.length hlive
    simp only [List.length_append, List.length_drop] at this
    omega
  have hlen0 := hlen
  rw [hlive, List.take_left' hpl, List.drop_left' hpl] at hl1
  have hcA : (⟨true, dc'.line1, dc'.nlines, ls⟩ : EditCmd).isAppend = true := rfl
  have htP' : touchesUpTo (P ++ [(⟨true, dc'.line1, dc'.nlines, ls⟩ : EditCmd)])
      (dc'.line1.toNat : Int) := by
    intro c hc
    rw [List.mem_append, List.mem_singleton] at hc
    rcases hc with hc | hc
    · exact htP c hc
    · subst hc
      constructor
      · intro _; dsimp only; omega
      · intro hA; simp at hA
  have hstep : liveLines e1 =
      applyOriginal (P ++ [(⟨true, dc'.line1, dc'.nlines, ls⟩ : EditCmd)]) orig := by
    rw [applyOriginal_split _ orig (orig.length - dc'.line1.toNat) dc'.line1.toNat
      (by omega) htP', prefixUpTo_snoc_append P _ orig _ hcA (by dsimp only; omega), hl1]
  have hl1' : (liveLines e1).length = (liveLines e).length + dc'.nlines.toNat := by
    have h1 := congrArg List.length hl1
    have h2 := congrArg List.length hlive
    simp only [List.length_append, List.length_drop] at h1 h2
    omega
  refine ⟨ls, hrd, ⟨w1, hstep, by omega, by omega, by omega, Or.inr (by omega), ?_⟩, hl1',
    wrapLong_id _ (by omega) (by omega)⟩
  intro c hc
  rw [List.mem_append, List.mem_singleton] at hc
  rcases hc with hc | hc
  · have := hP c hc
    constructor
    · intro hA; have := this.1 hA; omega
    · intro hA; have := this.2 hA; omega
  · subst hc
    constructor
    · intro _; dsimp only; omega
    · intro hA; simp at hA

theorem edit_step_delete (orig : List LinePtr) (hm : orig.length ≤ 2305843009213693952)
    (P : List EditCmd) (dc dc' : diffcmd) (adjust : Int) (e e1 : EditBuffer LinePtr)
    (hinv : EditInv orig P dc adjust e)
    (h1 : dc.adprev ≤ dc'.line1) (h1' : dc.dafter ≤ dc'.line1) (h2 : 0 < dc'.nlines)
    (h3 : dc'.line1 + dc'.nlines < 9223372036854775808)
    (h4 : dc'.adprev = dc'.line1) (h5 : dc'.dafter = dc'.line1 + dc'.nlines)
    (hdel : deletelines (toULong (wrapLong (wrapLong (dc'.line1 - 1) + adjust)))
      dc'.nlines.toNat e = .ok e1)
    (hsz : (liveLines e).length ≤ 2305843009213693952) :
    EditInv orig (P ++ [(⟨false, dc'.line1, dc'.nlines, []⟩ : EditCmd)]) dc'
        (adjust - dc'.nlines) e1 ∧
      (liveLines e1).length ≤ (liveLines e).length ∧
      wrapLong (adjust - dc'.nlines) = adjust - dc'.nlines := by
  obtain ⟨hwf, hlive, hlen, hap, hda, hadj, hP⟩ := hinv
  have hbd := deletelines_ok_bound _ _ _ _ hwf (toULong_lt _) (by omega) hdel
  have hx : 0 ≤ dc'.line1 - 1 + adjust ∧ dc'.line1 - 1 + adjust < 9223372036854775808 ∧
      toULong (wrapLong (wrapLong (dc'.line1 - 1) + adjust)) =
        (dc'.line1 - 1 + adjust).toNat := by
    unfold toULong wrapLong at hbd ⊢
    omega
  obtain ⟨hx1, hx2, hx3⟩ := hx
  rw [hx3] at hdel hbd
  have hL1 : 1 ≤ dc'.line1 := by omega
  obtain ⟨e1', hdel', w1, hl1⟩ := liveLines_deletelines _ _ e hwf hbd
  rw [hdel] at hdel'
  simp only [Run.ok.injEq] at hdel'
  subst hdel'
  have htP : touchesUpTo P (((dc'.line1 - 1).toNat : Nat) : Int) := by
    intro c hc
    have := hP c hc
    constructor
    · intro hA; have := this.1 hA; omega
    · intro hA; have := this.2 hA; omega
  have hsplit := applyOriginal_split P orig (orig.length - (dc'.line1 - 1).toNat)
    (dc'.line1 - 1).toNat (by omega) htP
  rw [hsplit] at hlive
  have hpl : (prefixUpTo P orig (dc'.line1 - 1).toNat).length =
      (dc'.line1 - 1 + adjust).toNat := by
    have := congrArg List.length hlive
    simp only [List.length_append, List.length_drop] at this
    omega
  rw [hlive, List.take_left' hpl, ← List.drop_drop, List.drop_left' hpl,
    List.drop_drop] at hl1
  have hcA : (⟨false, dc'.line1, dc'.nlines, []⟩ : EditCmd).isAppend = false := rfl
  have htP' : touchesUpTo (P ++ [(⟨false, dc'.line1, dc'.nlines, []⟩ : EditCmd)])
      (((dc'.line1 - 1).toNat + dc'.nlines.toNat : Nat) : Int) := by
    intro c hc
    rw [List.mem_append, List.mem_singleton] at hc
    rcases hc with hc | hc
    · have := htP c hc
      constructor
      · intro hA; have := this.1 hA; omega
      · intro hA; have := this.2 hA; omega
    · subst hc
      constructor
      · intro hA; simp at hA
      · intro _; dsimp only; omega
  have hstep : liveLines e1 =
      applyOriginal (P ++ [(⟨false, dc'.line1, dc'.nlines, []⟩ : EditCmd)]) orig := by
    rw [applyOriginal_split _ orig
      (orig.length - ((dc'.line1 - 1).toNat + dc'.nlines.toNat))
      ((dc'.line1 - 1).toNat + dc'.nlines.toNat) (by omega) htP',
      prefixUpTo_snoc_delete P _ orig _ hcA (by dsimp only; omega) htP _
        (by dsimp only; omega), hl1]
  have hl1' : ((liveLines e1).length : Int) = (liveLines e).length - dc'.nlines := by
    have h1 := congrArg List.length hl1
    have h2 := congrArg List.length hlive
    simp only [List.length_append, List.length_drop] at h1 h2
    omega
  refine ⟨⟨w1, hstep, by omega, by omega, by omega, by omega, ?_⟩, by omega,
    wrapLong_id _ (by omega) (by omega)⟩
  intro c hc
  rw [List.mem_append, List.mem_singleton] at hc
  rcases hc with hc | hc
  · have := hP c hc
    constructor
    · intro hA; have := this.1 hA; omega
    · intro hA; have := this.2 hA; omega
  · subst hc
    constructor
    · intro hA; simp at hA
    · intro _; dsimp only; omega

theorem edit_loop_spec (orig : List LinePtr) (hm : orig.length ≤ 2305843009213693952)
    (fuel : Nat) : ∀ (dc : diffcmd) (adjust : Int) (e : EditBuffer LinePtr)
    (s : in_buffer_type) (e' : EditBuffer LinePtr) (s' : in_buffer_type)
    (Q P : List EditCmd),
    edit_loop fuel dc adjust e s = .ok (e', s') →
    script_commands fuel dc s = .ok Q →
    EditInv orig P dc adjust e →
    (liveLines e).length + totalAppended Q ≤ 2305843009213693952 →
    appendsClearOfDeletes Q →
    (dc.dafter = 0 ∨ ∀ c ∈ Q, c.isAppend = true → dc.dafter ≤ c.line1 + 1) →
    liveLines e' = applyOriginal (P ++ Q) orig := by
  induction fuel with
  | zero => intro dc adjust e s e' s' Q P h; simp [edit_loop] at h
  | succ fuel ih =>
    intro dc adjust e s e' s' Q P h hq hinv hsz hclear hQ
    unfold edit_loop at h
    unfold script_commands at hq
    rw [Run.bind_eq_ok] at h hq
    obtain ⟨⟨cmd, dc', s1⟩, hp, h⟩ := h
    obtain ⟨r0, hp0, hq⟩ := hq
    rw [hp] at hp0
    simp only [Run.ok.injEq] at hp0
    subst hp0
    dsimp only at h hq
    rcases parse_next_delta_command_ok dc s cmd dc' s1 hp hinv.adprev with
      ⟨hc, hdc⟩ | ⟨hc, h1, h2, h3, h4, h5⟩ | ⟨hc, h1, h1', h2, h3, h4, h5⟩
    · -- end of the script
      subst hc
      simp only [show ¬ ((-1 : Int) ≥ 0) by omega, if_false, Run.ok.injEq, Prod.mk.injEq] at h hq
      rw [← h.1, ← hq, List.append_nil]
      exact hinv.live
    · -- an `a` command
      subst hc
      simp only [show ((1 : Int) ≥ 0) by omega, show ((1 : Int) ≠ 0) by omega, if_true,
        ne_eq, not_false_eq_true] at h hq
      rw [Run.bind_eq_ok] at h hq
      obtain ⟨⟨e1, s2⟩, hins, h⟩ := h
      obtain ⟨⟨ls, s2'⟩, hrd, hq⟩ := hq
      rw [Run.bind_eq_ok] at hq
      obtain ⟨Q', hq', hq⟩ := hq
      simp only [Run.ok.injEq] at hq
      dsimp only at h hq'
      have hlsl := read_lines_length _ _ _ _ hrd
      have hap := hinv.adprev
      have hN : toULong dc'.nlines = dc'.nlines.toNat := toULong_nonneg _ (by omega) (by omega)
      rw [hN] at hins hrd hlsl
      have hcA : (⟨true, dc'.line1, dc'.nlines, ls⟩ : EditCmd).isAppend = true := rfl
      rw [← hq, totalAppended_cons_append _ _ hcA] at hsz
      dsimp only at hsz
      have hdaL : dc.dafter ≤ dc'.line1 + 1 := by
        rcases hQ with h0 | hQ
        · have := hinv.adprev; omega
        · exact hQ _ (by rw [← hq]; exact List.mem_cons_self _ _) hcA
      obtain ⟨ls0, hrd0, hinv1, hl1, hadj'⟩ := edit_step_append orig hm P dc dc' adjust e e1 s1
        s2 hinv h1 h2 h3 h4 h5 hins (by omega) hdaL
      rw [hrd] at hrd0
      simp only [Run.ok.injEq, Prod.mk.injEq] at hrd0
      obtain ⟨rfl, rfl⟩ := hrd0
      rw [hadj'] at h
      have hcl := List.pairwise_cons.1 (by rw [hq]; exact hclear)
      have hQ' : dc'.dafter = 0 ∨ ∀ c ∈ Q', c.isAppend = true → dc'.dafter ≤ c.line1 + 1 := by
        rcases hQ with h0 | hQ
        · left; omega
        · right
          intro c hc hA
          have := hQ c (by rw [← hq]; exact List.mem_cons_of_mem _ hc) hA
          omega
      have := ih dc' (adjust + dc'.nlines) e1 _ e' s' Q' _ h hq' hinv1 (by omega) hcl.2 hQ'
      rw [this, ← hq, List.append_assoc]
      rfl
    · -- a `d` command
      subst hc
      simp only [show ((0 : Int) ≥ 0) by omega, if_true, ne_eq, not_true_eq_false,
        if_false] at h hq
      rw [Run.bind_eq_ok] at h hq
      obtain ⟨e1, hdel, h⟩ := h
      obtain ⟨Q', hq', hq⟩ := hq
      simp only [Run.ok.injEq] at hq
      have hap := hinv.adprev
      have hN : toULong dc'.nlines = dc'.nlines.toNat := toULong_nonneg _ (by omega) (by omega)
      rw [hN] at hdel
      have hcA : (⟨false, dc'.line1, dc'.nlines, []⟩ : EditCmd).isAppend = false := rfl
      rw [← hq, totalAppended_cons_delete _ _ hcA] at hsz
      obtain ⟨hinv1, hl1, hadj'⟩ := edit_step_delete orig hm P dc dc' adjust e e1 hinv h1 h1' h2
        h3 h4 h5 hdel (by omega)
      rw [hadj'] at h
      have hcl := List.pairwise_cons.1 (by rw [hq]; exact hclear)
      have hQ' : dc'.dafter = 0 ∨ ∀ c ∈ Q', c.isAppend = true → dc'.dafter ≤ c.line1 + 1 := by
        right
        intro c hc hA
        have := hcl.1 c hc hcA hA
        dsimp only at this
        omega
      have := ih dc' (adjust - dc'.nlines) e1 _ e' s' Q' _ h hq' hinv1 (by omega) hcl.2 hQ'
      rw [this, ← hq, List.append_assoc]
      rfl

theorem applyOriginal_nil (orig : List LinePtr) : applyOriginal [] orig = orig := by
  have ht : touchesUpTo [] ((0 : Nat) : Int) := by intro c hc; simp at hc
  rw [applyOriginal_split [] orig orig.length 0 (by omega) ht]
  simp [prefixUpTo, segmentAt, appendedAt]

/-- C2 (amended): when `process_delta` in `EDIT` mode accepts a script, no `a`
command of which addresses a line inside a range deleted earlier in the script
(other than the last line of that range), the edit buffer holds the text
obtained by reading every command against the numbering of the original text:
`a L N` puts its lines after original line `L`, `d L N` removes original lines
`L .. L+N-1`. The buffer and the script together hold at most `2^61` lines. -/
theorem process_delta_EDIT_original_numbering (e e' : EditBuffer LinePtr)
    (s s' : in_buffer_type) (cmds : List EditCmd) (hwf : e.WF)
    (hrun : process_delta_EDIT e s = .ok (e', s'))
    (hcmds : script_commands (readFuel s) dcInit s = .ok cmds)
    (hsz : (liveLines e).length + totalAppended cmds ≤ 2305843009213693952)
    (hclear : appendsClearOfDeletes cmds) :
    liveLines e' = applyOriginal cmds (liveLines e) := by
  have := edit_loop_spec (liveLines e) (by omega) (readFuel s)
    dcInit 0 e s e' s' cmds [] hrun hcmds
    ⟨hwf, (applyOriginal_nil _).symm, by simp, by decide, by decide, by left; omega,
      by simp⟩ hsz hclear
    (by left; rfl)
  simpa using this

theorem read_lines_of_insert_lines (k : Nat) : ∀ (editline : Int) (e : EditBuffer LinePtr)
    (s : in_buffer_type) (e' : EditBuffer LinePtr) (s' : in_buffer_type),
    insert_lines k editline e s = .ok (e', s') → ∃ ls, read_lines k s = .ok (ls, s') := by
  induction k with
  | zero =>
    intro editline e s e' s' h
    simp only [insert_lines, Run.ok.injEq, Prod.mk.injEq] at h
    exact ⟨[], by rw [← h.2]; rfl⟩
  | succ k ih =>
    intro editline e s e' s' h
    unfold insert_lines at h
    rw [Run.bind_eq_ok] at h
    obtain ⟨r, hg, h⟩ := h
    rw [Run.bind_eq_ok] at h
    obtain ⟨e1, _, h⟩ := h
    obtain ⟨ls, hr⟩ := ih _ _ _ _ _ h
    refine ⟨r.1 :: ls, ?_⟩
    unfold read_lines
    rw [hg]
    simp only [Run.bind, hr]

/-- Every script that `process_delta` in `EDIT` mode accepts is read to its end
by `script_commands`. -/
theorem script_commands_of_edit_loop (fuel : Nat) : ∀ (dc : diffcmd) (adjust : Int)
    (e : EditBuffer LinePtr) (s : in_buffer_type) (e' : EditBuffer LinePtr)
    (s' : in_buffer_type),
    edit_loop fuel dc adjust e s = .ok (e', s') →
    ∃ cmds, script_commands fuel dc s = .ok cmds := by
  induction fuel with
  | zero => intro dc adjust e s e' s' h; simp [edit_loop] at h
  | succ fuel ih =>
    intro dc adjust e s e' s' h
    unfold edit_loop at h
    unfold script_commands
    rw [Run.bind_eq_ok] at h
    obtain ⟨r, hp, h⟩ := h
    rw [hp]
    simp only [Run.bind]
    dsimp only at h
    by_cases h0 : r.1 ≥ 0
    · rw [if_pos h0] at h ⊢
      by_cases h1 : r.1 ≠ 0
      · rw [if_pos h1] at h ⊢
        rw [Run.bind_eq_ok] at h
        obtain ⟨r', hins, h⟩ := h
        obtain ⟨ls, hr⟩ := read_lines_of_insert_lines _ _ _ _ _ _ hins
        obtain ⟨cs, hcs⟩ := ih _ _ _ _ _ _ h
        rw [hr]
        simp only [Run.bind, hcs]
        exact ⟨_, rfl⟩
      · rw [if_neg h1] at h ⊢
        rw [Run.bind_eq_ok] at h
        obtain ⟨e1, _, h⟩ := h
        obtain ⟨cs, hcs⟩ := ih _ _ _ _ _ _ h
        simp only [hcs, Run.bind]
        exact ⟨_, rfl⟩
    · rw [if_neg h0]
      exact ⟨_, rfl⟩

theorem process_delta_EDIT_original_numbering_witness :
    bufferABC.WF ∧
    process_delta_EDIT bufferABC scriptReplaceLine = .ok editedReplaceLine ∧
    script_commands (readFuel scriptReplaceLine) dcInit scriptReplaceLine =
      .ok [⟨false, 2, 1, []⟩, ⟨true, 2, 1, [some [88, 10, 64]]⟩] ∧
    liveLines editedReplaceLine.1 =
      applyOriginal [⟨false, 2, 1, []⟩, ⟨true, 2, 1, [some [88, 10, 64]]⟩]
        (liveLines bufferABC) :=
  have h1 : bufferABC.WF := ⟨by decide, by decide⟩
  have h2 : process_delta_EDIT bufferABC scriptReplaceLine = .ok editedReplaceLine := rfl
  have h3 : script_commands (readFuel scriptReplaceLine) dcInit scriptReplaceLine =
      .ok [⟨false, 2, 1, []⟩, ⟨true, 2, 1, [some [88, 10, 64]]⟩] := by decide
  ⟨h1, h2, h3, process_delta_EDIT_original_numbering bufferABC editedReplaceLine.1
    scriptReplaceLine editedReplaceLine.2 _ h1 h2 h3 (by decide)
    (by simp [appendsClearOfDeletes])⟩

/-- C2 (counterexample): `process_delta` in `EDIT` mode accepts the script
`d2 2`, `a2 1`, `X` on the lines `A`, `B`, `C` and leaves `X`, `A` in the edit
buffer, while reading the commands against the original numbering gives `A`,
`X`. -/
theorem process_delta_EDIT_append_inside_delete :
    ∃ (e' : EditBuffer LinePtr) (s' : in_buffer_type) (cmds : List EditCmd),
      bufferABC.WF ∧
      process_delta_EDIT bufferABC scriptAppendInsideDelete = .ok (e', s') ∧
      script_commands (readFuel scriptAppendInsideDelete) dcInit scriptAppendInsideDelete =
        .ok cmds ∧
      liveLines e' = [some [88, 10, 64], some [65, 10]] ∧
      applyOriginal cmds (liveLines bufferABC) = [some [65, 10], some [88, 10, 64]] ∧
      liveLines e' ≠ applyOriginal cmds (liveLines bufferABC) := by
  have h1 : (process_delta_EDIT bufferABC scriptAppendInsideDelete).bind
      (fun r => .ok (liveLines r.1)) = .ok [some [88, 10, 64], some [65, 10]] := by decide
  have h2 : script_commands (readFuel scriptAppendInsideDelete) dcInit scriptAppendInsideDelete =
      .ok [⟨false, 2, 2, []⟩, ⟨true, 2, 1, [some [88, 10, 64]]⟩] := by decide
  rw [Run.bind_eq_ok] at h1
  obtain ⟨⟨e', s'⟩, hr, hl⟩ := h1
  simp only [Run.ok.injEq] at hl
  have h3 : applyOriginal [⟨false, 2, 2, []⟩, ⟨true, 2, 1, [some [88, 10, 64]]⟩]
      (liveLines bufferABC) = [some [65, 10], some [88, 10, 64]] := by decide
  refine ⟨e', s', _, ⟨by decide, by decide⟩, hr, h2, hl, h3, ?_⟩
  rw [hl, h3]
  decide

/-! ## The input cursor -/

theorem in_buffer_getc_plain (s : in_buffer_type) (h : peek s.buffer s.ptr ≠ SDELIM) :
    in_buffer_getc s = ((peek s.buffer s.ptr : Int),
      { s with ptr := s.ptr + 1, read_count := s.read_count + 1 }) := by
  unfold in_buffer_getc
  dsimp only
  rw [if_neg h]

theorem in_buffer_getc_doubled (s : in_buffer_type) (h1 : peek s.buffer s.ptr = SDELIM)
    (h2 : peek s.buffer (s.ptr + 1) = SDELIM) :
    in_buffer_getc s = ((SDELIM : Int),
      { s with ptr := s.ptr + 2, read_count := s.read_count + 1 }) := by
  unfold in_buffer_getc
  dsimp only
  rw [if_pos h1, if_neg (by simpa using h2), h2]

theorem in_buffer_getc_eof (s : in_buffer_type) (h1 : peek s.buffer s.ptr = SDELIM)
    (h2 : peek s.buffer (s.ptr + 1) ≠ SDELIM) : in_buffer_getc s = (EOF, s) := by
  unfold in_buffer_getc
  dsimp only
  rw [if_pos h1, if_pos h2]
  congr 1
  cases s
  simp

/-- C9: `in_buffer_getc` returns a byte other than `@` and advances the position
by one; on `@@` it returns one `@` and advances the position by two and the
read count by one; on a single `@` it returns `EOF` and leaves the position and
the read count as they were, also when the read is repeated. -/
theorem in_buffer_getc_cases (s : in_buffer_type) :
    (peek s.buffer s.ptr ≠ SDELIM →
      in_buffer_getc s = ((peek s.buffer s.ptr : Int),
        { s with ptr := s.ptr + 1, read_count := s.read_count + 1 })) ∧
    (peek s.buffer s.ptr = SDELIM → peek s.buffer (s.ptr + 1) = SDELIM →
      in_buffer_getc s = ((SDELIM : Int),
        { s with ptr := s.ptr + 2, read_count := s.read_count + 1 })) ∧
    (peek s.buffer s.ptr = SDELIM → peek s.buffer (s.ptr + 1) ≠ SDELIM →
      ∀ n, in_buffer_getc_repeat n s = (EOF, s)) := by
  refine ⟨?_, ?_, ?_⟩
  · intro h
    unfold in_buffer_getc
    dsimp only
    rw [if_neg h]
  · intro h1 h2
    unfold in_buffer_getc
    dsimp only
    rw [if_pos h1, if_neg (by simpa using h2), h2]
  · intro h1 h2 n
    induction n with
    | zero => exact in_buffer_getc_eof s h1 h2
    | succ n ih =>
      unfold in_buffer_getc_repeat
      rw [in_buffer_getc_eof s h1 h2]
      exact ih

theorem in_buffer_getc_cases_witness :
    in_buffer_getc { buffer := [97, 64, 64, 98, 64, 10], ptr := 0, read_count := 0 } =
      (97, { buffer := [97, 64, 64, 98, 64, 10], ptr := 1, read_count := 1 }) ∧
    in_buffer_getc { buffer := [97, 64, 64, 98, 64, 10], ptr := 1, read_count := 1 } =
      (64, { buffer := [97, 64, 64, 98, 64, 10], ptr := 3, read_count := 2 }) ∧
    in_buffer_getc_repeat 5 { buffer := [97, 64, 64, 98, 64, 10], ptr := 4, read_count := 3 } =
      (-1, { buffer := [97, 64, 64, 98, 64, 10], ptr := 4, read_count := 3 }) :=
  ⟨(in_buffer_getc_cases _).1 (by decide),
   (in_buffer_getc_cases _).2.1 (by decide) (by decide),
   (in_buffer_getc_cases _).2.2 (by decide) (by decide) 5⟩

/-! ## Entering a text and emitting it -/

theorem doubleDelimiters_append (a b : List Nat) :
    doubleDelimiters (a ++ b) = doubleDelimiters a ++ doubleDelimiters b := by
  induction a with
  | nil => rfl
  | cons c cs ih =>
    simp only [List.cons_append, doubleDelimiters]
    split_ifs <;> simp [ih]

theorem peek_append (pre l : List Nat) (i : Nat) :
    peek (pre ++ l) (pre.length + i) = peek l i := by
  unfold peek
  rw [List.getD_append_right _ _ _ _ (by omega)]
  congr 1; omega

theorem peek_append_zero (pre l : List Nat) :
    peek (pre ++ l) pre.length = l.headD 0 := by
  have := peek_append pre l 0
  rw [Nat.add_zero] at this
  rw [this]
  cases l <;> rfl

theorem getc_at_end (s : in_buffer_type) (pre rest : List Nat)
    (h : CursorAt s pre (SDELIM :: rest)) (hr : rest.headD 0 ≠ SDELIM) :
    in_buffer_getc s = (EOF, s) := by
  obtain ⟨hb, hp⟩ := h
  apply in_buffer_getc_eof
  · rw [hb, hp, peek_append_zero]; rfl
  · rw [hb, hp, peek_append pre _ 1]
    cases rest with
    | nil => simp [peek, SDELIM]
    | cons r rs => simpa [peek] using hr

theorem getc_at_byte (s : in_buffer_type) (pre tail : List Nat) (c : Nat)
    (h : CursorAt s pre (doubleDelimiters [c] ++ tail)) :
    (in_buffer_getc s).1 = (c : Int) ∧
      CursorAt (in_buffer_getc s).2 (pre ++ doubleDelimiters [c]) tail ∧
      (in_buffer_getc s).2.buffer = s.buffer := by
  obtain ⟨hb, hp⟩ := h
  by_cases hc : c = SDELIM
  · subst hc
    simp only [doubleDelimiters, if_true, List.cons_append, List.nil_append] at hb ⊢
    have h1 : peek s.buffer s.ptr = SDELIM := by
      rw [hb, hp, peek_append_zero]; rfl
    have h2 : peek s.buffer (s.ptr + 1) = SDELIM := by
      rw [hb, hp, peek_append pre _ 1]; rfl
    rw [in_buffer_getc_doubled s h1 h2]
    refine ⟨rfl, ⟨?_, ?_⟩, rfl⟩
    · simp [hb]
    · simp [hp]
  · simp only [doubleDelimiters, if_neg hc, List.cons_append, List.nil_append] at hb ⊢
    have h1 : peek s.buffer s.ptr = c := by
      rw [hb, hp, peek_append_zero]; rfl
    rw [in_buffer_getc_plain s (by rw [h1]; exact hc), h1]
    refine ⟨rfl, ⟨?_, ?_⟩, rfl⟩
    · simp [hb]
    · simp [hp]


theorem length_le_doubleDelimiters (l : List Nat) : l.length ≤ (doubleDelimiters l).length := by
  induction l with
  | nil => simp [doubleDelimiters]
  | cons c cs ih =>
    simp only [doubleDelimiters]
    split_ifs <;> simp <;> omega

theorem in_get_line_loop_newline (L : List Nat) : ∀ (pre t : List Nat) (s : in_buffer_type)
    (fuel : Nat) (c : Int), CursorAt s pre (doubleDelimiters L ++ 10 :: t) →
    (∀ b ∈ L, b ≠ 10) → L.length + 2 ≤ fuel → c ≠ EOF → c ≠ 10 →
    ∃ s', in_get_line_loop fuel c s = .ok s' ∧
      CursorAt s' (pre ++ doubleDelimiters L ++ [10]) t ∧ s'.buffer = s.buffer := by
  induction L with
  | nil =>
    intro pre t s fuel c h _ hf hc1 hc2
    obtain ⟨fuel, rfl⟩ : ∃ f, fuel = f + 2 := ⟨fuel - 2, by omega⟩
    have hg := getc_at_byte s pre t 10 (by simpa [doubleDelimiters, SDELIM] using h)
    refine ⟨(in_buffer_getc s).2, ?_, ?_, hg.2.2⟩
    · unfold in_get_line_loop
      rw [if_pos ⟨hc1, hc2⟩, hg.1]
      unfold in_get_line_loop
      simp
    · simpa [doubleDelimiters, SDELIM] using hg.2.1
  | cons b L ih =>
    intro pre t s fuel c h hL hf hc1 hc2
    obtain ⟨fuel, rfl⟩ : ∃ f, fuel = f + 1 := ⟨fuel - 1, by simp at hf; omega⟩
    have hsplit : doubleDelimiters (b :: L) = doubleDelimiters [b] ++ doubleDelimiters L :=
      doubleDelimiters_append [b] L
    rw [hsplit, List.append_assoc] at h
    have hg := getc_at_byte s pre _ b h
    have hb10 : b ≠ 10 := hL b (List.mem_cons_self _ _)
    obtain ⟨s', h1, h2, h3⟩ := ih (pre ++ doubleDelimiters [b]) t (in_buffer_getc s).2 fuel
      (in_buffer_getc s).1 hg.2.1 (fun x hx => hL x (List.mem_cons_of_mem _ hx))
      (by simp at hf; omega) (by rw [hg.1]; unfold EOF; omega) (by rw [hg.1]; omega)
    refine ⟨s', ?_, ?_, by rw [h3, hg.2.2]⟩
    · unfold in_get_line_loop
      rw [if_pos ⟨hc1, hc2⟩]
      exact h1
    · rw [hsplit]
      simpa [List.append_assoc] using h2

theorem in_get_line_loop_end (L : List Nat) : ∀ (pre rest : List Nat) (s : in_buffer_type)
    (fuel : Nat) (c : Int), CursorAt s pre (doubleDelimiters L ++ SDELIM :: rest) →
    rest.headD 0 ≠ SDELIM →
    (∀ b ∈ L, b ≠ 10) → L.length + 2 ≤ fuel → c ≠ EOF → c ≠ 10 →
    ∃ s', in_get_line_loop fuel c s = .ok s' ∧
      CursorAt s' (pre ++ doubleDelimiters L) (SDELIM :: rest) ∧ s'.buffer = s.buffer := by
  induction L with
  | nil =>
    intro pre rest s fuel c h hr _ hf hc1 hc2
    obtain ⟨fuel, rfl⟩ : ∃ f, fuel = f + 2 := ⟨fuel - 2, by omega⟩
    have h' : CursorAt s pre (SDELIM :: rest) := by simpa [doubleDelimiters] using h
    have hg := getc_at_end s pre rest h' hr
    refine ⟨s, ?_, by simpa [doubleDelimiters] using h', rfl⟩
    unfold in_get_line_loop
    rw [if_pos ⟨hc1, hc2⟩, hg]
    unfold in_get_line_loop
    simp
  | cons b L ih =>
    intro pre rest s fuel c h hr hL hf hc1 hc2
    obtain ⟨fuel, rfl⟩ : ∃ f, fuel = f + 1 := ⟨fuel - 1, by simp at hf; omega⟩
    have hsplit : doubleDelimiters (b :: L) = doubleDelimiters [b] ++ doubleDelimiters L :=
      doubleDelimiters_append [b] L
    rw [hsplit, List.append_assoc] at h
    have hg := getc_at_byte s pre _ b h
    have hb10 : b ≠ 10 := hL b (List.mem_cons_self _ _)
    obtain ⟨s', h1, h2, h3⟩ := ih (pre ++ doubleDelimiters [b]) rest (in_buffer_getc s).2 fuel
      (in_buffer_getc s).1 hg.2.1 hr (fun x hx => hL x (List.mem_cons_of_mem _ hx))
      (by simp at hf; omega) (by rw [hg.1]; unfold EOF; omega) (by rw [hg.1]; omega)
    refine ⟨s', ?_, ?_, by rw [h3, hg.2.2]⟩
    · unfold in_get_line_loop
      rw [if_pos ⟨hc1, hc2⟩]
      exact h1
    · rw [hsplit]
      simpa [List.append_assoc] using h2

theorem in_get_line_at_end (s : in_buffer_type) (pre rest : List Nat)
    (h : CursorAt s pre (SDELIM :: rest)) (hr : rest.headD 0 ≠ SDELIM) :
    in_get_line s = .ok (none, s) := by
  unfold in_get_line
  dsimp only
  rw [getc_at_end s pre rest h hr]
  simp

theorem drop_of_cursorAt (s : in_buffer_type) (pre tail : List Nat) (h : CursorAt s pre tail) :
    s.buffer.drop s.ptr = tail := by
  rw [h.1, h.2, List.drop_left]

theorem in_get_line_newline (L : List Nat) (pre t : List Nat) (s : in_buffer_type)
    (h : CursorAt s pre (doubleDelimiters L ++ 10 :: t)) (hL : ∀ b ∈ L, b ≠ 10) :
    ∃ s', in_get_line s = .ok (some (doubleDelimiters L ++ 10 :: t), s') ∧
      CursorAt s' (pre ++ doubleDelimiters L ++ [10]) t := by
  unfold in_get_line
  dsimp only
  rw [drop_of_cursorAt s pre _ h]
  cases L with
  | nil =>
    have hg := getc_at_byte s pre t 10 (by simpa [doubleDelimiters, SDELIM] using h)
    refine ⟨(in_buffer_getc s).2, ?_, by simpa [doubleDelimiters, SDELIM] using hg.2.1⟩
    rw [if_neg (by rw [hg.1]; unfold EOF; omega), hg.1]
    have : ∃ f, readFuel (in_buffer_getc s).2 = f + 1 := by
      refine ⟨readFuel (in_buffer_getc s).2 - 1, ?_⟩
      have := hg.2.1
      unfold readFuel
      rw [this.1, this.2]
      simp; omega
    obtain ⟨f, hf⟩ := this
    rw [hf]
    unfold in_get_line_loop
    simp [Run.bind]
  | cons b L =>
    have hsplit : doubleDelimiters (b :: L) = doubleDelimiters [b] ++ doubleDelimiters L :=
      doubleDelimiters_append [b] L
    rw [hsplit, List.append_assoc] at h
    have hg := getc_at_byte s pre _ b h
    have hb10 : b ≠ 10 := hL b (List.mem_cons_self _ _)
    have hfuel : L.length + 2 ≤ readFuel (in_buffer_getc s).2 := by
      have := hg.2.1
      unfold readFuel
      rw [this.1, this.2]
      have := length_le_doubleDelimiters L
      simp; omega
    obtain ⟨s', h1, h2, _⟩ := in_get_line_loop_newline L (pre ++ doubleDelimiters [b]) t
      (in_buffer_getc s).2 _ (in_buffer_getc s).1 hg.2.1
      (fun x hx => hL x (List.mem_cons_of_mem _ hx)) hfuel
      (by rw [hg.1]; unfold EOF; omega) (by rw [hg.1]; omega)
    refine ⟨s', ?_, ?_⟩
    · rw [if_neg (by rw [hg.1]; unfold EOF; omega), h1]
      simp [Run.bind, hsplit]
    · rw [hsplit]
      simpa [List.append_assoc] using h2

theorem in_get_line_partial (b : Nat) (L : List Nat) (pre rest : List Nat)
    (s : in_buffer_type)
    (h : CursorAt s pre (doubleDelimiters (b :: L) ++ SDELIM :: rest))
    (hr : rest.headD 0 ≠ SDELIM) (hL : ∀ x ∈ b :: L, x ≠ 10) :
    ∃ s', in_get_line s = .ok (some (doubleDelimiters (b :: L) ++ SDELIM :: rest), s') ∧
      CursorAt s' (pre ++ doubleDelimiters (b :: L)) (SDELIM :: rest) := by
  unfold in_get_line
  dsimp only
  rw [drop_of_cursorAt s pre _ h]
  have hsplit : doubleDelimiters (b :: L) = doubleDelimiters [b] ++ doubleDelimiters L :=
    doubleDelimiters_append [b] L
  rw [hsplit, List.append_assoc] at h
  have hg := getc_at_byte s pre _ b h
  have hb10 : b ≠ 10 := hL b (List.mem_cons_self _ _)
  have hfuel : L.length + 2 ≤ readFuel (in_buffer_getc s).2 := by
    have := hg.2.1
    unfold readFuel
    rw [this.1, this.2]
    have := length_le_doubleDelimiters L
    simp; omega
  obtain ⟨s', h1, h2, _⟩ := in_get_line_loop_end L (pre ++ doubleDelimiters [b]) rest
    (in_buffer_getc s).2 _ (in_buffer_getc s).1 hg.2.1 hr
    (fun x hx => hL x (List.mem_cons_of_mem _ hx)) hfuel
    (by rw [hg.1]; unfold EOF; omega) (by rw [hg.1]; omega)
  refine ⟨s', ?_, ?_⟩
  · rw [if_neg (by rw [hg.1]; unfold EOF; omega), h1]
    simp [Run.bind, hsplit]
  · rw [hsplit]
    simpa [List.append_assoc] using h2

theorem out_putc_byte (c : Nat) (out : List Nat) (h : c < 256) :
    out_putc (c : Int) out = out ++ [c] := by
  unfold out_putc
  congr 2
  omega

theorem snapshotline_loop_newline (L : List Nat) : ∀ (t out : List Nat) (fuel : Nat),
    (∀ b ∈ L, b ≠ 10 ∧ b < 256) → L.length + 1 ≤ fuel →
    snapshotline_loop fuel (doubleDelimiters L ++ 10 :: t) out = .ok (out ++ L ++ [10]) := by
  induction L with
  | nil =>
    intro t out fuel _ hf
    obtain ⟨fuel, rfl⟩ : ∃ f, fuel = f + 1 := ⟨fuel - 1, by simp at hf; omega⟩
    unfold snapshotline_loop
    simp [doubleDelimiters, SDELIM, out_putc]
  | cons b L ih =>
    intro t out fuel hL hf
    obtain ⟨fuel, rfl⟩ : ∃ f, fuel = f + 1 := ⟨fuel - 1, by simp at hf; omega⟩
    obtain ⟨hb1, hb2⟩ := hL b (List.mem_cons_self _ _)
    have ih' := ih t (out ++ [b]) fuel (fun x hx => hL x (List.mem_cons_of_mem _ hx))
      (by simp at hf; omega)
    unfold snapshotline_loop
    by_cases hc : b = SDELIM
    · subst hc
      simp only [doubleDelimiters, if_true, List.cons_append, List.headD_cons, List.tail_cons,
        ne_eq, not_true_eq_false, and_false, if_false]
      rw [if_pos hb1, out_putc_byte _ _ hb2, ih']
      simp
    · simp only [doubleDelimiters, if_neg hc, List.cons_append, List.headD_cons,
        List.tail_cons, false_and, if_false]
      rw [if_pos hb1, out_putc_byte _ _ hb2, ih']
      simp
      exact fun h => absurd h hc

theorem snapshotline_loop_end (L : List Nat) : ∀ (rest out : List Nat) (fuel : Nat),
    rest.headD 0 ≠ SDELIM → (∀ b ∈ L, b ≠ 10 ∧ b < 256) → L.length + 1 ≤ fuel →
    snapshotline_loop fuel (doubleDelimiters L ++ SDELIM :: rest) out = .ok (out ++ L) := by
  induction L with
  | nil =>
    intro rest out fuel hr _ hf
    obtain ⟨fuel, rfl⟩ : ∃ f, fuel = f + 1 := ⟨fuel - 1, by simp at hf; omega⟩
    unfold snapshotline_loop
    simp only [doubleDelimiters, List.nil_append, List.headD_cons, List.tail_cons, true_and]
    rw [if_pos hr]
    simp
  | cons b L ih =>
    intro rest out fuel hr hL hf
    obtain ⟨fuel, rfl⟩ : ∃ f, fuel = f + 1 := ⟨fuel - 1, by simp at hf; omega⟩
    obtain ⟨hb1, hb2⟩ := hL b (List.mem_cons_self _ _)
    have ih' := ih rest (out ++ [b]) fuel hr (fun x hx => hL x (List.mem_cons_of_mem _ hx))
      (by simp at hf; omega)
    unfold snapshotline_loop
    by_cases hc : b = SDELIM
    · subst hc
      simp only [doubleDelimiters, if_true, List.cons_append, List.headD_cons, List.tail_cons,
        ne_eq, not_true_eq_false, and_false, if_false]
      rw [if_pos hb1, out_putc_byte _ _ hb2, ih']
      simp
    · simp only [doubleDelimiters, if_neg hc, List.cons_append, List.headD_cons,
        List.tail_cons, false_and, if_false]
      rw [if_pos hb1, out_putc_byte _ _ hb2, ih']
      simp
      exact fun h => absurd h hc

theorem first_newline (D : List Nat) :
    (∀ b ∈ D, b ≠ 10) ∨ ∃ L D', D = L ++ 10 :: D' ∧ ∀ b ∈ L, b ≠ 10 := by
  induction D with
  | nil => left; simp
  | cons c D ih =>
    by_cases hc : c = 10
    · right; exact ⟨[], D, by simp [hc], by simp⟩
    · rcases ih with h | ⟨L, D', h1, h2⟩
      · left
        intro b hb
        rcases List.mem_cons.1 hb with rfl | hb
        · exact hc
        · exact h b hb
      · right
        refine ⟨c :: L, D', by simp [h1], ?_⟩
        intro b hb
        rcases List.mem_cons.1 hb with rfl | hb
        · exact hc
        · exact h2 b hb

theorem insertline_at_end (l : LinePtr) (e : EditBuffer LinePtr) (hwf : e.WF)
    (hsz : (liveLines e).length < 2305843009213693952) :
    ∃ e', insertline (toULong ((liveLines e).length : Int)) l e = .ok e' ∧ e'.WF ∧
      liveLines e' = liveLines e ++ [l] := by
  have hu : toULong ((liveLines e).length : Int) = (liveLines e).length := by
    unfold toULong; omega
  rw [hu]
  obtain ⟨e', h1, h2, h3⟩ := liveLines_insertline (liveLines e).length l e hwf (le_refl _) hsz
  exact ⟨e', h1, h2, by rw [h3]; simp⟩

theorem enter_loop_spec (rest : List Nat) (hr : rest.headD 0 ≠ SDELIM) (n : Nat) :
    ∀ (D : List Nat), D.length ≤ n → ∀ (pre : List Nat) (e : EditBuffer LinePtr)
      (s : in_buffer_type) (fuel : Nat),
      CursorAt s pre (doubleDelimiters D ++ SDELIM :: rest) → (∀ b ∈ D, b < 256) → e.WF →
      (liveLines e).length + D.length < 2305843009213693952 → D.length + 1 ≤ fuel →
      ∃ e' s' ptrs, enter_loop fuel ((liveLines e).length : Int) e s = .ok (e', s') ∧
        e'.WF ∧ liveLines e' = liveLines e ++ ptrs ∧
        (∀ out, snapshot_lines ptrs out = .ok (out ++ D)) ∧
        CursorAt s' (pre ++ doubleDelimiters D) (SDELIM :: rest) := by
  induction n with
  | zero =>
    intro D hD pre e s fuel h _ hwf _ hf
    have : D = [] := List.length_eq_zero.1 (by omega)
    subst this
    obtain ⟨fuel, rfl⟩ : ∃ f, fuel = f + 1 := ⟨fuel - 1, by omega⟩
    have h' : CursorAt s pre (SDELIM :: rest) := by simpa [doubleDelimiters] using h
    refine ⟨e, s, [], ?_, hwf, by simp, fun out => by simp [snapshot_lines],
      by simpa [doubleDelimiters] using h'⟩
    unfold enter_loop
    rw [in_get_line_at_end s pre rest h' hr]
    simp [Run.bind]
  | succ n ih =>
    intro D hD pre e s fuel h hb hwf hsz hf
    cases D with
    | nil =>
      obtain ⟨fuel, rfl⟩ : ∃ f, fuel = f + 1 := ⟨fuel - 1, by omega⟩
      have h' : CursorAt s pre (SDELIM :: rest) := by simpa [doubleDelimiters] using h
      refine ⟨e, s, [], ?_, hwf, by simp, fun out => by simp [snapshot_lines],
        by simpa [doubleDelimiters] using h'⟩
      unfold enter_loop
      rw [in_get_line_at_end s pre rest h' hr]
      simp [Run.bind]
    | cons b D0 =>
      obtain ⟨fuel, rfl⟩ : ∃ f, fuel = f + 2 := ⟨fuel - 2, by simp at hf; omega⟩
      obtain ⟨e1, hi1, w1, l1⟩ := insertline_at_end
        (some (doubleDelimiters (b :: D0) ++ SDELIM :: rest)) e hwf (by omega)
      have hw : wrapLong (((liveLines e).length : Int) + 1) = ((liveLines e1).length : Int) := by
        rw [l1]; unfold wrapLong; simp; omega
      rcases first_newline (b :: D0) with hno | ⟨L, D', hsplit, hL⟩
      · -- the text is one line without a newline
        obtain ⟨s1, hg, hat⟩ := in_get_line_partial b D0 pre rest s h hr hno
        refine ⟨e1, s1, [some (doubleDelimiters (b :: D0) ++ SDELIM :: rest)], ?_, w1, l1, ?_, hat⟩
        · unfold enter_loop
          rw [hg]
          simp only [Run.bind, hi1]
          unfold enter_loop
          rw [in_get_line_at_end s1 _ rest hat hr]
          simp [Run.bind]
        · intro out
          simp only [snapshot_lines, snapshotline, Run.bind]
          rw [snapshotline_loop_end (b :: D0) rest out _ hr (fun x hx => ⟨hno x hx, hb x hx⟩)
            (by have := length_le_doubleDelimiters (b :: D0); simp at this ⊢; omega)]
      · -- the first line ends in a newline
        have henc : doubleDelimiters (b :: D0) ++ SDELIM :: rest =
            doubleDelimiters L ++ 10 :: (doubleDelimiters D' ++ SDELIM :: rest) := by
          rw [hsplit, doubleDelimiters_append]
          simp [doubleDelimiters, SDELIM]
        rw [henc] at h hi1 l1
        obtain ⟨s1, hg, hat⟩ := in_get_line_newline L pre _ s h hL
        have hlen : (b :: D0).length = L.length + 1 + D'.length := by
          rw [hsplit]; simp; omega
        have hl1 : (liveLines e1).length = (liveLines e).length + 1 := by rw [l1]; simp
        obtain ⟨e', s', ptrs, hrun, w', hl', hsnap, hat'⟩ := ih D' (by omega)
          (pre ++ doubleDelimiters L ++ [10]) e1 s1 (fuel + 1) hat
          (fun x hx => hb x (by rw [hsplit]; simp [hx])) w1 (by omega) (by omega)
        refine ⟨e', s', some (doubleDelimiters L ++ 10 :: (doubleDelimiters D' ++ SDELIM :: rest))
          :: ptrs, ?_, w', by rw [hl', l1]; simp, ?_, ?_⟩
        · unfold enter_loop
          rw [hg]
          simp only [Run.bind, hi1, hw]
          exact hrun
        · intro out
          simp only [snapshot_lines, snapshotline]
          rw [snapshotline_loop_newline L _ out _
            (fun x hx => ⟨hL x hx, hb x (by rw [hsplit]; simp [hx])⟩)
            (by have := length_le_doubleDelimiters L; simp; omega)]
          simp only [Run.bind]
          rw [hsnap, hsplit]
          simp
        · rw [hsplit, doubleDelimiters_append]
          simpa [doubleDelimiters, SDELIM, List.append_assoc] using hat'

theorem copy_loop_at_end (s : in_buffer_type) (pre rest out : List Nat)
    (h : CursorAt s pre (SDELIM :: rest)) (hr : rest.headD 0 ≠ SDELIM) :
    process_delta_COPY s out = .ok (s, out) := by
  unfold process_delta_COPY
  have : ∃ f, readFuel s = f + 1 := by
    refine ⟨readFuel s - 1, ?_⟩
    unfold readFuel
    rw [h.1, h.2]
    simp; omega
  obtain ⟨f, hf⟩ := this
  rw [hf]
  unfold copy_loop
  rw [getc_at_end s pre rest h hr]
  simp

/-- C10: a text stored between delimiters with every `@` doubled, entered line
by line into the empty edit buffer by `process_delta` in `ENTER` mode and
emitted by `snapshotedit`, comes out as the text itself; `snapshotline` emits a
line up to and including its newline, or up to a single `@`, with every `@@`
reduced to one `@`. -/
theorem enter_snapshot_roundtrip (d rest : List Nat) (g : Nat → LinePtr)
    (hb : ∀ b ∈ d, b < 256) (hr : rest.headD 0 ≠ SDELIM)
    (hlen : d.length < 2305843009213693952) :
    (∃ s e s', in_buffer_init (storedText d rest) true = .ok s ∧
      process_delta_ENTER (emptyBuffer g) s [] = .ok (e, s', []) ∧
      snapshotedit e [] = .ok d) ∧
    (∀ (l t out : List Nat), (∀ b ∈ l, b ≠ 10 ∧ b < 256) →
      snapshotline (some (doubleDelimiters l ++ 10 :: t)) out = .ok (out ++ l ++ [10])) ∧
    (∀ (l r out : List Nat), (∀ b ∈ l, b ≠ 10 ∧ b < 256) → r.headD 0 ≠ SDELIM →
      snapshotline (some (doubleDelimiters l ++ SDELIM :: r)) out = .ok (out ++ l)) := by
  refine ⟨?_, ?_, ?_⟩
  · have hat : CursorAt { buffer := storedText d rest, ptr := 1, read_count := 0 } [SDELIM]
        (doubleDelimiters d ++ SDELIM :: rest) := ⟨rfl, rfl⟩
    have h0 := liveLines_emptyBuffer g
    obtain ⟨e', s', ptrs, hrun, _, hl, hsnap, hat'⟩ := enter_loop_spec rest hr d.length d
      (le_refl _) [SDELIM] (emptyBuffer g)
      { buffer := storedText d rest, ptr := 1, read_count := 0 }
      (readFuel { buffer := storedText d rest, ptr := 1, read_count := 0 }) hat hb
      (emptyBuffer_WF g) (by rw [h0]; simpa using hlen)
      (by
        have := length_le_doubleDelimiters d
        unfold readFuel storedText
        simp; omega)
    rw [h0] at hrun hl
    refine ⟨_, e', s', rfl, ?_, ?_⟩
    · unfold process_delta_ENTER
      simp only [List.length_nil, Nat.cast_zero] at hrun
      rw [hrun]
      simp only [Run.bind]
      rw [copy_loop_at_end s' _ rest [] hat' hr]
    · unfold snapshotedit
      rw [hl, List.nil_append, hsnap]
      rfl
  · intro l t out hl
    simp only [snapshotline]
    exact snapshotline_loop_newline l t out _ hl
      (by have := length_le_doubleDelimiters l; simp; omega)
  · intro l r out hl hr'
    simp only [snapshotline]
    exact snapshotline_loop_end l r out _ hr' hl
      (by have := length_le_doubleDelimiters l; simp; omega)

theorem enter_snapshot_roundtrip_witness :
    (∃ s e s', in_buffer_init (storedText [97, 64, 98, 10, 99] [10]) true = .ok s ∧
      process_delta_ENTER (emptyBuffer fun _ => none) s [] = .ok (e, s', []) ∧
      snapshotedit e [] = .ok [97, 64, 98, 10, 99]) ∧
    (∀ (l t out : List Nat), (∀ b ∈ l, b ≠ 10 ∧ b < 256) →
      snapshotline (some (doubleDelimiters l ++ 10 :: t)) out = .ok (out ++ l ++ [10])) ∧
    (∀ (l r out : List Nat), (∀ b ∈ l, b ≠ 10 ∧ b < 256) → r.headD 0 ≠ SDELIM →
      snapshotline (some (doubleDelimiters l ++ SDELIM :: r)) out = .ok (out ++ l)) :=
  enter_snapshot_roundtrip [97, 64, 98, 10, 99] [10] (fun _ => none)
    (by decide) (by decide) (by decide)

/-! ## Delta selection and ordering -/

theorem any_ne_iff (d t : cvs_number) (k : Nat) :
    (List.range k).any (fun i => decide (d.getD i 0 ≠ t.getD i 0)) = true ↔
      ¬ ∀ i < k, d.getD i 0 = t.getD i 0 := by
  simp [List.any_eq_true]

theorem delta_is_needed_cases (d t : cvs_number) (hd : d ≠ []) :
    delta_is_needed d t ≠ 0 ↔
      d.length ≤ t.length ∧
      ((d.length = 2 ∧ d.getD 0 0 > t.getD 0 0) ∨
       ((∀ i < d.length - 1, d.getD i 0 = t.getD i 0) ∧
        (d.length ≤ 2 → d.getD (d.length - 1) 0 ≥ t.getD (d.length - 1) 0) ∧
        (2 < d.length → d.getD (d.length - 1) 0 ≤ t.getD (d.length - 1) 0))) := by
  have hlen : 0 < d.length := List.length_pos.2 hd
  unfold delta_is_needed
  dsimp only
  by_cases h1 : d.length > t.length
  · rw [if_pos h1]
    simp; omega
  · rw [if_neg h1]
    have hmin : min (d.length : Int) (t.length : Int) - 1 = ((d.length - 1 : Nat) : Int) := by
      omega
    have hn : ∀ x : cvs_number, numAt x ((d.length - 1 : Nat) : Int) = x.getD (d.length - 1) 0 := by
      intro x; unfold numAt; simp
    rw [hmin, hn, hn]
    by_cases h2 : d.length = 2 ∧ t.length ≥ 2 ∧ d.getD 0 0 > t.getD 0 0
    · rw [if_pos h2]
      simp only [ne_eq, one_ne_zero, not_false_eq_true, true_iff]
      exact ⟨by omega, Or.inl ⟨h2.1, h2.2.2⟩⟩
    · rw [if_neg h2]
      by_cases h3 : (List.range (d.length - 1)).any
          (fun i => decide (d.getD i 0 ≠ t.getD i 0)) = true
      · rw [if_pos h3]
        rw [any_ne_iff] at h3
        constructor
        · intro h; exact absurd rfl h
        · rintro ⟨hl, hA | ⟨hp, _, _⟩⟩
          · exact absurd ⟨hA.1, by omega, hA.2⟩ h2
          · exact absurd hp h3
      · rw [if_neg h3]
        rw [any_ne_iff, not_not] at h3
        by_cases h4 : ((d.length - 1 : Nat) : Int) < 2 ∧
            d.getD (d.length - 1) 0 < t.getD (d.length - 1) 0
        · rw [if_pos h4]
          constructor
          · intro h; exact absurd rfl h
          · rintro ⟨hl, hA | ⟨_, hq, _⟩⟩
            · exact absurd ⟨hA.1, by omega, hA.2⟩ h2
            · have := hq (by omega)
              omega
        · rw [if_neg h4]
          by_cases h5 : ((d.length - 1 : Nat) : Int) > 1 ∧
              d.getD (d.length - 1) 0 > t.getD (d.length - 1) 0
          · rw [if_pos h5]
            constructor
            · intro h; exact absurd rfl h
            · rintro ⟨hl, hA | ⟨_, _, hr⟩⟩
              · exact absurd ⟨hA.1, by omega, hA.2⟩ h2
              · have := hr (by omega)
                omega
          · rw [if_neg h5]
            simp only [ne_eq, one_ne_zero, not_false_eq_true, true_iff]
            refine ⟨by omega, Or.inr ⟨h3, fun h => ?_, fun h => ?_⟩⟩
            · by_contra hc
              exact h4 ⟨by omega, by omega⟩
            · by_contra hc
              exact h5 ⟨by omega, by omega⟩

/-- C5 (amended): for a delta number `d` with at least one component,
`delta_is_needed(d, t)` holds exactly when `d` is not longer than `t` and either
`d` has two components and its first component is greater than that of `t`, or
every component of `d` before its final one equals that of `t` and the final
component of `d` is `≥` that of `t` for a trunk delta (at most two components)
and `≤` that of `t` for a branch delta (more than two components). -/
theorem delta_is_needed_iff (d t : cvs_number) (hd : d ≠ []) :
    delta_is_needed d t ≠ 0 ↔
      d.length ≤ t.length ∧
      ((d.length = 2 ∧ d.getD 0 0 > t.getD 0 0) ∨
       ((∀ i < d.length - 1, d.getD i 0 = t.getD i 0) ∧
        (d.length ≤ 2 → d.getD (d.length - 1) 0 ≥ t.getD (d.length - 1) 0) ∧
        (2 < d.length → d.getD (d.length - 1) 0 ≤ t.getD (d.length - 1) 0))) := by
  constructor
  · intro h
    exact (delta_is_needed_cases d t hd).1 h
  · intro h
    exact (delta_is_needed_cases d t hd).2 h

theorem delta_is_needed_iff_witness :
    delta_is_needed [1, 3] [1, 2] ≠ 0 ↔
      [1, 3].length ≤ [1, 2].length ∧
      (([1, 3].length = 2 ∧ [1, 3].getD 0 0 > [1, 2].getD 0 0) ∨
       ((∀ i < [1, 3].length - 1, [1, 3].getD i 0 = [1, 2].getD i 0) ∧
        ([1, 3].length ≤ 2 → [1, 3].getD ([1, 3].length - 1) 0 ≥ [1, 2].getD ([1, 3].length - 1) 0) ∧
        (2 < [1, 3].length →
          [1, 3].getD ([1, 3].length - 1) 0 ≤ [1, 2].getD ([1, 3].length - 1) 0))) :=
  delta_is_needed_iff [1, 3] [1, 2] (by decide)

/-- C5 (counterexample): `delta_is_needed(1.3, 1.2)` holds, while the final
component 3 of the trunk delta 1.3 is not `≤` the final component 2 of the
target, so the predicate of the specification fails. -/
theorem delta_is_needed_not_as_specified :
    delta_is_needed [1, 3] [1, 2] = 1 ∧ ¬ neededAsSpecified [1, 3] [1, 2] ∧
    delta_is_needed [2, 1] [1, 3] = 1 ∧ ¬ neededAsSpecified [2, 1] [1, 3] := by
  refine ⟨by decide, ?_, by decide, ?_⟩ <;> unfold neededAsSpecified <;> decide

theorem compare_deltas_loop_agree (a b : cvs_number) (k : Nat) : ∀ i,
    (∀ j, i ≤ j → j < i + k → a.getD j 0 = b.getD j 0) → compare_deltas_loop a b k i = none := by
  induction k with
  | zero => intro i _; rfl
  | succ k ih =>
    intro i h
    unfold compare_deltas_loop
    have h0 := h i (le_refl _) (by omega)
    rw [if_neg (by omega), if_neg (by omega)]
    exact ih (i + 1) (fun j h1 h2 => h j (by omega) (by omega))

theorem compare_deltas_loop_diff (a b : cvs_number) (i0 : Nat) (k : Nat) : ∀ i,
    i ≤ i0 → i0 < i + k → (∀ j, i ≤ j → j < i0 → a.getD j 0 = b.getD j 0) →
    a.getD i0 0 ≠ b.getD i0 0 →
    compare_deltas_loop a b k i =
      some (if a.getD i0 0 > b.getD i0 0 then (if i0 < 2 then -1 else 1)
            else (if i0 < 2 then 1 else -1)) := by
  induction k with
  | zero => intro i h1 h2; omega
  | succ k ih =>
    intro i h1 h2 h3 h4
    unfold compare_deltas_loop
    by_cases hi : i = i0
    · subst hi
      by_cases hgt : a.getD i 0 > b.getD i 0
      · rw [if_pos hgt, if_pos hgt]
      · rw [if_neg hgt, if_pos (by omega), if_neg hgt]
    · have h0 := h3 i (le_refl _) (by omega)
      rw [if_neg (by omega), if_neg (by omega)]
      exact ih (i + 1) (by omega) (by omega) (fun j h5 h6 => h3 j (by omega) h6) h4

theorem compare_deltas_loop_swap (a b : cvs_number) (k : Nat) : ∀ i,
    compare_deltas_loop b a k i = (compare_deltas_loop a b k i).map (fun r => -r) := by
  induction k with
  | zero => intro i; rfl
  | succ k ih =>
    intro i
    unfold compare_deltas_loop
    rcases Nat.lt_trichotomy (a.getD i 0) (b.getD i 0) with h | h | h
    · have h' : ¬ b.getD i 0 < a.getD i 0 := by omega
      simp only [gt_iff_lt, h, h', if_true, if_false]
      by_cases hi : i < 2 <;> simp [hi]
    · have h1 : ¬ b.getD i 0 < a.getD i 0 := by omega
      have h2 : ¬ a.getD i 0 < b.getD i 0 := by omega
      simp only [gt_iff_lt, h1, h2, if_false]
      exact ih (i + 1)
    · have h' : ¬ a.getD i 0 < b.getD i 0 := by omega
      simp only [gt_iff_lt, h, h', if_true, if_false]
      by_cases hi : i < 2 <;> simp [hi]

theorem compare_deltas_swap (a b : cvs_number) : compare_deltas b a = - compare_deltas a b := by
  unfold compare_deltas
  rw [Nat.min_comm b.length a.length, compare_deltas_loop_swap a b]
  cases compare_deltas_loop a b (min a.length b.length) 0 with
  | some r => rfl
  | none =>
    simp only [Option.map_none']
    split_ifs <;> first | rfl | omega

theorem eq_of_getD_eq (a b : cvs_number) (hl : a.length = b.length)
    (h : ∀ i < a.length, a.getD i 0 = b.getD i 0) : a = b := by
  apply List.ext_getElem hl
  intro i h1 h2
  have := h i h1
  rwa [List.getD_eq_getElem _ _ h1, List.getD_eq_getElem _ _ h2] at this

/-- A needed delta other than the target is applied before the target. -/
theorem compare_deltas_of_needed (d t : cvs_number) (hd : d ≠ [])
    (hn : delta_is_needed d t ≠ 0) (hne : d ≠ t) : compare_deltas d t < 0 := by
  have hlen : 0 < d.length := List.length_pos.2 hd
  rw [delta_is_needed_cases d t hd] at hn
  obtain ⟨hl, hA | ⟨hp, hq, hr⟩⟩ := hn
  · -- a trunk delta above the target's trunk number
    unfold compare_deltas
    rw [compare_deltas_loop_diff d t 0 _ 0 (le_refl _) (by omega) (fun j h1 h2 => by omega)
      (by omega)]
    rw [if_pos hA.2]
    simp
  · by_cases hlast : d.getD (d.length - 1) 0 = t.getD (d.length - 1) 0
    · -- `d` is a proper prefix of `t`
      have hall : ∀ i < d.length, d.getD i 0 = t.getD i 0 := by
        intro i hi
        by_cases h : i < d.length - 1
        · exact hp i h
        · have : i = d.length - 1 := by omega
          rw [this]; exact hlast
      have hlt : d.length < t.length := by
        rcases Nat.lt_or_ge d.length t.length with h | h
        · exact h
        · exact absurd (eq_of_getD_eq d t (by omega) hall) hne
      unfold compare_deltas
      rw [compare_deltas_loop_agree d t _ 0 (fun j _ h2 => hall j (by omega))]
      simp only
      rw [if_neg (by omega), if_pos hlt]
      omega
    · unfold compare_deltas
      rw [compare_deltas_loop_diff d t (d.length - 1) _ 0 (Nat.zero_le _) (by omega)
        (fun j _ h2 => hp j h2) hlast]
      by_cases h2 : d.length ≤ 2
      · have := hq h2
        rw [if_pos (by omega), if_pos (by omega)]
        simp
      · have := hr (by omega)
        rw [if_neg (by omega), if_neg (by omega)]
        simp

theorem delta_is_needed_self (t : cvs_number) (ht : t ≠ []) : delta_is_needed t t ≠ 0 := by
  rw [delta_is_needed_cases t t ht]
  exact ⟨le_refl _, Or.inr ⟨fun _ _ => rfl, fun _ => le_refl _, fun _ => le_refl _⟩⟩

theorem compare_deltas_self (t : cvs_number) : compare_deltas t t = 0 := by
  have := compare_deltas_swap t t
  omega

theorem mem_add_delta_after (p q x : delta_list) (rest : List delta_list) :
    x ∈ add_delta_after p q rest ↔ x = p ∨ x = q ∨ x ∈ rest := by
  induction rest generalizing q with
  | nil => simp [add_delta_after]; tauto
  | cons r rest ih =>
    unfold add_delta_after
    split_ifs
    · simp; tauto
    · simp [ih]; tauto

theorem mem_add_delta_to_list (v : cvs_version) (l : List delta_list) (x : delta_list) :
    x ∈ add_delta_to_list v l ↔ x = { version := v, patch := none } ∨ x ∈ l := by
  unfold add_delta_to_list
  cases l with
  | nil => simp
  | cons h rest =>
    dsimp only
    split_ifs
    · simp
    · rw [mem_add_delta_after]; simp

theorem getLast?_add_delta_after (p q : delta_list) (rest : List delta_list) :
    (add_delta_after p q rest).getLast? =
      if ∀ r ∈ rest, 0 < compare_deltas p.version.number r.version.number then some p
      else (q :: rest).getLast? := by
  induction rest generalizing q with
  | nil => simp [add_delta_after]
  | cons r rest ih =>
    unfold add_delta_after
    by_cases h : compare_deltas p.version.number r.version.number ≤ 0
    · rw [if_pos h, if_neg (by
        intro hall
        have := hall r (List.mem_cons_self _ _)
        omega)]
      simp
    · rw [if_neg h]
      have hne : add_delta_after p r rest ≠ [] := by
        intro h0
        have : p ∈ add_delta_after p r rest := (mem_add_delta_after _ _ _ _).2 (Or.inl rfl)
        rw [h0] at this
        simp at this
      obtain ⟨y, ys, hy⟩ := List.exists_cons_of_ne_nil hne
      rw [hy, List.getLast?_cons_cons, ← hy, ih r]
      by_cases hall : ∀ r' ∈ rest, 0 < compare_deltas p.version.number r'.version.number
      · rw [if_pos hall, if_pos (by
          intro r' hr'
          rcases List.mem_cons.1 hr' with rfl | hr'
          · omega
          · exact hall r' hr')]
      · rw [if_neg hall, if_neg (by
          intro h'
          exact hall (fun r' hr' => h' r' (List.mem_cons_of_mem _ hr'))), List.getLast?_cons_cons]

theorem eq_target_of_compare_le (r t : cvs_number) (hr : r ≠ [])
    (hn : delta_is_needed r t ≠ 0) (hc : compare_deltas t r ≤ 0) : r = t := by
  by_contra hne
  have := compare_deltas_of_needed r t hr hn hne
  have := compare_deltas_swap r t
  omega

theorem targetLast_add (t : cvs_number) (v : cvs_version) (l : List delta_list)
    (hv : v.number ≠ []) (hn : delta_is_needed v.number t ≠ 0) (hl : TargetLast t l) :
    TargetLast t (add_delta_to_list v l) := by
  obtain ⟨hl1, hl2⟩ := hl
  constructor
  · intro x hx
    rcases (mem_add_delta_to_list v l x).1 hx with rfl | hx
    · exact ⟨hv, hn⟩
    · exact hl1 x hx
  · intro hmem
    unfold chainNumbers at hmem hl2 ⊢
    rw [List.getLast?_map]
    rw [List.mem_map] at hmem
    obtain ⟨x, hx, hxt⟩ := hmem
    rw [mem_add_delta_to_list] at hx
    cases l with
    | nil =>
      rcases hx with rfl | hx
      · simp only [add_delta_to_list, List.getLast?_singleton, Option.map_some',
          Option.some.injEq]
        exact hxt
      · simp at hx
    | cons h rest =>
      have hh := hl1 h (List.mem_cons_self _ _)
      -- in each case the target is already in `h :: rest`, or the new entry is last
      have hold : t ∈ List.map (fun d => d.version.number) (h :: rest) →
          Option.map (fun d => d.version.number) (h :: rest).getLast? = some t := by
        intro hm
        have := hl2 hm
        rwa [List.getLast?_map] at this
      unfold add_delta_to_list
      dsimp only
      by_cases hc : compare_deltas v.number h.version.number < 0
      · rw [if_pos hc, List.getLast?_cons_cons]
        apply hold
        rcases hx with rfl | hx
        · dsimp only at hxt
          rw [hxt] at hc
          have := eq_target_of_compare_le _ t hh.1 hh.2 (by omega)
          rw [this] at hc
          rw [compare_deltas_self] at hc
          omega
        · exact List.mem_map.2 ⟨x, hx, hxt⟩
      · rw [if_neg hc, getLast?_add_delta_after]
        dsimp only
        by_cases hall : ∀ r ∈ rest, 0 < compare_deltas v.number r.version.number
        · rw [if_pos hall]
          simp only [Option.map_some', Option.some.injEq]
          by_contra hvt
          have hx' : x ∈ h :: rest := by
            rcases hx with rfl | hx
            · exact absurd hxt hvt
            · exact hx
          have hlast := hold (List.mem_map.2 ⟨x, hx', hxt⟩)
          have hK := compare_deltas_of_needed v.number t hv hn hvt
          cases rest with
          | nil =>
            simp only [List.getLast?_singleton, Option.map_some', Option.some.injEq] at hlast
            rw [hlast] at hc
            omega
          | cons r rest' =>
            rw [List.getLast?_cons_cons] at hlast
            cases hgl : (r :: rest').getLast? with
            | none => rw [hgl] at hlast; simp at hlast
            | some y =>
              rw [hgl] at hlast
              simp only [Option.map_some', Option.some.injEq] at hlast
              have := hall y (List.mem_of_getLast?_eq_some hgl)
              rw [hlast] at this
              omega
        · rw [if_neg hall]
          apply hold
          rcases hx with rfl | hx
          · dsimp only at hxt
            push_neg at hall
            obtain ⟨r, hr, hrc⟩ := hall
            have hr' := hl1 r (List.mem_cons_of_mem _ hr)
            rw [hxt] at hrc
            have := eq_target_of_compare_le _ t hr'.1 hr'.2 hrc
            exact List.mem_map.2 ⟨r, List.mem_cons_of_mem _ hr, this⟩
          · exact List.mem_map.2 ⟨x, hx, hxt⟩

theorem needed_deltas_spec (t : cvs_number) (vs : List cvs_version) :
    ∀ (acc : List delta_list), (∀ v ∈ vs, v.number ≠ []) → TargetLast t acc →
      TargetLast t (needed_deltas vs t acc) ∧
      ∀ x, x ∈ needed_deltas vs t acc ↔
        x ∈ acc ∨ ∃ v ∈ vs, delta_is_needed v.number t ≠ 0 ∧ x = { version := v, patch := none } := by
  induction vs with
  | nil => intro acc _ h; exact ⟨h, fun x => by simp [needed_deltas]⟩
  | cons v vs ih =>
    intro acc hne h
    unfold needed_deltas
    have hne' : ∀ v' ∈ vs, v'.number ≠ [] := fun v' hv' => hne v' (List.mem_cons_of_mem _ hv')
    by_cases hn : delta_is_needed v.number t ≠ 0
    · rw [if_pos hn]
      obtain ⟨h1, h2⟩ := ih (add_delta_to_list v acc) hne'
        (targetLast_add t v acc (hne v (List.mem_cons_self _ _)) hn h)
      refine ⟨h1, fun x => ?_⟩
      rw [h2, mem_add_delta_to_list]
      constructor
      · rintro ((rfl | hx) | ⟨v', hv', hn', rfl⟩)
        · exact Or.inr ⟨v, List.mem_cons_self _ _, hn, rfl⟩
        · exact Or.inl hx
        · exact Or.inr ⟨v', List.mem_cons_of_mem _ hv', hn', rfl⟩
      · rintro (hx | ⟨v', hv', hn', rfl⟩)
        · exact Or.inl (Or.inr hx)
        · rcases List.mem_cons.1 hv' with rfl | hv'
          · exact Or.inl (Or.inl rfl)
          · exact Or.inr ⟨v', hv', hn', rfl⟩
    · rw [if_neg hn]
      obtain ⟨h1, h2⟩ := ih acc hne' h
      refine ⟨h1, fun x => ?_⟩
      rw [h2]
      constructor
      · rintro (hx | ⟨v', hv', hn', rfl⟩)
        · exact Or.inl hx
        · exact Or.inr ⟨v', List.mem_cons_of_mem _ hv', hn', rfl⟩
      · rintro (hx | ⟨v', hv', hn', rfl⟩)
        · exact Or.inl hx
        · rcases List.mem_cons.1 hv' with rfl | hv'
          · exact absurd hn' hn
          · exact Or.inr ⟨v', hv', hn', rfl⟩

theorem chainNumbers_pair_patches (l : List delta_list) : ∀ (pp : List cvs_patch),
    chainNumbers (pair_patches l pp) = chainNumbers l := by
  induction l with
  | nil => intro pp; rfl
  | cons d l ih =>
    intro pp
    simp only [pair_patches, chainNumbers, List.map_cons, List.cons.injEq, true_and]
    exact ih _

/-- C4: when the version collection contains the target (every number having a
component), the list `get_revision_delta_list` returns is not empty, its last
entry has the target's number, and every other entry of the list compares
strictly before the target under `compare_deltas`. -/
theorem get_revision_delta_list_ends_at_target (cvs : cvs_file) (t : cvs_number)
    (hne : ∀ v ∈ cvs.versions, v.number ≠ []) (ht : ∃ v ∈ cvs.versions, v.number = t) :
    get_revision_delta_list cvs t ≠ [] ∧
    (chainNumbers (get_revision_delta_list cvs t)).getLast? = some t ∧
    ∀ n ∈ chainNumbers (get_revision_delta_list cvs t), n ≠ t → compare_deltas n t < 0 := by
  obtain ⟨v, hv, hvt⟩ := ht
  have htne : t ≠ [] := hvt ▸ hne v hv
  obtain ⟨⟨h1, h2⟩, h3⟩ := needed_deltas_spec t cvs.versions [] hne
    ⟨fun x hx => by simp at hx, fun hx => by simp [chainNumbers] at hx⟩
  have hmem : t ∈ chainNumbers (needed_deltas cvs.versions t []) := by
    unfold chainNumbers
    rw [List.mem_map]
    refine ⟨{ version := v, patch := none }, (h3 _).2 (Or.inr ⟨v, hv, ?_, rfl⟩), hvt⟩
    rw [hvt]; exact delta_is_needed_self t htne
  have hlast := h2 hmem
  unfold get_revision_delta_list
  rw [chainNumbers_pair_patches]
  refine ⟨?_, hlast, ?_⟩
  · intro h0
    have := chainNumbers_pair_patches (needed_deltas cvs.versions t []) cvs.patches
    rw [h0] at this
    rw [← this] at hmem
    simp [chainNumbers] at hmem
  · intro n hn hnt
    unfold chainNumbers at hn
    rw [List.mem_map] at hn
    obtain ⟨x, hx, rfl⟩ := hn
    have := h1 x hx
    exact compare_deltas_of_needed _ t this.1 this.2 hnt

theorem perm_three_cases (a b c : cvs_version) (vs : List cvs_version)
    (hnd : [a, b, c].Nodup) (h : vs.Perm [a, b, c]) :
    vs = [a, b, c] ∨ vs = [a, c, b] ∨ vs = [b, a, c] ∨ vs = [b, c, a] ∨ vs = [c, a, b] ∨
      vs = [c, b, a] := by
  have hlen : vs.length = 3 := by simpa using h.length_eq
  obtain ⟨x, y, z, rfl⟩ : ∃ x y z, vs = [x, y, z] := by
    match vs, hlen with
    | [x, y, z], _ => exact ⟨x, y, z, rfl⟩
  have hx : x ∈ [a, b, c] := h.subset (by simp)
  have hy : y ∈ [a, b, c] := h.subset (by simp)
  have hz : z ∈ [a, b, c] := h.subset (by simp)
  have hnd' : [x, y, z].Nodup := h.nodup_iff.2 hnd
  simp only [List.mem_cons, List.mem_singleton, List.not_mem_nil, or_false] at hx hy hz
  simp only [List.nodup_cons, List.mem_cons, List.mem_singleton, List.not_mem_nil, or_false,
    not_or, not_false_eq_true, List.nodup_nil, and_true] at hnd'
  obtain ⟨⟨hxy, hxz⟩, hyz⟩ := hnd'
  rcases hx with rfl | rfl | rfl <;> rcases hy with rfl | rfl | rfl <;>
    rcases hz with rfl | rfl | rfl <;> simp_all

theorem get_revision_delta_list_ends_at_target_witness :
    get_revision_delta_list fileTrunk [1, 1] ≠ [] ∧
    (chainNumbers (get_revision_delta_list fileTrunk [1, 1])).getLast? = some [1, 1] ∧
    ∀ n ∈ chainNumbers (get_revision_delta_list fileTrunk [1, 1]), n ≠ [1, 1] →
      compare_deltas n [1, 1] < 0 :=
  get_revision_delta_list_ends_at_target fileTrunk [1, 1] (by decide) (by decide)

/-- C6 (amended): for the versions 1.1, 1.2, 1.3, in any order of the
collection, and target 1.3 `get_revision_delta_list` returns the one entry 1.3;
for the versions 1.1, 1.2 and the branch revision 1.2.1.1 and target 1.2.1.1 it
returns the chain 1.2, 1.2.1.1. -/
theorem chain_of_trunk_and_branch (name : List Nat) (expand : Option (List Nat))
    (ps : List cvs_patch) (vs1 vs2 : List cvs_version)
    (h1 : vs1.Perm [versionOf [1, 1], versionOf [1, 2], versionOf [1, 3]])
    (h2 : vs2.Perm [versionOf [1, 1], versionOf [1, 2], versionOf [1, 2, 1, 1]]) :
    chainNumbers (get_revision_delta_list
      { name := name, expand := expand, versions := vs1, patches := ps } [1, 3]) = [[1, 3]] ∧
    chainNumbers (get_revision_delta_list
      { name := name, expand := expand, versions := vs2, patches := ps } [1, 2, 1, 1]) =
        [[1, 2], [1, 2, 1, 1]] := by
  unfold get_revision_delta_list
  rw [chainNumbers_pair_patches, chainNumbers_pair_patches]
  dsimp only
  constructor
  · rcases perm_three_cases _ _ _ vs1 (by decide) h1 with h | h | h | h | h | h <;>
      subst h <;> decide
  · rcases perm_three_cases _ _ _ vs2 (by decide) h2 with h | h | h | h | h | h <;>
      subst h <;> decide

theorem chain_of_trunk_and_branch_witness :
    chainNumbers (get_revision_delta_list
      { name := [102], expand := none,
        versions := [versionOf [1, 1], versionOf [1, 2], versionOf [1, 3]],
        patches := [] } [1, 3]) = [[1, 3]] ∧
    chainNumbers (get_revision_delta_list
      { name := [102], expand := none,
        versions := [versionOf [1, 1], versionOf [1, 2], versionOf [1, 2, 1, 1]],
        patches := [] } [1, 2, 1, 1]) = [[1, 2], [1, 2, 1, 1]] :=
  chain_of_trunk_and_branch [102] none [] _ _ (List.Perm.refl _) (List.Perm.refl _)

/-- C6 (counterexample): for the versions 1.1, 1.2, 1.3 and target 1.3 the
chain is 1.3 alone, not 1.1, 1.2, 1.3; for 1.1, 1.2, 1.2.1.1 and target
1.2.1.1 it is 1.2, 1.2.1.1, without 1.1. -/
theorem chain_of_examples_differs :
    chainNumbers (get_revision_delta_list fileTrunk [1, 3]) = [[1, 3]] ∧
    chainNumbers (get_revision_delta_list fileTrunk [1, 3]) ≠ [[1, 1], [1, 2], [1, 3]] ∧
    chainNumbers (get_revision_delta_list fileBranch [1, 2, 1, 1]) = [[1, 2], [1, 2, 1, 1]] ∧
    chainNumbers (get_revision_delta_list fileBranch [1, 2, 1, 1]) ≠
      [[1, 1], [1, 2], [1, 2, 1, 1]] := by
  decide

theorem cvs_number_compare_eq_zero (a b : cvs_number) : cvs_number_compare a b = 0 ↔ a = b := by
  unfold cvs_number_compare
  split_ifs <;> simp_all

theorem mem_of_mem_find_patch (n : cvs_number) (pp : List cvs_patch) (x : cvs_patch)
    (h : x ∈ find_patch n pp) : x ∈ pp := by
  induction pp with
  | nil => simp [find_patch] at h
  | cons q pp ih =>
    unfold find_patch at h
    split_ifs at h
    · exact h
    · exact List.mem_cons_of_mem _ (ih h)

theorem head_find_patch (n : cvs_number) (pp : List cvs_patch) (x : cvs_patch)
    (h : (find_patch n pp).head? = some x) : x.number = n := by
  induction pp with
  | nil => simp [find_patch] at h
  | cons q pp ih =>
    unfold find_patch at h
    split_ifs at h with hc
    · simp only [List.head?_cons, Option.some.injEq] at h
      rw [← h]
      exact (cvs_number_compare_eq_zero _ _).1 hc
    · exact ih h

theorem find_patch_of_sublist (n : cvs_number) (ns : List cvs_number) (pp : List cvs_patch)
    (h : (n :: ns).Sublist (pp.map fun p => p.number)) :
    (∃ p, (find_patch n pp).head? = some p) ∧
      ns.Sublist ((find_patch n pp).map fun p => p.number) := by
  induction pp with
  | nil => simp at h
  | cons q pp ih =>
    unfold find_patch
    by_cases hc : cvs_number_compare q.number n = 0
    · rw [if_pos hc]
      exact ⟨⟨q, rfl⟩, (List.sublist_cons_self n ns).trans h⟩
    · rw [if_neg hc]
      rw [cvs_number_compare_eq_zero] at hc
      apply ih
      rw [List.map_cons] at h
      cases h with
      | cons _ h' => exact h'
      | cons₂ _ h' => exact absurd rfl hc

theorem pair_patches_of_sublist (l : List delta_list) : ∀ (pp : List cvs_patch),
    (chainNumbers l).Sublist (pp.map fun p => p.number) →
    ∀ d ∈ pair_patches l pp, ∃ p ∈ pp, d.patch = some p ∧ p.number = d.version.number := by
  induction l with
  | nil => intro pp _ d hd; simp [pair_patches] at hd
  | cons e l ih =>
    intro pp h d hd
    simp only [chainNumbers, List.map_cons] at h
    obtain ⟨⟨p, hp⟩, hs⟩ := find_patch_of_sublist _ _ pp h
    unfold pair_patches at hd
    rcases List.mem_cons.1 hd with rfl | hd
    · refine ⟨p, mem_of_mem_find_patch _ pp p (List.mem_of_mem_head? hp), hp,
        head_find_patch _ pp p hp⟩
    · obtain ⟨p', hp', h1, h2⟩ := ih _ hs d hd
      exact ⟨p', mem_of_mem_find_patch _ pp p' hp', h1, h2⟩

/-- C7 (amended): when the numbers of the entries of the returned list occur in
the patch collection in the order of the list (they form a subsequence of the
numbers of the collection), every entry is paired with a patch of the
collection whose revision number equals the entry's version number. -/
theorem get_revision_delta_list_paired (cvs : cvs_file) (t : cvs_number)
    (h : (chainNumbers (get_revision_delta_list cvs t)).Sublist
      (cvs.patches.map fun p => p.number)) :
    ∀ d ∈ get_revision_delta_list cvs t,
      ∃ p ∈ cvs.patches, d.patch = some p ∧ p.number = d.version.number := by
  unfold get_revision_delta_list at h ⊢
  rw [chainNumbers_pair_patches] at h
  exact pair_patches_of_sublist _ _ h

theorem get_revision_delta_list_paired_witness :
    (chainNumbers (get_revision_delta_list filePatchesInOrder [1, 1])).Sublist
      (filePatchesInOrder.patches.map fun p => p.number) ∧
    ∀ d ∈ get_revision_delta_list filePatchesInOrder [1, 1],
      ∃ p ∈ filePatchesInOrder.patches, d.patch = some p ∧ p.number = d.version.number :=
  ⟨by decide, get_revision_delta_list_paired filePatchesInOrder [1, 1] (by decide)⟩

/-- C7 (counterexample): with the patch of 1.1 stored before the patch of 1.2,
the list for target 1.1 pairs the entry 1.2 with its patch and leaves the entry
1.1 without a patch, although the collection holds a patch numbered 1.1. -/
theorem get_revision_delta_list_unpaired :
    get_revision_delta_list filePatchesReversed [1, 1] =
      [{ version := versionOf [1, 2], patch := some (patchOf [1, 2]) },
       { version := versionOf [1, 1], patch := none }] ∧
    patchOf [1, 1] ∈ filePatchesReversed.patches := by
  decide

theorem mem_needed_deltas (t : cvs_number) (vs : List cvs_version) :
    ∀ (acc : List delta_list) (v : cvs_version), v ∈ vs → delta_is_needed v.number t ≠ 0 →
      { version := v, patch := none } ∈ needed_deltas vs t acc := by
  have hacc : ∀ (vs : List cvs_version) (acc : List delta_list) (x : delta_list), x ∈ acc →
      x ∈ needed_deltas vs t acc := by
    intro vs
    induction vs with
    | nil => intro acc x hx; exact hx
    | cons w vs ih =>
      intro acc x hx
      unfold needed_deltas
      split_ifs
      · exact ih _ x ((mem_add_delta_to_list _ _ _).2 (Or.inr hx))
      · exact ih _ x hx
  induction vs with
  | nil => intro acc v hv; simp at hv
  | cons w vs ih =>
    intro acc v hv hn
    unfold needed_deltas
    rcases List.mem_cons.1 hv with rfl | hv
    · rw [if_pos hn]
      exact hacc _ _ _ ((mem_add_delta_to_list _ _ _).2 (Or.inl rfl))
    · exact ih _ v hv hn

theorem pair_patches_without_patch (l : List delta_list) : ∀ (pp : List cvs_patch)
    (d : delta_list), d ∈ l → (∀ p ∈ pp, p.number ≠ d.version.number) →
    { version := d.version, patch := none } ∈ pair_patches l pp := by
  induction l with
  | nil => intro pp d hd; simp at hd
  | cons e l ih =>
    intro pp d hd hno
    unfold pair_patches
    rcases List.mem_cons.1 hd with rfl | hd
    · have : (find_patch d.version.number pp).head? = none := by
        cases hh : (find_patch d.version.number pp).head? with
        | none => rfl
        | some x =>
          exact absurd (head_find_patch _ _ _ hh)
            (hno x (mem_of_mem_find_patch _ _ _ (List.mem_of_mem_head? hh)))
      rw [this]
      exact List.mem_cons_self _ _
    · exact List.mem_cons_of_mem _
        (ih _ d hd (fun p hp => hno p (mem_of_mem_find_patch _ _ _ hp)))

/-- C8 (amended): `get_revision_delta_list` has no failure path; when a needed
version has no patch with an equal revision number in the patch collection, the
returned list contains the entry of that version with a null patch. -/
theorem get_revision_delta_list_null_patch (cvs : cvs_file) (t : cvs_number)
    (v : cvs_version) (hv : v ∈ cvs.versions) (hn : delta_is_needed v.number t ≠ 0)
    (hno : ∀ p ∈ cvs.patches, p.number ≠ v.number) :
    { version := v, patch := none } ∈ get_revision_delta_list cvs t := by
  unfold get_revision_delta_list
  exact pair_patches_without_patch _ _ { version := v, patch := none }
    (mem_needed_deltas t _ [] v hv hn) hno

theorem get_revision_delta_list_null_patch_witness :
    { version := versionOf [1, 1], patch := none } ∈
      get_revision_delta_list filePatchMissing [1, 1] :=
  get_revision_delta_list_null_patch filePatchMissing [1, 1] (versionOf [1, 1])
    (by decide) (by decide) (by decide)

/-- C8 (counterexample): for a file whose patch collection has no patch for the
needed version 1.1, `get_revision_delta_list` returns a list, and the entry of
1.1 in it has no patch. -/
theorem get_revision_delta_list_returns_null_patch :
    get_revision_delta_list filePatchMissing [1, 1] =
      [{ version := versionOf [1, 2], patch := some (patchOf [1, 2]) },
       { version := versionOf [1, 1], patch := none }] := by
  decide

/-! ## The base revision -/

theorem copy_loop_spec (D : List Nat) : ∀ (pre rest out : List Nat) (s : in_buffer_type)
    (fuel : Nat), CursorAt s pre (doubleDelimiters D ++ SDELIM :: rest) →
    rest.headD 0 ≠ SDELIM → (∀ b ∈ D, b < 256) → D.length + 1 ≤ fuel →
    ∃ s', copy_loop fuel s out = .ok (s', out ++ D) := by
  induction D with
  | nil =>
    intro pre rest out s fuel h hr _ hf
    obtain ⟨fuel, rfl⟩ : ∃ f, fuel = f + 1 := ⟨fuel - 1, by omega⟩
    have h' : CursorAt s pre (SDELIM :: rest) := by simpa [doubleDelimiters] using h
    refine ⟨s, ?_⟩
    unfold copy_loop
    rw [getc_at_end s pre rest h' hr]
    simp
  | cons b D ih =>
    intro pre rest out s fuel h hr hb hf
    obtain ⟨fuel, rfl⟩ : ∃ f, fuel = f + 1 := ⟨fuel - 1, by simp at hf; omega⟩
    have hsplit : doubleDelimiters (b :: D) = doubleDelimiters [b] ++ doubleDelimiters D :=
      doubleDelimiters_append [b] D
    rw [hsplit, List.append_assoc] at h
    have hg := getc_at_byte s pre _ b h
    obtain ⟨s', hs'⟩ := ih (pre ++ doubleDelimiters [b]) rest (out ++ [b])
      (in_buffer_getc s).2 fuel hg.2.1 hr (fun x hx => hb x (List.mem_cons_of_mem _ hx))
      (by simp at hf; omega)
    refine ⟨s', ?_⟩
    unfold copy_loop
    rw [if_pos (by rw [hg.1]; unfold EOF; omega), hg.1,
      out_putc_byte b out (hb b (List.mem_cons_self _ _)), hs']
    simp

theorem process_delta_COPY_storedText (d rest out : List Nat) (hr : rest.headD 0 ≠ SDELIM)
    (hb : ∀ b ∈ d, b < 256) :
    ∃ s', process_delta_COPY { buffer := storedText d rest, ptr := 1, read_count := 0 } out =
      .ok (s', out ++ d) := by
  unfold process_delta_COPY
  apply copy_loop_spec d [SDELIM] rest out _ _ ⟨rfl, rfl⟩ hr hb
  have := length_le_doubleDelimiters d
  unfold readFuel storedText
  simp; omega

theorem delta_not_needed (d t : cvs_number) (hd : 2 ≤ d.length) (ht : t.length = 2)
    (hne : d ≠ t)
    (hle : d.length = 2 → d.getD 0 0 < t.getD 0 0 ∨
      (d.getD 0 0 = t.getD 0 0 ∧ d.getD 1 0 ≤ t.getD 1 0)) :
    delta_is_needed d t = 0 := by
  by_contra hn
  have hd0 : d ≠ [] := by intro h; rw [h] at hd; simp at hd
  rw [← ne_eq, delta_is_needed_cases d t hd0] at hn
  obtain ⟨hl, hA | ⟨hp, hq, _⟩⟩ := hn
  · have := hle hA.1
    omega
  · have h2 : d.length = 2 := by omega
    have h0 := hp 0 (by omega)
    have h1 := hq (by omega)
    rw [h2] at h1
    have := hle h2
    apply hne
    apply eq_of_getD_eq d t (by omega)
    intro i hi
    have : i = 0 ∨ i = 1 := by omega
    rcases this with rfl | rfl
    · exact h0
    · simp only [Nat.add_one_sub_one] at h1; omega

theorem needed_deltas_unchanged (t : cvs_number) (vs : List cvs_version) :
    ∀ acc, (∀ v ∈ vs, delta_is_needed v.number t = 0) → needed_deltas vs t acc = acc := by
  induction vs with
  | nil => intro acc _; rfl
  | cons w vs ih =>
    intro acc h
    unfold needed_deltas
    rw [if_neg (by rw [h w (List.mem_cons_self _ _)]; simp)]
    exact ih acc (fun v hv => h v (List.mem_cons_of_mem _ hv))

theorem needed_deltas_single (t : cvs_number) (ht : t ≠ []) (vs : List cvs_version) :
    (vs.map fun v => v.number).Nodup → (∃ v ∈ vs, v.number = t) →
    (∀ v ∈ vs, v.number ≠ t → delta_is_needed v.number t = 0) →
    ∃ v ∈ vs, v.number = t ∧ needed_deltas vs t [] = [{ version := v, patch := none }] := by
  induction vs with
  | nil => intro _ h; simp at h
  | cons w vs ih =>
    intro hnd hex hno
    rw [List.map_cons, List.nodup_cons] at hnd
    unfold needed_deltas
    by_cases hw : w.number = t
    · refine ⟨w, List.mem_cons_self _ _, hw, ?_⟩
      rw [if_pos (by rw [hw]; exact delta_is_needed_self t ht)]
      rw [needed_deltas_unchanged t vs _ (fun v hv => hno v (List.mem_cons_of_mem _ hv)
        (by
          intro hv'
          apply hnd.1
          rw [hw, ← hv']
          exact List.mem_map.2 ⟨v, hv, rfl⟩))]
      rfl
    · rw [if_neg (by rw [hno w (List.mem_cons_self _ _) hw]; simp)]
      obtain ⟨v, hv, hvt⟩ := hex
      have hv' : v ∈ vs := by
        rcases List.mem_cons.1 hv with rfl | h
        · exact absurd hvt hw
        · exact h
      obtain ⟨v', h1, h2, h3⟩ := ih hnd.2 ⟨v, hv', hvt⟩
        (fun x hx => hno x (List.mem_cons_of_mem _ hx))
      exact ⟨v', List.mem_cons_of_mem _ h1, h2, h3⟩

theorem head_find_patch_eq_find (n : cvs_number) (pp : List cvs_patch) :
    (find_patch n pp).head? = pp.find? fun q => decide (q.number = n) := by
  induction pp with
  | nil => rfl
  | cons q pp ih =>
    unfold find_patch
    by_cases h : q.number = n
    · rw [if_pos ((cvs_number_compare_eq_zero _ _).2 h)]
      simp [h]
    · rw [if_neg (by rw [cvs_number_compare_eq_zero]; exact h), ih]
      simp [h]

/-- C3: when the revision numbers of the versions are distinct and have at least
two components, and the target is the greatest trunk revision,
`get_revision_delta_list` returns one entry, the target with its patch; with
`Gexpand` equal to `o` or `b`, `buildrevision` then appends to the output the
text stored in that patch between its delimiters, every `@@` reduced to `@`. -/
theorem base_revision_is_copied (env : Env) (fuel : Nat) (cvs : cvs_file) (t : cvs_number)
    (p : cvs_patch) (d rest : List Nat) (g : Globals)
    (hnd : (cvs.versions.map fun v => v.number).Nodup)
    (h2 : ∀ v ∈ cvs.versions, 2 ≤ v.number.length)
    (ht : ∃ v ∈ cvs.versions, v.number = t) (ht2 : t.length = 2)
    (hmax : ∀ v ∈ cvs.versions, v.number.length = 2 →
      v.number.getD 0 0 < t.getD 0 0 ∨
        (v.number.getD 0 0 = t.getD 0 0 ∧ v.number.getD 1 0 ≤ t.getD 1 0))
    (hp : cvs.patches.find? (fun q => decide (q.number = t)) = some p)
    (htext : p.text = storedText d rest) (hr : rest.headD 0 ≠ SDELIM)
    (hb : ∀ b ∈ d, b < 256)
    (hexp : g.Gexpand = .EXPANDKO ∨ g.Gexpand = .EXPANDKB) :
    ∃ v ∈ cvs.versions, v.number = t ∧
      get_revision_delta_list cvs t = [{ version := v, patch := some p }] ∧
      ∃ g', buildrevision env fuel (get_revision_delta_list cvs t) g = .ok g' ∧
        g'.Goutbuf = g.Goutbuf ++ d := by
  have htne : t ≠ [] := by intro h; rw [h] at ht2; simp at ht2
  obtain ⟨v, hv, hvt, hlist⟩ := needed_deltas_single t htne cvs.versions hnd ht
    (fun w hw hne => delta_not_needed w.number t (h2 w hw) ht2 hne (hmax w hw))
  have hl : get_revision_delta_list cvs t = [{ version := v, patch := some p }] := by
    unfold get_revision_delta_list
    rw [hlist]
    simp only [pair_patches]
    rw [hvt, head_find_patch_eq_find, hp]
  refine ⟨v, hv, hvt, hl, ?_⟩
  rw [hl]
  obtain ⟨s', hs'⟩ := process_delta_COPY_storedText d rest g.Goutbuf hr hb
  have hflag : decide (g.Gexpand.toNat < expand_mode.EXPANDKO.toNat) = false := by
    rcases hexp with h | h <;> rw [h] <;> decide
  unfold buildrevision
  simp only [hflag, process_delta, in_buffer_init, htext, storedText, peek, List.getD_cons_zero,
    ne_eq, not_true_eq_false, if_false, if_true, Run.bind, Bool.false_eq_true]
  unfold storedText at hs'
  rw [hs']
  exact ⟨_, rfl, rfl⟩

theorem base_revision_is_copied_witness :
    ∃ v ∈ fileBase.versions, v.number = [1, 3] ∧
      get_revision_delta_list fileBase [1, 3] =
        [{ version := v,
           patch := some { number := [1, 3], log := [],
                           text := storedText [97, 64, 98, 10] [10] } }] ∧
      ∃ g', buildrevision envExample 0 (get_revision_delta_list fileBase [1, 3])
          (initialGlobals fileBase fun _ => none) = .ok g' ∧
        g'.Goutbuf = (initialGlobals fileBase fun _ => none).Goutbuf ++ [97, 64, 98, 10] :=
  base_revision_is_copied envExample 0 fileBase [1, 3]
    { number := [1, 3], log := [], text := storedText [97, 64, 98, 10] [10] }
    [97, 64, 98, 10] [10] (initialGlobals fileBase fun _ => none)
    (by decide) (by decide) (by decide) (by decide) (by decide) (by decide) rfl (by decide)
    (by decide) (Or.inl rfl)

/-! ## The order of application -/

theorem compare_deltas_neg_iff (a b : cvs_number) :
    compare_deltas a b < 0 ↔ AppliedBefore a b := by
  unfold AppliedBefore
  by_cases hex : ∃ i, i < a.length ∧ i < b.length ∧ a.getD i 0 ≠ b.getD i 0
  · -- the numbers differ at a shared index; take the first
    classical
    have hi := Nat.find_spec hex
    have hmin : ∀ j < Nat.find hex, a.getD j 0 = b.getD j 0 := by
      intro j hj
      by_contra hne
      have hj' : j < a.length ∧ j < b.length := ⟨by omega, by omega⟩
      exact Nat.find_min hex hj ⟨hj'.1, hj'.2, hne⟩
    generalize Nat.find hex = i0 at hi hmin
    obtain ⟨h1, h2, h3⟩ := hi
    have hv : compare_deltas a b =
        (if a.getD i0 0 > b.getD i0 0 then (if i0 < 2 then -1 else 1)
         else (if i0 < 2 then 1 else -1)) := by
      unfold compare_deltas
      rw [compare_deltas_loop_diff a b i0 _ 0 (Nat.zero_le _)
        (by rw [Nat.zero_add]; exact lt_min h1 h2) (fun j _ hj => hmin j hj) h3]
    rw [hv]
    constructor
    · intro hneg
      left
      refine ⟨i0, h1, h2, hmin, ?_⟩
      by_cases hgt : a.getD i0 0 > b.getD i0 0
      · rw [if_pos hgt] at hneg
        by_cases h02 : i0 < 2
        · rw [if_pos h02]; exact hgt
        · rw [if_neg h02] at hneg; omega
      · rw [if_neg hgt] at hneg
        by_cases h02 : i0 < 2
        · rw [if_pos h02] at hneg; omega
        · rw [if_neg h02]; omega
    · rintro (⟨i, hi1, hi2, hi3, hi4⟩ | ⟨hall, _⟩)
      · have hii : i = i0 := by
          rcases Nat.lt_trichotomy i i0 with h | h | h
          · have := hmin i h
            by_cases h02 : i < 2
            · rw [if_pos h02] at hi4; omega
            · rw [if_neg h02] at hi4; omega
          · exact h
          · exact absurd (hi3 i0 h) h3
        subst hii
        by_cases h02 : i < 2
        · rw [if_pos h02] at hi4
          rw [if_pos hi4, if_pos h02]; omega
        · rw [if_neg h02] at hi4
          rw [if_neg (by omega), if_neg h02]; omega
      · exact absurd (hall i0 h1 h2) h3
  · -- the numbers agree on the shared indices
    have hall : ∀ j, j < a.length → j < b.length → a.getD j 0 = b.getD j 0 := by
      intro j h1 h2
      by_contra hne
      exact hex ⟨j, h1, h2, hne⟩
    have hv : compare_deltas a b =
        (if a.length > b.length then 1 else if a.length < b.length then -1 else 0) := by
      unfold compare_deltas
      rw [compare_deltas_loop_agree a b _ 0 (fun j _ hj => by
        rw [Nat.zero_add] at hj
        exact hall j (lt_of_lt_of_le hj (min_le_left _ _))
          (lt_of_lt_of_le hj (min_le_right _ _)))]
    rw [hv]
    constructor
    · intro hneg
      right
      refine ⟨hall, ?_⟩
      by_cases h1 : a.length > b.length
      · rw [if_pos h1] at hneg; omega
      · rw [if_neg h1] at hneg
        by_cases h2 : a.length < b.length
        · exact h2
        · rw [if_neg h2] at hneg; omega
    · rintro (⟨i, hi1, hi2, _, hi4⟩ | ⟨_, hlt⟩)
      · have := hall i hi1 hi2
        by_cases h02 : i < 2
        · rw [if_pos h02] at hi4; omega
        · rw [if_neg h02] at hi4; omega
      · rw [if_neg (by omega), if_pos hlt]; omega

theorem appliedBefore_trans (a b c : cvs_number) (hab : AppliedBefore a b)
    (hbc : AppliedBefore b c) : AppliedBefore a c := by
  unfold AppliedBefore at *
  rcases hab with ⟨i, hi1, hi2, hi3, hi4⟩ | ⟨hall, hlt⟩
  · rcases hbc with ⟨k, hk1, hk2, hk3, hk4⟩ | ⟨hall', hlt'⟩
    · rcases Nat.lt_trichotomy i k with h | h | h
      · left
        refine ⟨i, hi1, by omega, fun j hj => by rw [hi3 j hj, hk3 j (by omega)], ?_⟩
        rw [← hk3 i h]; exact hi4
      · subst h
        left
        refine ⟨i, hi1, hk2, fun j hj => by rw [hi3 j hj, hk3 j hj], ?_⟩
        by_cases h02 : i < 2
        · rw [if_pos h02] at hi4 hk4 ⊢; omega
        · rw [if_neg h02] at hi4 hk4 ⊢; omega
      · left
        refine ⟨k, by omega, hk2, fun j hj => by rw [hi3 j (by omega), hk3 j hj], ?_⟩
        rw [hi3 k h]; exact hk4
    · left
      refine ⟨i, hi1, by omega, fun j hj => by
        rw [hi3 j hj, hall' j (by omega) (by omega)], ?_⟩
      rw [← hall' i hi2 (by omega)]; exact hi4
  · rcases hbc with ⟨k, hk1, hk2, hk3, hk4⟩ | ⟨hall', hlt'⟩
    · by_cases h : k < a.length
      · left
        refine ⟨k, h, hk2, fun j hj => by
          rw [hall j (by omega) (by omega), hk3 j hj], ?_⟩
        rw [hall k h hk1]; exact hk4
      · right
        refine ⟨fun j h1 h2 => by rw [hall j h1 (by omega), hk3 j (by omega)], by omega⟩
    · right
      exact ⟨fun j h1 h2 => by rw [hall j h1 (by omega), hall' j (by omega) h2], by omega⟩

/-- C20: `compare_deltas` decides a total order on revision numbers: the result
is `0` exactly for equal numbers (same length, same components), exchanging the
arguments negates the result, "less than" is transitive, and a proper prefix
sorts before the longer number. -/
theorem compare_deltas_total_order (a b c : cvs_number) :
    (compare_deltas a b = 0 ↔ a = b) ∧
    compare_deltas a b = - compare_deltas b a ∧
    (compare_deltas a b < 0 → compare_deltas b c < 0 → compare_deltas a c < 0) ∧
    (a <+: b → a ≠ b → compare_deltas a b < 0) := by
  refine ⟨?_, compare_deltas_swap b a, ?_, ?_⟩
  · constructor
    · intro h0
      have h1 : ¬ AppliedBefore a b := by
        rw [← compare_deltas_neg_iff]; omega
      have h2 : ¬ AppliedBefore b a := by
        rw [← compare_deltas_neg_iff, compare_deltas_swap a b]; omega
      unfold AppliedBefore at h1 h2
      rw [not_or] at h1 h2
      have hall : ∀ j, j < a.length → j < b.length → a.getD j 0 = b.getD j 0 := by
        intro j
        induction j using Nat.strong_induction_on with
        | _ j ih =>
          intro hj1 hj2
          by_contra hne
          rcases Nat.lt_or_gt_of_ne hne with hlt | hgt
          · by_cases h02 : j < 2
            · exact h2.1 ⟨j, hj2, hj1, fun k hk => (ih k hk (by omega) (by omega)).symm,
                by rw [if_pos h02]; exact hlt⟩
            · exact h1.1 ⟨j, hj1, hj2, fun k hk => ih k hk (by omega) (by omega),
                by rw [if_neg h02]; exact hlt⟩
          · by_cases h02 : j < 2
            · exact h1.1 ⟨j, hj1, hj2, fun k hk => ih k hk (by omega) (by omega),
                by rw [if_pos h02]; exact hgt⟩
            · exact h2.1 ⟨j, hj2, hj1, fun k hk => (ih k hk (by omega) (by omega)).symm,
                by rw [if_neg h02]; exact hgt⟩
      have hl : a.length = b.length := by
        rcases Nat.lt_trichotomy a.length b.length with h | h | h
        · exact absurd ⟨hall, h⟩ h1.2
        · exact h
        · exact absurd ⟨fun j x y => (hall j y x).symm, h⟩ h2.2
      exact eq_of_getD_eq a b hl (fun i hi => hall i hi (by omega))
    · intro h
      rw [h]
      exact compare_deltas_self b
  · intro hab hbc
    rw [compare_deltas_neg_iff] at hab hbc ⊢
    exact appliedBefore_trans a b c hab hbc
  · intro hp hne
    rw [compare_deltas_neg_iff]
    right
    obtain ⟨t, rfl⟩ := hp
    constructor
    · intro j hj _
      rw [List.getD_append _ _ _ _ hj]
    · cases t with
      | nil => simp at hne
      | cons x xs => simp

/-! ## The bounds of the two editing functions -/

theorem insertline_fatal_iff {α : Type} (n : Nat) (l : α) (s : EditBuffer α) (hwf : s.WF) :
    insertline n l s = .fatal .insertBeyondEof ↔ (liveLines s).length < n := by
  rw [liveLines_length s hwf.1]
  obtain ⟨h1, h2⟩ := hwf
  unfold insertline
  by_cases hc : n > usub s.Glinemax s.Ggapsize
  · rw [if_pos hc]
    unfold usub SIZE_MOD at hc
    constructor
    · intro _; omega
    · intro _; rfl
  · rw [if_neg hc]
    unfold usub SIZE_MOD at hc
    constructor
    · intro h; exact absurd h (by simp)
    · intro h; omega

theorem deletelines_fatal_iff {α : Type} (n count : Nat) (s : EditBuffer α) (hwf : s.WF)
    (hn : n < 18446744073709551616) (hc : count < 18446744073709551616) :
    deletelines n count s = .fatal .deleteBeyondEof ↔
      ((liveLines s).length < n + count ∨ 18446744073709551616 ≤ n + count) := by
  rw [liveLines_length s hwf.1]
  obtain ⟨h1, h2⟩ := hwf
  unfold deletelines
  dsimp only
  by_cases hf : usub s.Glinemax s.Ggapsize < (n + count) % SIZE_MOD ∨ (n + count) % SIZE_MOD < n
  · rw [if_pos hf]
    unfold usub SIZE_MOD at hf
    constructor
    · intro _; omega
    · intro _; rfl
  · rw [if_neg hf]
    unfold usub SIZE_MOD at hf
    constructor
    · intro h; exact absurd h (by simp)
    · intro h; omega

/-- C19: for an edit buffer with `k` live lines (the gap inside the array, fewer
than `2^61` lines), `insertline(n, l)` ends the run with its fatal error exactly
when `n > k` and otherwise leaves `k + 1` live lines; `deletelines(n, count)`
ends the run with its fatal error exactly when `n + count > k` or `n + count`
overflows the `unsigned long`, and otherwise leaves `k - count` live lines.  A
failing call produces no buffer: the test precedes every write. -/
theorem insertline_deletelines_bounds {α : Type} (s : EditBuffer α) (n count : Nat) (l : α)
    (hwf : s.WF) (hsz : (liveLines s).length < 2305843009213693952)
    (hn : n < 18446744073709551616) (hc : count < 18446744073709551616) :
    (insertline n l s = .fatal .insertBeyondEof ↔ (liveLines s).length < n) ∧
    (n ≤ (liveLines s).length →
      ∃ s1, insertline n l s = .ok s1 ∧ (liveLines s1).length = (liveLines s).length + 1) ∧
    (deletelines n count s = .fatal .deleteBeyondEof ↔
      ((liveLines s).length < n + count ∨ 18446744073709551616 ≤ n + count)) ∧
    (n + count ≤ (liveLines s).length →
      ∃ s1, deletelines n count s = .ok s1 ∧
        (liveLines s1).length = (liveLines s).length - count) := by
  refine ⟨insertline_fatal_iff n l s hwf, ?_, deletelines_fatal_iff n count s hwf hn hc, ?_⟩
  · intro h
    obtain ⟨s1, h1, _, h3⟩ := liveLines_insertline n l s hwf h hsz
    refine ⟨s1, h1, ?_⟩
    rw [h3]
    simp only [List.length_append, List.length_take, List.length_cons, List.length_drop]
    omega
  · intro h
    obtain ⟨s1, h1, _, h3⟩ := liveLines_deletelines n count s hwf h
    refine ⟨s1, h1, ?_⟩
    rw [h3]
    simp only [List.length_append, List.length_take, List.length_drop]
    omega

theorem insertline_deletelines_bounds_witness :
    bufferABC.WF ∧ (liveLines bufferABC).length = 3 ∧
    (insertline 2 none bufferABC = .fatal .insertBeyondEof ↔ (liveLines bufferABC).length < 2) ∧
    (2 ≤ (liveLines bufferABC).length →
      ∃ s1, insertline 2 none bufferABC = .ok s1 ∧
        (liveLines s1).length = (liveLines bufferABC).length + 1) ∧
    (deletelines 2 2 bufferABC = .fatal .deleteBeyondEof ↔
      ((liveLines bufferABC).length < 2 + 2 ∨ 18446744073709551616 ≤ 2 + 2)) ∧
    (2 + 2 ≤ (liveLines bufferABC).length →
      ∃ s1, deletelines 2 2 bufferABC = .ok s1 ∧
        (liveLines s1).length = (liveLines bufferABC).length - 2) :=
  have h1 : bufferABC.WF := ⟨by decide, by decide⟩
  have h2 : (liveLines bufferABC).length = 3 := by decide
  ⟨h1, h2, insertline_deletelines_bounds bufferABC 2 2 none h1 (by rw [h2]; decide)
    (by decide) (by decide)⟩

/-! ## The checks of `parse_next_delta_command` -/

theorem parse_of_read (dc : diffcmd) (s s' : in_buffer_type) (cmd L N : Int)
    (hread : read_delta_command s = .ok (cmd, L, N, s')) (hcmd : cmd ≠ EOF) :
    parse_next_delta_command dc s =
      if N = 0 ∨ (cmd ≠ 97 ∧ cmd ≠ 100) ∨ wrapLong (L + N) < L then .fatal .corruptDelta
      else if cmd = 97 then
        if L < dc.adprev then .fatal .backwardInsertion
        else .ok (1, { line1 := L, nlines := N, adprev := wrapLong (L + 1),
                       dafter := dc.dafter }, s')
      else
        if L < dc.adprev ∨ L < dc.dafter then .fatal .backwardDeletion
        else .ok (0, { line1 := L, nlines := N, adprev := L,
                       dafter := wrapLong (L + N) }, s') := by
  unfold read_delta_command at hread
  rw [Run.bind_eq_ok] at hread
  obtain ⟨r1, h1, hread⟩ := hread
  rw [Run.bind_eq_ok] at hread
  obtain ⟨s3, h2, hread⟩ := hread
  rw [Run.bind_eq_ok] at hread
  obtain ⟨r2, h3, hread⟩ := hread
  rw [Run.bind_eq_ok] at hread
  obtain ⟨s6, h4, hread⟩ := hread
  simp only [Run.ok.injEq, Prod.mk.injEq] at hread
  obtain ⟨e1, e2, e3, e4⟩ := hread
  unfold parse_next_delta_command
  dsimp only
  rw [if_neg (by rw [e1]; exact hcmd), h1]
  simp only [Run.bind]
  rw [h2]
  simp only [Run.bind]
  rw [h3]
  simp only [Run.bind]
  rw [h4]
  simp only [Run.bind]
  rw [e1, e2, e3, e4]

theorem read_delta_command_range (s s' : in_buffer_type) (cmd L N : Int)
    (hread : read_delta_command s = .ok (cmd, L, N, s')) :
    (-9223372036854775808 ≤ L ∧ L < 9223372036854775808) ∧
    (-9223372036854775808 ≤ N ∧ N < 9223372036854775808) := by
  unfold read_delta_command at hread
  rw [Run.bind_eq_ok] at hread
  obtain ⟨⟨v1, t1⟩, h1, hread⟩ := hread
  rw [Run.bind_eq_ok] at hread
  obtain ⟨s3, h2, hread⟩ := hread
  rw [Run.bind_eq_ok] at hread
  obtain ⟨⟨v2, t2⟩, h3, hread⟩ := hread
  rw [Run.bind_eq_ok] at hread
  obtain ⟨s6, h4, hread⟩ := hread
  simp only [Run.ok.injEq, Prod.mk.injEq] at hread
  obtain ⟨_, e2, e3, _⟩ := hread
  rw [← e2, ← e3]
  exact ⟨parsenum_range _ _ _ h1, parsenum_range _ _ _ h3⟩

/-- C16: a command line `d L N` is rejected with a fatal error whenever `L` is
smaller than `adprev`, the append point that the previous command left (its
`line1` after a `d`, its `line1 + 1` after an `a`), or smaller than `dafter`,
the end `line1 + nlines` of the previous deletion.  The error is "backward
deletion in delta" unless the command is corrupt in itself. -/
theorem backward_deletion_rejected (dc : diffcmd) (s s' : in_buffer_type) (L N : Int)
    (hread : read_delta_command s = .ok (100, L, N, s'))
    (hback : L < dc.adprev ∨ L < dc.dafter) :
    parse_next_delta_command dc s =
      .fatal (if N = 0 ∨ wrapLong (L + N) < L then .corruptDelta else .backwardDeletion) := by
  rw [parse_of_read dc s s' 100 L N hread (by decide)]
  by_cases hc : N = 0 ∨ wrapLong (L + N) < L
  · rw [if_pos (by tauto), if_pos hc]
  · rw [if_neg (by intro h; rcases h with h | h | h
                   · exact hc (Or.inl h)
                   · exact absurd rfl h.2
                   · exact hc (Or.inr h)),
      if_neg (by decide), if_pos hback, if_neg hc]

theorem backward_deletion_rejected_witness :
    parse_next_delta_command dcInit scriptBackwardDelete =
      .ok (0, afterFirstDelete.1, afterFirstDelete.2) ∧
    read_delta_command afterFirstDelete.2 =
      .ok (100, 3, 2, { afterFirstDelete.2 with ptr := 11, read_count := 10 }) ∧
    parse_next_delta_command afterFirstDelete.1 afterFirstDelete.2 =
      .fatal (if (2 : Int) = 0 ∨ wrapLong (3 + 2) < 3 then .corruptDelta
              else .backwardDeletion) ∧
    parse_next_delta_command afterFirstDelete.1 afterFirstDelete.2 = .fatal .backwardDeletion :=
  have h : read_delta_command afterFirstDelete.2 =
      .ok (100, 3, 2, { afterFirstDelete.2 with ptr := 11, read_count := 10 }) := by decide
  ⟨by decide, h,
   backward_deletion_rejected afterFirstDelete.1 afterFirstDelete.2 _ 3 2 h (by decide),
   by decide⟩

/-- C17 (amended): an append command `a L N` that is not corrupt in itself and
follows an accepted append `a L0 N0` is rejected as a backward insertion exactly
when `L ≤ L0`, that is when `L` is smaller than `adprev = L0 + 1`; with
`L > L0` it is accepted.  The `line1` values of successive appends must be
strictly increasing. -/
theorem backward_insertion_iff (dc0 dc1 : diffcmd) (s0 s1 s s' : in_buffer_type) (L N : Int)
    (h0 : 0 ≤ dc0.adprev)
    (hprev : parse_next_delta_command dc0 s0 = .ok (1, dc1, s1))
    (hread : read_delta_command s = .ok (97, L, N, s'))
    (hN : N ≠ 0) (hov : ¬ wrapLong (L + N) < L) :
    (parse_next_delta_command dc1 s = .fatal .backwardInsertion ↔ L ≤ dc1.line1) ∧
    (dc1.line1 < L → parse_next_delta_command dc1 s =
      .ok (1, { line1 := L, nlines := N, adprev := L + 1, dafter := dc1.dafter }, s')) := by
  rcases parse_next_delta_command_ok dc0 s0 1 dc1 s1 hprev h0 with
    ⟨hc, _⟩ | ⟨_, hl0, _, _, hap, _⟩ | ⟨hc, _⟩
  · omega
  · obtain ⟨hL, hNr⟩ := read_delta_command_range s s' 97 L N hread
    rw [parse_of_read dc1 s s' 97 L N hread (by decide)]
    rw [if_neg (by intro h; rcases h with h | h | h
                   · exact hN h
                   · exact absurd rfl h.1
                   · exact hov h), if_pos rfl]
    constructor
    · by_cases hb : L < dc1.adprev
      · rw [if_pos hb]
        constructor
        · intro _; omega
        · intro _; rfl
      · rw [if_neg hb]
        constructor
        · intro h; exact absurd h (by simp)
        · intro h; omega
    · intro hlt
      rw [if_neg (by omega)]
      have hw : wrapLong (L + 1) = L + 1 := by
        unfold wrapLong at hov ⊢
        omega
      rw [hw]
  · omega

theorem backward_insertion_iff_witness :
    parse_next_delta_command dcInit scriptTwoAppends =
      .ok (1, { line1 := 1, nlines := 1, adprev := 2, dafter := 0 },
        { scriptTwoAppends with ptr := 6, read_count := 5 }) ∧
    read_delta_command scriptIncreasingAppend =
      .ok (97, 2, 1, { scriptIncreasingAppend with ptr := 13, read_count := 12 }) ∧
    ((parse_next_delta_command { line1 := 1, nlines := 1, adprev := 2, dafter := 0 }
        scriptIncreasingAppend = .fatal .backwardInsertion ↔ (2 : Int) ≤ 1) ∧
     ((1 : Int) < 2 →
       parse_next_delta_command { line1 := 1, nlines := 1, adprev := 2, dafter := 0 }
         scriptIncreasingAppend =
       .ok (1, { line1 := 2, nlines := 1, adprev := 2 + 1, dafter := 0 },
         { scriptIncreasingAppend with ptr := 13, read_count := 12 }))) :=
  have h1 : parse_next_delta_command dcInit scriptTwoAppends =
      .ok (1, { line1 := 1, nlines := 1, adprev := 2, dafter := 0 },
        { scriptTwoAppends with ptr := 6, read_count := 5 }) := by decide
  have h2 : read_delta_command scriptIncreasingAppend =
      .ok (97, 2, 1, { scriptIncreasingAppend with ptr := 13, read_count := 12 }) := by decide
  ⟨h1, h2, backward_insertion_iff dcInit _ scriptTwoAppends _ scriptIncreasingAppend _ 2 1
    (by decide) h1 h2 (by decide) (by decide)⟩

/-- C17 (counterexample): the script `a1 1`, `X`, `a1 1`, `Y` consists of append
commands only and their `line1` values are non-decreasing, yet the second
command is rejected: `parse_next_delta_command` stops with "backward insertion
in delta", and so does `process_delta` in `EDIT` mode on the lines `A`, `B`,
`C`. -/
theorem equal_appends_rejected :
    parse_next_delta_command dcInit scriptTwoAppends =
      .ok (1, { line1 := 1, nlines := 1, adprev := 2, dafter := 0 },
        { scriptTwoAppends with ptr := 6, read_count := 5 }) ∧
    read_delta_command scriptSecondAppend =
      .ok (97, 1, 1, { scriptSecondAppend with ptr := 13, read_count := 12 }) ∧
    parse_next_delta_command { line1 := 1, nlines := 1, adprev := 2, dafter := 0 }
      scriptSecondAppend = .fatal .backwardInsertion ∧
    process_delta_EDIT bufferABC scriptTwoAppends = .fatal .backwardInsertion := by
  refine ⟨by decide, by decide, by decide, rfl⟩

/-- C18: on a command line, `parse_next_delta_command` stops with the fatal
error "Corrupt delta" if the command letter is neither `a` nor `d` or if the
parsed `nlines` is zero; the loop of the `EDIT` case stops with it, before any
call of `insertline` or `deletelines` for that command. -/
theorem corrupt_delta_rejected (dc : diffcmd) (s s' : in_buffer_type) (cmd L N : Int)
    (hread : read_delta_command s = .ok (cmd, L, N, s')) (hcmd : cmd ≠ EOF)
    (hbad : N = 0 ∨ (cmd ≠ 97 ∧ cmd ≠ 100)) :
    parse_next_delta_command dc s = .fatal .corruptDelta ∧
    ∀ (fuel : Nat) (adjust : Int) (e : EditBuffer LinePtr),
      edit_loop (fuel + 1) dc adjust e s = .fatal .corruptDelta := by
  have h : parse_next_delta_command dc s = .fatal .corruptDelta := by
    rw [parse_of_read dc s s' cmd L N hread hcmd, if_pos (by tauto)]
  refine ⟨h, ?_⟩
  intro fuel adjust e
  unfold edit_loop
  rw [h]
  rfl

theorem corrupt_delta_rejected_witness :
    read_delta_command scriptZeroAppend =
      .ok (97, 5, 0, { scriptZeroAppend with ptr := 6, read_count := 5 }) ∧
    parse_next_delta_command dcInit scriptZeroAppend = .fatal .corruptDelta ∧
    ∀ (fuel : Nat) (adjust : Int) (e : EditBuffer LinePtr),
      edit_loop (fuel + 1) dcInit adjust e scriptZeroAppend = .fatal .corruptDelta :=
  have h : read_delta_command scriptZeroAppend =
      .ok (97, 5, 0, { scriptZeroAppend with ptr := 6, read_count := 5 }) := by decide
  ⟨h, corrupt_delta_rejected dcInit scriptZeroAppend _ 97 5 0 h (by decide) (by decide)⟩

/-! ## Keyword expansion -/

theorem cstr_append (a b : List Nat) (ha : ∀ x ∈ a, x ≠ 0) : cstr (a ++ b) = a ++ cstr b := by
  unfold cstr
  rw [List.takeWhile_append_of_pos]
  intro x hx
  simpa using ha x hx

theorem cstr_of_nonzero (a : List Nat) (ha : ∀ x ∈ a, x ≠ 0) : cstr a = a := by
  have := cstr_append a [] ha
  simpa [cstr] using this

theorem escape_string_append (s : List Nat) : ∀ out : List Nat,
    escape_string s out = out ++ escape_string s [] := by
  induction s with
  | nil => intro out; simp [escape_string]
  | cons c s ih =>
    intro out
    unfold escape_string
    split_ifs
    all_goals
      first
      | (rw [ih (out_fputs _ out), ih (out_fputs _ [])]; simp [out_fputs, cstr])
      | (rw [ih (out_putc _ out), ih (out_putc _ [])]; simp [out_putc])

theorem scan_keyword_letters (R : List Nat) : ∀ (fuel : Nat) (kv : List Nat)
    (s : in_buffer_type) (pre tail : List Nat) (c : Nat),
    (∀ b ∈ R, latin1_alpha b = true ∧ b < 256) → c < 256 →
    kv.length + R.length ≤ KEYLENGTH + 1 →
    (latin1_alpha c = false ∨ kv.length + R.length = KEYLENGTH + 1) →
    R.length < fuel →
    CursorAt s pre (doubleDelimiters (R ++ [c]) ++ tail) →
    ∃ s1, scan_keyword fuel kv s = .ok (kv ++ R, (c : Int), s1) ∧
      CursorAt s1 (pre ++ doubleDelimiters (R ++ [c])) tail ∧ s1.buffer = s.buffer := by
  induction R with
  | nil =>
    intro fuel kv s pre tail c _ hc hlen hstop hfuel hcur
    obtain ⟨fuel, rfl⟩ : ∃ k, fuel = k + 1 := ⟨fuel - 1, by simp at hfuel; omega⟩
    obtain ⟨g1, g2, g3⟩ := getc_at_byte s pre tail c (by simpa using hcur)
    unfold scan_keyword
    have hmod : ((c : Int) % 256).toNat = c := by omega
    rw [g1, hmod, if_neg]
    · exact ⟨_, by simp, by simpa using g2, g3⟩
    · rintro ⟨h1, h2⟩
      rcases hstop with h | h
      · rw [h] at h2; exact absurd h2 (by simp)
      · simp at h; omega
  | cons b R ih =>
    intro fuel kv s pre tail c hR hc hlen hstop hfuel hcur
    obtain ⟨fuel, rfl⟩ : ∃ k, fuel = k + 1 := ⟨fuel - 1, by simp at hfuel; omega⟩
    have hb := hR b (List.mem_cons_self _ _)
    have hsplit : doubleDelimiters (b :: R ++ [c]) =
        doubleDelimiters [b] ++ doubleDelimiters (R ++ [c]) := by
      rw [← doubleDelimiters_append]; rfl
    rw [hsplit, List.append_assoc] at hcur
    obtain ⟨g1, g2, g3⟩ := getc_at_byte s pre _ b hcur
    unfold scan_keyword
    have hmod : ((b : Int) % 256).toNat = b := by omega
    simp only [List.length_cons] at hlen hstop hfuel
    rw [g1, hmod, if_pos ⟨by omega, hb.1⟩]
    obtain ⟨s1, e1, e2, e3⟩ := ih fuel (kv ++ [b]) (in_buffer_getc s).2 (pre ++ doubleDelimiters [b])
      tail c (fun x hx => hR x (List.mem_cons_of_mem _ hx)) hc
      (by simp only [List.length_append, List.length_singleton]; omega)
      (by
        rcases hstop with h | h
        · exact Or.inl h
        · right; simp only [List.length_append, List.length_singleton]; omega)
      (by omega) g2
    refine ⟨s1, by simpa using e1, ?_, by rw [e3, g3]⟩
    rw [hsplit, ← List.append_assoc]
    exact e2

theorem keyreplace_Id (env : Env) (g : Globals) :
    keyreplace env .Id g =
      .ok { g with Goutbuf := g.Goutbuf ++ keywordToken g.Gexpand (Keyword .Id) (idValue env g) } := by
  unfold keyreplace keyvalue keywordToken idValue
  rcases hg : g.Gexpand <;>
    simp [hg, Run.bind, out_putc, Keyword, KDELIM, VDELIM] <;>
    (try rw [escape_string_append _ (g.Goutbuf ++ _)]) <;>
    (try rw [escape_string_append _ g.Goutbuf]) <;> simp

theorem expandline_loop_id (env : Env) (fuel : Nat) (r : Int) (g : Globals)
    (pre rest : List Nat)
    (hcur : CursorAt g.Ginbuf pre ([73, 100, 36] ++ SDELIM :: rest))
    (hr : rest.headD 0 ≠ SDELIM) :
    ∃ g1, expandline_loop env (fuel + 2) 36 r 0 g = .ok (1, g1) ∧
      g1.Goutbuf = g.Goutbuf ++ keywordToken g.Gexpand [73, 100] (idValue env g) := by
  obtain ⟨s1, e1, e2, e3⟩ := scan_keyword_letters [73, 100] (KEYLENGTH + 2) [KDELIM] g.Ginbuf pre
    (SDELIM :: rest) 36 (by decide) (by decide) (by decide) (by decide) (by decide)
    (by simpa [doubleDelimiters, SDELIM] using hcur)
  have hend := getc_at_end s1 _ rest e2 hr
  unfold expandline_loop
  rw [if_neg (by decide), if_neg (by decide), if_pos (by decide), e1]
  simp only [Run.bind]
  have ht : trymatch ([KDELIM] ++ [73, 100] ++ [(((36 : Nat) : Int) % 256).toNat]).tail = .Id := by
    decide
  rw [ht, if_neg (by decide), if_neg (by decide), keyreplace_Id]
  simp only [Run.bind]
  rw [hend]
  unfold expandline_loop
  rw [if_pos rfl]
  exact ⟨_, rfl, rfl⟩

theorem takeWhile_append_of_neg (p : Nat → Bool) (l1 l2 : List Nat)
    (h : ∃ x ∈ l1, p x = false) : (l1 ++ l2).takeWhile p = l1.takeWhile p := by
  induction l1 with
  | nil => obtain ⟨x, hx, _⟩ := h; simp at hx
  | cons a l ih =>
    simp only [List.cons_append, List.takeWhile_cons]
    by_cases ha : p a = true
    · rw [ha]
      simp only [if_true]
      obtain ⟨x, hx, hpx⟩ := h
      rcases List.mem_cons.1 hx with h1 | h1
      · subst h1; rw [ha] at hpx; exact absurd hpx (by simp)
      · rw [ih ⟨x, h1, hpx⟩]
    · simp [ha]

theorem basefilename_eq (p : List Nat) : basefilename p = baseNameAsSpecified p := by
  unfold baseNameAsSpecified
  induction p with
  | nil => rfl
  | cons c q ih =>
    unfold basefilename
    simp only [List.reverse_cons]
    by_cases hq : 47 ∈ q
    · -- a separator further on
      have hneg : ∃ x ∈ q.reverse, (fun b => decide (b ≠ 47)) x = false :=
        ⟨47, by simpa using hq, by simp⟩
      rw [takeWhile_append_of_neg _ _ _ hneg, ← ih]
      by_cases hc : c = 47
      · rw [if_pos hc]
      · rw [if_neg hc, if_pos hq]
    · have hall : ∀ a ∈ q.reverse, (fun b => decide (b ≠ 47)) a = true := by
        intro a ha
        have : a ∈ q := by simpa using ha
        have hne : a ≠ 47 := fun h => hq (h ▸ this)
        simpa using hne
      rw [List.takeWhile_append_of_pos hall]
      by_cases hc : c = 47
      · rw [if_pos hc, ih]
        subst hc
        rw [List.takeWhile_eq_self_iff.2 hall]
        simp
      · rw [if_neg hc, if_neg hq]
        simp [hc]

theorem escape_string_cons (c : Nat) (s : List Nat) (hc : c < 256) :
    escape_string (c :: s) [] = escapeByteAsSpecified c ++ escape_string s [] := by
  have hmod : ((c : Int) % 256).toNat = c := by omega
  rw [escape_string]
  unfold escapeByteAsSpecified
  simp only [KDELIM]
  split_ifs <;>
    first
    | (rw [escape_string_append _ (out_fputs _ [])]; simp [out_fputs, cstr])
    | (rw [escape_string_append _ (out_putc _ [])]; simp [out_putc, hmod])

theorem escape_string_eq (s : List Nat) (h : ∀ b ∈ s, b < 256) :
    escape_string s [] = escapeAsSpecified s := by
  unfold escapeAsSpecified
  induction s with
  | nil => rfl
  | cons c s ih =>
    rw [escape_string_cons c s (h c (List.mem_cons_self _ _)),
      ih (fun b hb => h b (List.mem_cons_of_mem _ hb)), List.flatMap_cons]

theorem mem_baseNameAsSpecified (p : List Nat) (b : Nat) (h : b ∈ baseNameAsSpecified p) :
    b ∈ p := by
  unfold baseNameAsSpecified at h
  have h1 : b ∈ p.reverse.takeWhile fun b => decide (b ≠ 47) := by simpa using h
  simpa using (List.takeWhile_sublist _).subset h1

theorem idValue_eq (env : Env) (g : Globals) (h : ∀ b ∈ g.Gfilename, b < 256) :
    idValue env g = idValueAsSpecified env g := by
  unfold idValue idValueAsSpecified
  rw [basefilename_eq, escape_string_eq _ (fun b hb => h b (mem_baseNameAsSpecified _ b hb))]

/-- C11: when the input is `$Id$` followed by the end of the text, `expandline`
returns 1 and writes the keyword token of `Id`: in mode `kv` the bytes `$Id: `,
the value and ` $`, in mode `v` the value alone.  The value is the base file
name (the part of the name after its last `/`) with every tab, newline, blank,
`$` and backslash replaced by its escape, followed by the revision, the date,
the author and the state, each preceded by one blank. -/
theorem expand_id (env : Env) (fuel : Nat) (g : Globals) (pre rest : List Nat)
    (hcur : CursorAt g.Ginbuf pre ([36, 73, 100, 36] ++ SDELIM :: rest))
    (hr : rest.headD 0 ≠ SDELIM) (hfuel : 2 ≤ fuel) (hname : ∀ b ∈ g.Gfilename, b < 256) :
    ∃ g1, expandline env fuel g = .ok (1, g1) ∧
      g1.Goutbuf = g.Goutbuf ++ keywordToken g.Gexpand [73, 100] (idValueAsSpecified env g) ∧
      (g.Gexpand = .EXPANDKKV →
        g1.Goutbuf = g.Goutbuf ++ [36, 73, 100, 58, 32] ++ idValueAsSpecified env g ++
          [32, 36]) ∧
      (g.Gexpand = .EXPANDKV → g1.Goutbuf = g.Goutbuf ++ idValueAsSpecified env g) := by
  obtain ⟨fuel, rfl⟩ : ∃ k, fuel = k + 2 := ⟨fuel - 2, by omega⟩
  obtain ⟨c1, c2, c3⟩ := getc_at_byte g.Ginbuf pre ([73, 100, 36] ++ SDELIM :: rest) 36
    (by simpa [doubleDelimiters, SDELIM] using hcur)
  unfold expandline
  have hg0 : ∀ g0 : Globals, g0.Ginbuf = g.Ginbuf → g0.Goutbuf = g.Goutbuf →
      g0.Gexpand = g.Gexpand → idValue env g0 = idValue env g →
      ∃ g1, expandline_loop env (fuel + 2) (in_buffer_getc g0.Ginbuf).1 (-1) 0
          { g0 with Ginbuf := (in_buffer_getc g0.Ginbuf).2 } = .ok (1, g1) ∧
        g1.Goutbuf = g.Goutbuf ++ keywordToken g.Gexpand [73, 100] (idValue env g) := by
    intro g0 h1 h2 h3 h4
    rw [h1, c1]
    obtain ⟨g1, k1, k2⟩ := expandline_loop_id env fuel (-1)
      { g0 with Ginbuf := (in_buffer_getc g.Ginbuf).2 } (pre ++ doubleDelimiters [36]) rest
      c2 hr
    refine ⟨g1, k1, ?_⟩
    rw [k2]
    show g0.Goutbuf ++ keywordToken g0.Gexpand [73, 100] (idValue env _) = _
    rw [h2, h3, ← h4]
    rfl
  obtain ⟨g1, k1, k2⟩ := hg0 (if g.Gkvlen < KEYLENGTH + 3 then { g with Gkvlen := KEYLENGTH + 3 }
    else g) (by split_ifs <;> rfl) (by split_ifs <;> rfl) (by split_ifs <;> rfl)
    (by split_ifs <;> rfl)
  rw [idValue_eq env g hname] at k2
  refine ⟨g1, k1, k2, ?_, ?_⟩
  · intro hm
    rw [k2, hm]
    simp [keywordToken, KDELIM, VDELIM]
  · intro hm
    rw [k2, hm]
    simp [keywordToken]

theorem expand_id_witness :
    (∃ g1, expandline envExample 2 (globalsFoo .EXPANDKKV [36, 73, 100, 36, 64] []) = .ok (1, g1) ∧
      g1.Goutbuf = [36, 73, 100, 58, 32, 102, 111, 111, 46, 99, 32, 49, 46, 51, 32, 50, 48, 50,
        48, 47, 48, 49, 47, 48, 50, 32, 48, 51, 58, 48, 52, 58, 48, 53, 32, 97, 108, 105, 99,
        101, 32, 69, 120, 112, 32, 36]) ∧
    (∃ g1, expandline envExample 2 (globalsFoo .EXPANDKV [36, 73, 100, 36, 64] []) = .ok (1, g1) ∧
      g1.Goutbuf = [102, 111, 111, 46, 99, 32, 49, 46, 51, 32, 50, 48, 50,
        48, 47, 48, 49, 47, 48, 50, 32, 48, 51, 58, 48, 52, 58, 48, 53, 32, 97, 108, 105, 99,
        101, 32, 69, 120, 112]) ∧
    (∃ g1, expandline envExample 2 globalsInDir = .ok (1, g1) ∧
      g1.Goutbuf = [36, 73, 100, 58, 32, 97, 92, 48, 52, 48, 92, 48, 52, 52, 98, 46, 99,
        32, 49, 46, 51, 32, 50, 48, 50,
        48, 47, 48, 49, 47, 48, 50, 32, 48, 51, 58, 48, 52, 58, 48, 53, 32, 97, 108, 105, 99,
        101, 32, 69, 120, 112, 32, 36]) :=
  have h1 := expand_id envExample 2 (globalsFoo .EXPANDKKV [36, 73, 100, 36, 64] []) [] []
    ⟨rfl, rfl⟩ (by decide) (by decide) (by decide)
  have h2 := expand_id envExample 2 (globalsFoo .EXPANDKV [36, 73, 100, 36, 64] []) [] []
    ⟨rfl, rfl⟩ (by decide) (by decide) (by decide)
  have h3 := expand_id envExample 2 globalsInDir [] [] ⟨rfl, rfl⟩ (by decide) (by decide)
    (by decide)
  ⟨h1.imp fun _ h => ⟨h.1, (h.2.2.1 rfl).trans (by decide)⟩,
   h2.imp fun _ h => ⟨h.1, (h.2.2.2 rfl).trans (by decide)⟩,
   h3.imp fun _ h => ⟨h.1, (h.2.2.1 rfl).trans (by decide)⟩⟩

/-- C14: when the stored log text begins with the sentinel "checked in with -k
by ", `keyreplace(Log)` writes the keyword token of `Log` and nothing else (no
revision header, no line of the log message) and leaves the input cursor where
it was. -/
theorem log_sentinel_suppresses (env : Env) (g : Globals) (h : ciklog <+: g.Glog) :
    ∃ g1, keyreplace env .Log g = .ok g1 ∧
      g1.Goutbuf = g.Goutbuf ++
        keywordToken g.Gexpand (Keyword .Log) (escape_string (basefilename g.Gfilename) []) ∧
      g1.Ginbuf = g.Ginbuf := by
  obtain ⟨t, ht⟩ := h
  have hc : cstr g.Glog = ciklog ++ cstr t := by
    rw [← ht]
    exact cstr_append ciklog t (by decide)
  have hs : ciklog.length ≤ (cstr g.Glog).length ∧
      (cstr g.Glog).take ciklog.length = ciklog := by
    rw [hc]
    exact ⟨by simp, by simp⟩
  unfold keyreplace keyvalue keywordToken
  rcases hg : g.Gexpand <;>
    simp [hg, Run.bind, out_putc, Keyword, KDELIM, VDELIM, hs] <;>
    (try rw [escape_string_append _ (g.Goutbuf ++ _)]) <;>
    (try rw [escape_string_append _ g.Goutbuf]) <;> simp

theorem log_sentinel_suppresses_witness :
    ciklog <+: ciklog ++ [98, 111, 98] ∧
    ∃ g1, keyreplace envExample .Log
        (globalsFoo .EXPANDKKV [32, 42, 32, 36, 76, 111, 103, 36, 10, 64]
          (ciklog ++ [98, 111, 98])) = .ok g1 ∧
      g1.Goutbuf = [] ++ keywordToken .EXPANDKKV (Keyword .Log)
        (escape_string (basefilename [102, 111, 111, 46, 99]) []) ∧
      g1.Ginbuf = { buffer := [32, 42, 32, 36, 76, 111, 103, 36, 10, 64], ptr := 0,
                    read_count := 0 } :=
  ⟨List.prefix_append _ _,
   log_sentinel_suppresses envExample
     (globalsFoo .EXPANDKKV [32, 42, 32, 36, 76, 111, 103, 36, 10, 64] (ciklog ++ [98, 111, 98]))
     (List.prefix_append _ _)⟩

/-- C12 (failing input): the last line of a text is `c$`, not ended by a
newline.  The line holds no keyword, yet `expandline` writes `c$` followed by
eight bytes 255: the loop that collects the letters after `$` reads `EOF`,
`latin1_alpha` takes it for the letter 255, and it is stored until `KEYLENGTH`
letters are reached. -/
theorem expandline_delimiter_at_end :
    ∃ g1, expandline envExample 3 (globalsFoo .EXPANDKK [99, 36, 64] []) = .ok (0, g1) ∧
      g1.Goutbuf = [99, 36, 255, 255, 255, 255, 255, 255, 255, 255] ∧
      g1.Goutbuf ≠ [99, 36] :=
  ⟨_, rfl, rfl, by decide⟩

/-- C13 (failing input): the last line of a text is `$Id: x`, not ended by a
newline and without a closing delimiter.  `expandline` writes the raw text
followed by one byte 255: the loop that reads the value stores `EOF` before it
tests for it. -/
theorem expandline_value_at_end :
    ∃ g1, expandline envExample 3 (globalsFoo .EXPANDKK [36, 73, 100, 58, 32, 120, 64] []) =
        .ok (0, g1) ∧
      g1.Goutbuf = [36, 73, 100, 58, 32, 120, 255] ∧
      g1.Goutbuf ≠ [36, 73, 100, 58, 32, 120] :=
  ⟨_, rfl, rfl, by decide⟩

/-! ## The log entry of `keyreplace` -/

theorem getc_exact (s : in_buffer_type) (pre tail : List Nat) (c : Nat)
    (h : CursorAt s pre (doubleDelimiters [c] ++ tail)) :
    in_buffer_getc s = ((c : Int),
      { s with ptr := s.ptr + (doubleDelimiters [c]).length,
               read_count := s.read_count + 1 }) := by
  obtain ⟨hb, hp⟩ := h
  by_cases hc : c = SDELIM
  · subst hc
    simp only [doubleDelimiters, if_true, List.cons_append, List.nil_append] at hb ⊢
    have h1 : peek s.buffer s.ptr = SDELIM := by
      rw [hb, hp, peek_append_zero]; rfl
    have h2 : peek s.buffer (s.ptr + 1) = SDELIM := by
      rw [hb, hp, peek_append pre _ 1]; rfl
    rw [in_buffer_getc_doubled s h1 h2]
    rfl
  · simp only [doubleDelimiters, if_neg hc, List.cons_append, List.nil_append] at hb ⊢
    have h1 : peek s.buffer s.ptr = c := by
      rw [hb, hp, peek_append_zero]; rfl
    rw [in_buffer_getc_plain s (by rw [h1]; exact hc), h1]
    rfl

theorem ungetc_exact (s : in_buffer_type) (pre tail : List Nat) (c : Nat)
    (h : CursorAt s (pre ++ doubleDelimiters [c]) tail) (hrc : s.read_count ≠ 0) :
    in_buffer_ungetc s = ((c : Int),
      { s with ptr := pre.length, read_count := s.read_count - 1 }) := by
  obtain ⟨hb, hp⟩ := h
  unfold in_buffer_ungetc
  rw [if_neg hrc]
  dsimp only
  by_cases hc : c = SDELIM
  · subst hc
    simp only [doubleDelimiters, if_true, List.length_append, List.length_cons,
      List.length_nil] at hb hp
    have e1 : s.ptr - 1 = pre.length + 1 := by omega
    have e2 : s.ptr - 1 - 1 = pre.length + 0 := by omega
    have h1 : peek s.buffer (s.ptr - 1) = SDELIM := by
      rw [e1, hb, List.append_assoc, peek_append pre _ 1]; rfl
    have h2 : peek s.buffer (s.ptr - 1 - 1) = SDELIM := by
      rw [e2, hb, List.append_assoc, peek_append pre _ 0]; rfl
    rw [if_pos h1, h2, e2]
    rfl
  · simp only [doubleDelimiters, if_neg hc, List.length_append, List.length_cons,
      List.length_nil] at hb hp
    have e1 : s.ptr - 1 = pre.length + 0 := by omega
    have h1 : peek s.buffer (s.ptr - 1) = c := by
      rw [e1, hb, List.append_assoc, peek_append pre _ 0]; rfl
    rw [if_neg (by rw [h1]; exact hc), h1, e1]
    rfl

theorem back_to_line_start_spec (B : List Nat) : ∀ (fuel : Nat) (s : in_buffer_type)
    (pre tail : List Nat), (∀ b ∈ B, b ≠ 10) →
    CursorAt s (pre ++ doubleDelimiters B) tail → (B.length : Int) ≤ s.read_count →
    (s.read_count = B.length ∨ ∃ p, pre = p ++ [10]) → B.length < fuel →
    back_to_line_start fuel s =
      .ok { s with ptr := pre.length, read_count := s.read_count - B.length } := by
  induction B using List.reverseRecOn with
  | nil =>
    intro fuel s pre tail _ hcur hrc hstart hfuel
    obtain ⟨fuel, rfl⟩ : ∃ k, fuel = k + 1 := ⟨fuel - 1, by simp at hfuel; omega⟩
    simp only [doubleDelimiters, List.append_nil, List.length_nil, Nat.cast_zero] at hcur hrc hstart
    unfold back_to_line_start
    by_cases h0 : s.read_count = 0
    · have hu : in_buffer_ungetc s = (EOF, s) := by
        unfold in_buffer_ungetc; rw [if_pos h0]
      rw [hu, if_pos rfl]
      obtain ⟨_, hp⟩ := hcur
      cases s
      simp_all
    · obtain ⟨p, hp⟩ := hstart.resolve_left h0
      subst hp
      have hcur' : CursorAt s (p ++ doubleDelimiters [10]) tail := by
        simpa [doubleDelimiters, SDELIM] using hcur
      have hu := ungetc_exact s p tail 10 hcur' h0
      rw [hu]
      dsimp only
      rw [if_neg (show ¬ (((10 : Nat) : Int) = EOF) by decide),
        if_pos (show (((10 : Nat) : Int) = 10) by decide)]
      have hg := getc_exact { s with ptr := p.length, read_count := s.read_count - 1 } p tail 10
        ⟨by simpa [doubleDelimiters, SDELIM] using hcur.1, rfl⟩
      rw [hg]
      obtain ⟨_, hp⟩ := hcur
      cases s
      simp_all [doubleDelimiters, SDELIM]
  | append_singleton B b ih =>
    intro fuel s pre tail hB hcur hrc hstart hfuel
    obtain ⟨fuel, rfl⟩ : ∃ k, fuel = k + 1 := ⟨fuel - 1, by simp at hfuel; omega⟩
    simp only [List.length_append, List.length_singleton, Nat.cast_add, Nat.cast_one] at hrc hstart hfuel
    have hb : b ≠ 10 := hB b (by simp)
    rw [doubleDelimiters_append, ← List.append_assoc] at hcur
    have hu := ungetc_exact s (pre ++ doubleDelimiters B) tail b hcur (by omega)
    unfold back_to_line_start
    rw [hu]
    have hne : ¬ ((b : Int) = EOF) := by unfold EOF; omega
    have hne2 : ¬ ((b : Int) = 10) := by omega
    dsimp only
    rw [if_neg hne, if_neg hne2]
    rw [ih fuel _ pre (doubleDelimiters [b] ++ tail) (fun x hx => hB x (by simp [hx]))
      ⟨by simpa using hcur.1, rfl⟩ (by dsimp only; omega)
      (by
        rcases hstart with h | h
        · left; dsimp only; omega
        · exact Or.inr h)
      (by omega)]
    simp only [List.length_append, List.length_singleton, Nat.cast_add, Nat.cast_one]
    congr 2
    omega
theorem read_leader_spec (A : List Nat) : ∀ (fuel : Nat) (s : in_buffer_type)
    (pre tail acc : List Nat), (∀ b ∈ A, b ≠ 36 ∧ b < 256) →
    CursorAt s pre (doubleDelimiters (A ++ [36]) ++ tail) → A.length < fuel →
    read_leader fuel s acc =
      .ok (acc ++ A, { s with ptr := s.ptr + (doubleDelimiters (A ++ [36])).length,
                              read_count := s.read_count + (A.length + 1 : Nat) }) := by
  induction A with
  | nil =>
    intro fuel s pre tail acc _ hcur hfuel
    obtain ⟨fuel, rfl⟩ : ∃ k, fuel = k + 1 := ⟨fuel - 1, by simp at hfuel; omega⟩
    have hg := getc_exact s pre tail 36 (by simpa using hcur)
    unfold read_leader
    rw [hg]
    dsimp only
    rw [if_pos (show (((36 : Nat) : Int) = KDELIM) by decide)]
    simp
  | cons b A ih =>
    intro fuel s pre tail acc hA hcur hfuel
    obtain ⟨fuel, rfl⟩ : ∃ k, fuel = k + 1 := ⟨fuel - 1, by simp at hfuel; omega⟩
    have hb := hA b (List.mem_cons_self _ _)
    have hsplit : doubleDelimiters (b :: A ++ [36]) =
        doubleDelimiters [b] ++ doubleDelimiters (A ++ [36]) := by
      rw [← doubleDelimiters_append]; rfl
    rw [hsplit, List.append_assoc] at hcur
    have hg := getc_exact s pre _ b hcur
    obtain ⟨_, g2, _⟩ := getc_at_byte s pre _ b hcur
    rw [hg] at g2
    unfold read_leader
    rw [hg]
    dsimp only
    have hne : ¬ ((b : Int) = KDELIM) := by unfold KDELIM; omega
    have hne2 : ¬ ((b : Int) = EOF) := by unfold EOF; omega
    have hmod : ((b : Int) % 256).toNat = b := by omega
    rw [if_neg hne, if_neg hne2, hmod]
    simp only [List.length_cons] at hfuel
    rw [ih fuel _ (pre ++ doubleDelimiters [b]) tail (acc ++ [b])
      (fun x hx => hA x (List.mem_cons_of_mem _ hx)) g2 (by omega)]
    rw [hsplit]
    simp only [List.append_assoc, List.singleton_append, List.length_append, List.length_cons,
      Nat.cast_add, Nat.cast_one]
    congr 3
    · omega
    · omega

theorem skip_to_kdelim_spec (M : List Nat) : ∀ (fuel : Nat) (s : in_buffer_type)
    (pre tail : List Nat), (∀ b ∈ M, b ≠ 36) →
    CursorAt s pre (doubleDelimiters (M ++ [36]) ++ tail) → M.length < fuel →
    skip_to_kdelim fuel s =
      .ok { s with ptr := s.ptr + (doubleDelimiters (M ++ [36])).length,
                   read_count := s.read_count + (M.length + 1 : Nat) } := by
  induction M with
  | nil =>
    intro fuel s pre tail _ hcur hfuel
    obtain ⟨fuel, rfl⟩ : ∃ k, fuel = k + 1 := ⟨fuel - 1, by simp at hfuel; omega⟩
    have hg := getc_exact s pre tail 36 (by simpa using hcur)
    unfold skip_to_kdelim
    rw [hg]
    dsimp only
    rw [if_pos (show (((36 : Nat) : Int) = KDELIM) by decide)]
    simp
  | cons b M ih =>
    intro fuel s pre tail hM hcur hfuel
    obtain ⟨fuel, rfl⟩ : ∃ k, fuel = k + 1 := ⟨fuel - 1, by simp at hfuel; omega⟩
    have hb := hM b (List.mem_cons_self _ _)
    have hsplit : doubleDelimiters (b :: M ++ [36]) =
        doubleDelimiters [b] ++ doubleDelimiters (M ++ [36]) := by
      rw [← doubleDelimiters_append]; rfl
    rw [hsplit, List.append_assoc] at hcur
    have hg := getc_exact s pre _ b hcur
    obtain ⟨_, g2, _⟩ := getc_at_byte s pre _ b hcur
    rw [hg] at g2
    unfold skip_to_kdelim
    rw [hg]
    dsimp only
    have hne : ¬ ((b : Int) = KDELIM) := by unfold KDELIM; omega
    have hne2 : ¬ ((b : Int) = EOF) := by unfold EOF; omega
    rw [if_neg hne, if_neg hne2]
    simp only [List.length_cons] at hfuel
    rw [ih fuel _ (pre ++ doubleDelimiters [b]) tail
      (fun x hx => hM x (List.mem_cons_of_mem _ hx)) g2 (by omega)]
    rw [hsplit]
    simp only [List.length_append, List.length_cons, Nat.cast_add, Nat.cast_one]
    congr 2
    · omega
    · omega

theorem log_line_spec (sp : List Nat) : ∀ (c : Nat) (out : List Nat), c < 256 →
    (∀ b ∈ sp, b < 256) →
    log_line (c : Int) sp out =
      (out ++ c :: sp.takeWhile (fun b => b ≠ 10), (sp.dropWhile fun b => b ≠ 10).drop 1) := by
  induction sp with
  | nil =>
    intro c out hc _
    unfold log_line
    have hmod : ((c : Int) % 256).toNat = c := by omega
    simp [out_putc, hmod]
  | cons d sp ih =>
    intro c out hc hsp
    unfold log_line
    have hmod : ((c : Int) % 256).toNat = c := by omega
    by_cases hd : d = 10
    · subst hd
      simp [out_putc, hmod]
    · have hd' : ((d : Nat) : Int) ≠ 10 := by omega
      simp only [hd', ne_eq, not_false_eq_true, if_true]
      rw [ih d _ (hsp d (List.mem_cons_self _ _))
        (fun x hx => hsp x (List.mem_cons_of_mem _ hx))]
      simp [out_putc, hmod, hd]
theorem length_drop_dropWhile (c : Nat) (sp : List Nat) :
    (((c :: sp).dropWhile fun b => b ≠ 10).drop 1).length ≤ sp.length := by
  have := (List.dropWhile_sublist (fun b => decide (b ≠ 10)) (l := c :: sp)).length_le
  simp only [List.length_drop, List.length_cons] at this ⊢
  omega

theorem messageLines_fuel (n : Nat) : ∀ (m : Nat) (sp : List Nat), sp.length ≤ n →
    sp.length ≤ m → messageLines n sp = messageLines m sp := by
  induction n with
  | zero =>
    intro m sp hn _
    have : sp = [] := List.length_eq_zero.1 (by omega)
    subst this
    cases m <;> rfl
  | succ n ih =>
    intro m sp hn hm
    cases sp with
    | nil => cases m <;> rfl
    | cons c sp =>
      simp only [List.length_cons] at hn hm
      obtain ⟨m, rfl⟩ : ∃ k, m = k + 1 := ⟨m - 1, by omega⟩
      have hlen := length_drop_dropWhile c sp
      rw [messageLines, messageLines, ih m _ (by omega) (by omega)]

theorem log_lines_spec (trimmed tail : List Nat) (fuel : Nat) : ∀ (sp out : List Nat),
    (∀ b ∈ sp, b < 256) → sp.length < fuel →
    log_lines fuel trimmed tail sp out =
      out ++ (messageLines sp.length sp).flatMap
        (fun line => if line = [] then 10 :: trimmed else 10 :: (trimmed ++ tail) ++ line) ++
      10 :: trimmed := by
  induction fuel with
  | zero => intro sp out _ h; omega
  | succ fuel ih =>
    intro sp out hsp hfuel
    unfold log_lines
    cases sp with
    | nil => simp [messageLines, out_awrite, out_putc]
    | cons c sp =>
      simp only [List.length_cons] at hfuel
      have hlen := length_drop_dropWhile c sp
      have hmem : ∀ b ∈ ((c :: sp).dropWhile fun b => b ≠ 10).drop 1, b < 256 := by
        intro b hb
        exact hsp b ((List.dropWhile_sublist _).subset (List.mem_of_mem_drop hb))
      have hml : messageLines (c :: sp).length (c :: sp) =
          (c :: sp).takeWhile (fun b => b ≠ 10) ::
            messageLines (((c :: sp).dropWhile fun b => b ≠ 10).drop 1).length
              (((c :: sp).dropWhile fun b => b ≠ 10).drop 1) := by
        simp only [List.length_cons]
        rw [messageLines, messageLines_fuel _ _ _ hlen (le_refl _)]
      rw [hml]
      dsimp only
      by_cases hc : c = 10
      · subst hc
        simp only [ne_eq, not_true_eq_false, if_false]
        rw [ih sp _ (fun x hx => hsp x (List.mem_cons_of_mem _ hx)) (by omega)]
        simp [out_awrite, out_putc]
      · simp only [ne_eq, hc, not_false_eq_true, if_true]
        rw [log_line_spec sp c _ (hsp c (List.mem_cons_self _ _))
          (fun x hx => hsp x (List.mem_cons_of_mem _ hx))]
        dsimp only
        have hd : ((c :: sp).dropWhile fun b => b ≠ 10).drop 1 =
            (sp.dropWhile fun b => b ≠ 10).drop 1 := by
          simp [List.dropWhile_cons, hc]
        have ht : (c :: sp).takeWhile (fun b => b ≠ 10) = c :: sp.takeWhile fun b => b ≠ 10 := by
          simp [List.takeWhile_cons, hc]
        rw [hd] at hlen hmem
        rw [ih _ _ hmem (by omega), hd, ht]
        simp [out_awrite, out_putc]

theorem trim_leader_append (L : List Nat) :
    trim_leader L ++ L.drop (trim_leader L).length = L := by
  have hp : trim_leader L <+: L := List.rdropWhile_prefix _ L
  obtain ⟨t, ht⟩ := hp
  have hd := congrArg (List.drop (trim_leader L).length) ht
  rw [List.drop_left] at hd
  rw [← hd, ht]
theorem sentinel_iff (l : List Nat) :
    (ciklog.length ≤ (cstr l).length ∧ (cstr l).take ciklog.length = ciklog) ↔ ciklog <+: l := by
  constructor
  · rintro ⟨_, h2⟩
    have h3 : ciklog <+: cstr l := by
      rw [← h2]; exact List.take_prefix _ _
    exact h3.trans (List.takeWhile_prefix _)
  · rintro ⟨t, ht⟩
    have hc : cstr l = ciklog ++ cstr t := by
      rw [← ht]
      exact cstr_append ciklog t (by decide)
    rw [hc]
    exact ⟨by simp, by simp⟩

theorem keyreplace_Log_eq (env : Env) (g : Globals) :
    keyreplace env .Log g =
      if ciklog <+: g.Glog then .ok { g with Goutbuf := g.Goutbuf ++ logToken g }
      else keyreplace_log env { g with Goutbuf := g.Goutbuf ++ logToken g } := by
  have hs := sentinel_iff g.Glog
  unfold keyreplace keyvalue logToken keywordToken
  rcases hg : g.Gexpand <;>
    simp only [hg, Run.bind, out_putc, Keyword, KDELIM, VDELIM, hs, ne_eq, not_true_eq_false,
      not_false_eq_true, if_true, if_false, reduceCtorEq] <;>
    simp [escape_string_append _ (g.Goutbuf ++ _), escape_string_append _ g.Goutbuf]
theorem keyreplace_log_spec (env : Env) (g : Globals) (pre A M tail : List Nat)
    (hA : ∀ b ∈ A, b ≠ 36 ∧ b ≠ 10 ∧ b < 256) (hM : ∀ b ∈ M, b ≠ 36 ∧ b ≠ 10)
    (hcur : CursorAt g.Ginbuf (pre ++ doubleDelimiters ((A ++ [36]) ++ (M ++ [36]))) tail)
    (hrc : (A.length + M.length + 2 : Nat) ≤ g.Ginbuf.read_count)
    (hstart : g.Ginbuf.read_count = (A.length + M.length + 2 : Nat) ∨ ∃ p, pre = p ++ [10])
    (hlog : ∀ b ∈ g.Glog, b < 256) :
    ∃ g1, keyreplace_log env g = .ok g1 ∧ g1.Ginbuf = g.Ginbuf ∧
      g1.Goutbuf = g.Goutbuf ++ logEntry (convert_leader A) g.Gversion_number
        (env.date_string g.Gversion.date) (cstr g.Gversion.author) (cstr g.Glog) := by
  have hBlen : ((A ++ [36]) ++ (M ++ [36])).length = A.length + M.length + 2 := by
    simp only [List.length_append, List.length_singleton]; omega
  have hB10 : ∀ b ∈ (A ++ [36]) ++ (M ++ [36]), b ≠ 10 := by
    intro b hb
    simp only [List.mem_append, List.mem_singleton] at hb
    rcases hb with (h | h) | (h | h)
    · exact (hA b h).2.1
    · omega
    · exact (hM b h).2
    · omega
  have hback := back_to_line_start_spec _ (g.Ginbuf.read_count.toNat + 1) g.Ginbuf pre tail hB10
    hcur (by rw [hBlen]; exact hrc)
    (by rw [hBlen]; exact hstart) (by rw [hBlen]; omega)
  have hbuf := hcur.1
  rw [doubleDelimiters_append] at hbuf
  have hl1 := length_le_doubleDelimiters (A ++ [36])
  have hl2 := length_le_doubleDelimiters (M ++ [36])
  simp only [List.length_append, List.length_singleton] at hl1 hl2
  have hblen : g.Ginbuf.buffer.length =
      pre.length + (doubleDelimiters (A ++ [36])).length +
        (doubleDelimiters (M ++ [36])).length + tail.length := by
    rw [hbuf]; simp only [List.length_append]; omega
  have hlead := read_leader_spec A
    (readFuel { g.Ginbuf with ptr := pre.length,
                              read_count := g.Ginbuf.read_count -
                                (((A ++ [36]) ++ (M ++ [36])).length : Nat) })
    { g.Ginbuf with ptr := pre.length,
                    read_count := g.Ginbuf.read_count -
                      (((A ++ [36]) ++ (M ++ [36])).length : Nat) }
    pre (doubleDelimiters (M ++ [36]) ++ tail) []
    (fun b hb => ⟨(hA b hb).1, (hA b hb).2.2⟩)
    ⟨by simpa [List.append_assoc] using hbuf, rfl⟩
    (by unfold readFuel; dsimp only; omega)
  have hskip := skip_to_kdelim_spec M
    (readFuel { g.Ginbuf with ptr := pre.length + (doubleDelimiters (A ++ [36])).length,
                              read_count := g.Ginbuf.read_count -
                                (((A ++ [36]) ++ (M ++ [36])).length : Nat) +
                                (A.length + 1 : Nat) })
    { g.Ginbuf with ptr := pre.length + (doubleDelimiters (A ++ [36])).length,
                    read_count := g.Ginbuf.read_count -
                      (((A ++ [36]) ++ (M ++ [36])).length : Nat) + (A.length + 1 : Nat) }
    (pre ++ doubleDelimiters (A ++ [36])) tail (fun b hb => (hM b hb).1)
    ⟨by simpa [List.append_assoc] using hbuf, by simp⟩
    (by unfold readFuel; dsimp only; omega)
  have hfinal : ({ g.Ginbuf with
      ptr := pre.length + (doubleDelimiters (A ++ [36])).length +
        (doubleDelimiters (M ++ [36])).length,
      read_count := g.Ginbuf.read_count - (((A ++ [36]) ++ (M ++ [36])).length : Nat) +
        (A.length + 1 : Nat) + (M.length + 1 : Nat) } : in_buffer_type) = g.Ginbuf := by
    have hp := hcur.2
    rw [doubleDelimiters_append] at hp
    simp only [List.length_append] at hp
    have hr : g.Ginbuf.read_count - (((A ++ [36]) ++ (M ++ [36])).length : Nat) +
        (A.length + 1 : Nat) + (M.length + 1 : Nat) = g.Ginbuf.read_count := by
      rw [hBlen]; push_cast; omega
    rw [hr]
    cases hgi : g.Ginbuf with
    | mk b p r =>
      rw [hgi] at hp
      simp only at hp ⊢
      simp only [in_buffer_type.mk.injEq, true_and, and_true]
      omega
  unfold keyreplace_log
  rw [hback]
  simp only [Run.bind]
  rw [hlead]
  simp only [Run.bind, List.nil_append]
  rw [hskip]
  simp only [Run.bind]
  rw [hfinal]
  refine ⟨_, rfl, rfl, ?_⟩
  show log_lines _ _ _ _ _ = _
  have hcl : (cstr g.Glog).length < g.Glog.length + 1 := by
    have := (List.takeWhile_sublist (fun b => decide (b ≠ 0)) (l := g.Glog)).length_le
    unfold cstr
    omega
  rw [log_lines_spec _ _ _ (cstr g.Glog) _
    (fun b hb => hlog b ((List.takeWhile_sublist _).subset hb)) hcl]
  rw [trim_leader_append]
  unfold logEntry logHeader out_awrite out_putc
  simp
/-- C15 (amended): for a `$Log$` occurrence whose stored log text does not begin
with the sentinel, on a line whose text `A` before the keyword delimiter holds
no `$`, with the leader `L` obtained from `A` by the conversion of a comment
opener, `keyreplace` leaves the input cursor where it was and writes after the
keyword token: a newline, `L`, the header `Revision <rev>  <date>  <author>`
(no state), then every line of the log message on an output line of its own,
after `L` when the line is not empty and after `L` without its trailing blanks
and tabs when it is empty, and at the end a newline and `L` without its
trailing blanks and tabs. -/
theorem log_entry_after_token (env : Env) (g : Globals) (pre A M tail : List Nat)
    (hA : ∀ b ∈ A, b ≠ 36 ∧ b ≠ 10 ∧ b < 256) (hM : ∀ b ∈ M, b ≠ 36 ∧ b ≠ 10)
    (hcur : CursorAt g.Ginbuf (pre ++ doubleDelimiters ((A ++ [36]) ++ (M ++ [36]))) tail)
    (hrc : (A.length + M.length + 2 : Nat) ≤ g.Ginbuf.read_count)
    (hstart : g.Ginbuf.read_count = (A.length + M.length + 2 : Nat) ∨ ∃ p, pre = p ++ [10])
    (hlog : ∀ b ∈ g.Glog, b < 256) (hsent : ¬ ciklog <+: g.Glog) :
    ∃ g1, keyreplace env .Log g = .ok g1 ∧ g1.Ginbuf = g.Ginbuf ∧
      g1.Goutbuf = g.Goutbuf ++ logToken g ++
        logEntry (convert_leader A) g.Gversion_number (env.date_string g.Gversion.date)
          (cstr g.Gversion.author) (cstr g.Glog) := by
  rw [keyreplace_Log_eq, if_neg hsent]
  exact keyreplace_log_spec env { g with Goutbuf := g.Goutbuf ++ logToken g } pre A M tail hA hM
    hcur hrc hstart hlog

theorem log_entry_after_token_witness :
    ∃ g1, keyreplace envExample .Log globalsAtLog = .ok g1 ∧
      g1.Ginbuf = globalsAtLog.Ginbuf ∧
      g1.Goutbuf = [36, 76, 111, 103, 58, 32, 102, 111, 111, 46, 99, 32, 36,
        10, 32, 42, 32, 82, 101, 118, 105, 115, 105, 111, 110, 32, 49, 46, 51, 32, 32,
        50, 48, 50, 48, 47, 48, 49, 47, 48, 50, 32, 48, 51, 58, 48, 52, 58, 48, 53, 32, 32,
        97, 108, 105, 99, 101,
        10, 32, 42, 32, 102, 105, 120,
        10, 32, 42] :=
  (log_entry_after_token envExample globalsAtLog [] [32, 42, 32] [76, 111, 103] [10, 64]
    (by decide) (by decide) ⟨rfl, rfl⟩ (by decide) (Or.inl (by decide)) (by decide)
    (by decide)).imp fun _ h => ⟨h.1, h.2.1, h.2.2.trans (by decide)⟩

/-- C15 (counterexample): on the line ` * $Log$` with the log message `fix`,
`keyreplace` writes after the keyword token a newline, ` * Revision 1.3
2020/01/02 03:04:05  alice`, a newline, ` * fix`, a newline and ` *`.  The
message line follows the whole leader ` * `, not the leader without its
trailing blank, and a further line with the trimmed leader ends the entry. -/
theorem log_entry_not_as_specified :
    ∃ g1, keyreplace envExample .Log globalsAtLog = .ok g1 ∧
      g1.Goutbuf = globalsAtLog.Goutbuf ++ logToken globalsAtLog ++
        [10, 32, 42, 32, 82, 101, 118, 105, 115, 105, 111, 110, 32, 49, 46, 51, 32, 32,
         50, 48, 50, 48, 47, 48, 49, 47, 48, 50, 32, 48, 51, 58, 48, 52, 58, 48, 53, 32, 32,
         97, 108, 105, 99, 101,
         10, 32, 42, 32, 102, 105, 120,
         10, 32, 42] ∧
      logEntryAsSpecified (convert_leader [32, 42, 32]) [49, 46, 51]
          (envExample.date_string 0) [97, 108, 105, 99, 101] [102, 105, 120] =
        [10, 32, 42, 32, 82, 101, 118, 105, 115, 105, 111, 110, 32, 49, 46, 51, 32, 32,
         50, 48, 50, 48, 47, 48, 49, 47, 48, 50, 32, 48, 51, 58, 48, 52, 58, 48, 53, 32, 32,
         97, 108, 105, 99, 101,
         10, 32, 42, 102, 105, 120] ∧
      g1.Goutbuf ≠ globalsAtLog.Goutbuf ++ logToken globalsAtLog ++
        logEntryAsSpecified (convert_leader [32, 42, 32]) [49, 46, 51]
          (envExample.date_string 0) [97, 108, 105, 99, 101] [102, 105, 120] :=
  ⟨_, rfl, by decide, by decide, by decide⟩

/-! ## Lines without a keyword -/

theorem trymatch_keyword_sound (p : List Nat) : ∀ (s : List Nat), (∀ b ∈ p, b ≠ 0) →
    trymatch_keyword p s = some true → p ++ [36] <+: s ∨ p ++ [58] <+: s := by
  induction p with
  | nil => intro s _ h; simp [trymatch_keyword] at h
  | cons p0 ps ih =>
    intro s hp h
    unfold trymatch_keyword at h
    have hp0 := hp p0 (List.mem_cons_self _ _)
    cases s with
    | nil => simp [hp0.symm] at h
    | cons s0 s' =>
      simp only [List.headD_cons, List.tail_cons] at h
      by_cases h0 : s0 = p0
      · subst h0
        rw [if_pos rfl] at h
        by_cases hps : ps = []
        · subst hps
          rw [if_pos rfl] at h
          cases s' with
          | nil => simp [KDELIM, VDELIM] at h
          | cons s1 s'' =>
            simp only [List.headD_cons, Option.some.injEq, Bool.or_eq_true,
              decide_eq_true_eq] at h
            rcases h with h | h
            · left; rw [h]; exact ⟨s'', rfl⟩
            · right; rw [h]; exact ⟨s'', rfl⟩
        · rw [if_neg hps] at h
          rcases ih s' (fun b hb => hp b (List.mem_cons_of_mem _ hb)) h with h1 | h1
          · left; simpa using h1
          · right; simpa using h1
      · rw [if_neg h0] at h
        exact absurd h (by simp)

theorem trymatch_from_sound (s : List Nat) (js : List markers) :
    ∀ k, trymatch_from s js = k → k ≠ .Nomatch →
      Keyword k ++ [36] <+: s ∨ Keyword k ++ [58] <+: s := by
  induction js with
  | nil => intro k h hk; simp [trymatch_from] at h; exact absurd h.symm hk
  | cons j js ih =>
    intro k h hk
    unfold trymatch_from at h
    cases hm : trymatch_keyword (Keyword j) s with
    | none => rw [hm] at h; exact ih k h hk
    | some b =>
      rw [hm] at h
      cases b with
      | false => exact absurd h.symm hk
      | true =>
        simp only at h
        subst h
        exact trymatch_keyword_sound _ s (by cases j <;> decide) hm

theorem trymatch_sound (s : List Nat) (k : markers) (h : trymatch s = k) (hk : k ≠ .Nomatch) :
    Keyword k ++ [36] <+: s ∨ Keyword k ++ [58] <+: s :=
  trymatch_from_sound s _ k h hk
theorem letters_split (n : Nat) : ∀ (S : List Nat), (∀ b ∈ S, b ≠ 10) →
    ∃ R c1 S2, S ++ [10] = R ++ c1 :: (S2 ++ [10]).tail ∧ c1 :: (S2 ++ [10]).tail = S2 ++ [10] ∧
      (∀ b ∈ S2, b ∈ S) ∧ S2.length + R.length = S.length ∧
      (∀ b ∈ R, latin1_alpha b = true ∧ b ∈ S) ∧ R.length ≤ n ∧
      (latin1_alpha c1 = false ∨ R.length = n) := by
  induction n with
  | zero =>
    intro S _
    refine ⟨[], (S ++ [10]).head (by simp), S, ?_, ?_, fun b hb => hb, by simp, by simp,
      le_refl _, Or.inr rfl⟩
    · cases S <;> simp
    · cases S <;> simp
  | succ n ih =>
    intro S hS
    cases S with
    | nil =>
      exact ⟨[], 10, [], by simp, by simp, by simp, by simp, by simp, by simp,
        Or.inl (by decide)⟩
    | cons t S0 =>
      by_cases ht : latin1_alpha t = true
      · obtain ⟨R, c1, S2, h1, h2, h3, h4, h5, h6, h7⟩ :=
          ih S0 (fun b hb => hS b (List.mem_cons_of_mem _ hb))
        refine ⟨t :: R, c1, S2, ?_, h2, fun b hb => List.mem_cons_of_mem _ (h3 b hb), ?_, ?_, ?_, ?_⟩
        · simp only [List.cons_append]; rw [h1]
        · simp only [List.length_cons]; omega
        · intro b hb
          rcases List.mem_cons.1 hb with h | h
          · subst h; exact ⟨ht, List.mem_cons_self _ _⟩
          · exact ⟨(h5 b h).1, List.mem_cons_of_mem _ (h5 b h).2⟩
        · simp only [List.length_cons]; omega
        · rcases h7 with h | h
          · exact Or.inl h
          · right; simp only [List.length_cons]; omega
      · refine ⟨[], t, t :: S0, by simp, by simp, fun b hb => hb, by simp, by simp, by simp,
          Or.inl (by simpa using ht)⟩

theorem noKeywordIn_suffix (X W : List Nat) (h : NoKeywordIn (X ++ W)) : NoKeywordIn W := by
  intro U V hW
  exact h (X ++ U) V (by rw [hW, List.append_assoc])

theorem latin1_alpha_ne_zero (b : Nat) (h : latin1_alpha b = true) : b ≠ 0 := by
  intro h0
  subst h0
  exact absurd h (by decide)

theorem expandline_loop_verbatim (env : Env) (n : Nat) : ∀ (fuel : Nat) (S : List Nat) (c : Nat)
    (T : List Nat) (r : Int) (g : Globals) (pre tail : List Nat),
    S.length ≤ n → n < fuel → c :: T = S ++ [10] → (∀ b ∈ S, b ≠ 10 ∧ b < 256) →
    NoKeywordIn (S ++ [10]) → CursorAt g.Ginbuf pre (doubleDelimiters T ++ tail) →
    ∃ g1, expandline_loop env fuel (c : Int) r 0 g = .ok (2, g1) ∧
      g1.Goutbuf = g.Goutbuf ++ (S ++ [10]) ∧
      CursorAt g1.Ginbuf (pre ++ doubleDelimiters T) tail := by
  induction n using Nat.strong_induction_on with
  | _ n ih =>
    intro fuel S c T r g pre tail hn hfuel hS hS10 hkw hcur
    obtain ⟨fuel, rfl⟩ : ∃ k, fuel = k + 1 := ⟨fuel - 1, by omega⟩
    have hcEOF : ¬ ((c : Int) = EOF) := by unfold EOF; omega
    cases S with
    | nil =>
      -- the newline
      simp only [List.nil_append, List.cons.injEq] at hS
      obtain ⟨rfl, rfl⟩ := hS
      unfold expandline_loop
      rw [if_neg hcEOF, if_pos (by decide)]
      exact ⟨_, rfl, by simp [out_putc], by simpa [doubleDelimiters] using hcur⟩
    | cons s0 S' =>
      simp only [List.cons_append, List.cons.injEq] at hS
      obtain ⟨rfl, rfl⟩ := hS
      have hc := hS10 c (List.mem_cons_self _ _)
      have hS' : ∀ b ∈ S', b ≠ 10 ∧ b < 256 := fun b hb => hS10 b (List.mem_cons_of_mem _ hb)
      simp only [List.length_cons] at hn
      have hc10 : ¬ ((c : Int) = 10) := by omega
      unfold expandline_loop
      rw [if_neg hcEOF, if_neg hc10]
      by_cases hk : c = 36
      · -- a delimiter that opens no keyword
        subst hk
        rw [if_pos (by decide)]
        obtain ⟨R, c1, S2, h1, h2, h3, h4, h5, h6, h7⟩ := letters_split 8 S' (fun b hb => (hS' b hb).1)
        have hc1 : c1 < 256 := by
          have : c1 ∈ S2 ++ [10] := by rw [← h2]; exact List.mem_cons_self _ _
          rcases List.mem_append.1 this with h | h
          · exact (hS' c1 (h3 c1 h)).2
          · simp at h; omega
        have hcur1 : CursorAt g.Ginbuf pre
            (doubleDelimiters (R ++ [c1]) ++ (doubleDelimiters (S2 ++ [10]).tail ++ tail)) := by
          rw [← List.append_assoc, ← doubleDelimiters_append, List.append_assoc]
          simpa [h1] using hcur
        obtain ⟨s1, e1, e2, e3⟩ := scan_keyword_letters R (KEYLENGTH + 2) [KDELIM] g.Ginbuf pre
          (doubleDelimiters (S2 ++ [10]).tail ++ tail) c1
          (fun b hb => ⟨(h5 b hb).1, (hS' b (h5 b hb).2).2⟩) hc1
          (by simp [KEYLENGTH]; omega)
          (by
            rcases h7 with h | h
            · exact Or.inl h
            · right; simp [KEYLENGTH]; omega)
          (by simp [KEYLENGTH]; omega) hcur1
        rw [e1]
        simp only [Run.bind]
        have hmod : ((c1 : Int) % 256).toNat = c1 := by omega
        have hno : trymatch ([KDELIM] ++ R ++ [((c1 : Int) % 256).toNat]).tail = .Nomatch := by
          rw [hmod]
          by_contra hne
          rcases trymatch_sound _ _ rfl hne with hp | hp
          · refine (hkw [] (S' ++ [10]) (by simp) _ hne).1 (hp.trans ?_)
            simp only [List.singleton_append, List.cons_append, List.tail_cons]
            rw [h1]
            exact ⟨(S2 ++ [10]).tail, by simp⟩
          · refine (hkw [] (S' ++ [10]) (by simp) _ hne).2 (hp.trans ?_)
            simp only [List.singleton_append, List.cons_append, List.tail_cons]
            rw [h1]
            exact ⟨(S2 ++ [10]).tail, by simp⟩
        rw [hno, if_pos rfl]
        have hkw2 : NoKeywordIn (S2 ++ [10]) := by
          apply noKeywordIn_suffix (36 :: R)
          rw [← h2]
          simpa [h1] using hkw
        obtain ⟨g1, k1, k2, k3⟩ := ih S2.length (by omega) fuel S2 c1 (S2 ++ [10]).tail 0
          { g with Ginbuf := s1, Goutbuf := out_fputs ([KDELIM] ++ R) g.Goutbuf }
          (pre ++ doubleDelimiters (R ++ [c1])) tail (le_refl _) (by omega) h2
          (fun b hb => hS' b (h3 b hb)) hkw2 e2
        refine ⟨g1, k1, ?_, ?_⟩
        · rw [k2]
          show out_fputs ([KDELIM] ++ R) g.Goutbuf ++ _ = _
          unfold out_fputs
          rw [cstr_of_nonzero _ (by
            intro x hx
            rcases List.mem_append.1 hx with h | h
            · simp [KDELIM] at h; omega
            · exact latin1_alpha_ne_zero x (h5 x h).1)]
          simp only [List.cons_append]
          rw [h1]
          simp [KDELIM]
          exact h2.symm
        · rw [h1]
          have : R ++ c1 :: (S2 ++ [10]).tail = (R ++ [c1]) ++ (S2 ++ [10]).tail := by simp
          rw [this, doubleDelimiters_append, ← List.append_assoc]
          exact k3
      · -- any other byte
        have hcK : ¬ ((c : Int) = KDELIM) := by unfold KDELIM; omega
        rw [if_neg hcK]
        obtain ⟨t, T0, hT⟩ : ∃ t T0, S' ++ [10] = t :: T0 := by
          cases S' with
          | nil => exact ⟨10, [], rfl⟩
          | cons a b => exact ⟨a, b ++ [10], by simp⟩
        have hcur' : CursorAt g.Ginbuf pre (doubleDelimiters [t] ++ (doubleDelimiters T0 ++ tail)) := by
          rw [← List.append_assoc, ← doubleDelimiters_append]
          simpa [hT] using hcur
        obtain ⟨g1', g2', _⟩ := getc_at_byte g.Ginbuf pre _ t hcur'
        rw [g1']
        obtain ⟨g1, k1, k2, k3⟩ := ih S'.length (by omega) fuel S' t T0 0
          { g with Goutbuf := out_putc c g.Goutbuf, Ginbuf := (in_buffer_getc g.Ginbuf).2 }
          (pre ++ doubleDelimiters [t]) tail (le_refl _) (by omega) hT.symm hS'
          (noKeywordIn_suffix [c] _ hkw) g2'
        have hmod : ((c : Int) % 256).toNat = c := by omega
        refine ⟨g1, k1, ?_, ?_⟩
        · rw [k2]
          show out_putc c g.Goutbuf ++ _ = _
          simp [out_putc, hmod]
        · rw [hT]
          have : t :: T0 = [t] ++ T0 := rfl
          rw [this, doubleDelimiters_append, ← List.append_assoc]
          exact k3

/-- A line that is ended by a newline and holds no keyword behind a `$` is
written verbatim by `expandline`, newline included, and nothing
else is written; the function returns 2. -/
theorem expandline_verbatim (env : Env) (fuel : Nat) (g : Globals) (pre L tail : List Nat)
    (hL : ∀ b ∈ L, b ≠ 10 ∧ b < 256) (hkw : NoKeywordIn (L ++ [10]))
    (hcur : CursorAt g.Ginbuf pre (doubleDelimiters (L ++ [10]) ++ tail))
    (hfuel : L.length + 1 < fuel) :
    ∃ g1, expandline env fuel g = .ok (2, g1) ∧ g1.Goutbuf = g.Goutbuf ++ L ++ [10] ∧
      CursorAt g1.Ginbuf (pre ++ doubleDelimiters (L ++ [10])) tail := by
  obtain ⟨c, T, hT⟩ : ∃ c T, L ++ [10] = c :: T := by
    cases L with
    | nil => exact ⟨10, [], rfl⟩
    | cons a b => exact ⟨a, b ++ [10], by simp⟩
  have hcur' : CursorAt g.Ginbuf pre (doubleDelimiters [c] ++ (doubleDelimiters T ++ tail)) := by
    rw [← List.append_assoc, ← doubleDelimiters_append]
    simpa [hT] using hcur
  obtain ⟨c1, c2, _⟩ := getc_at_byte g.Ginbuf pre _ c hcur'
  unfold expandline
  have hg0 : ∀ g0 : Globals, g0.Ginbuf = g.Ginbuf → g0.Goutbuf = g.Goutbuf →
      ∃ g1, expandline_loop env fuel (in_buffer_getc g0.Ginbuf).1 (-1) 0
          { g0 with Ginbuf := (in_buffer_getc g0.Ginbuf).2 } = .ok (2, g1) ∧
        g1.Goutbuf = g.Goutbuf ++ L ++ [10] ∧
        CursorAt g1.Ginbuf (pre ++ doubleDelimiters (L ++ [10])) tail := by
    intro g0 h1 h2
    rw [h1, c1]
    obtain ⟨g1, k1, k2, k3⟩ := expandline_loop_verbatim env (L.length + 1) fuel L c T (-1)
      { g0 with Ginbuf := (in_buffer_getc g.Ginbuf).2 } (pre ++ doubleDelimiters [c]) tail
      (by omega) hfuel hT.symm hL hkw c2
    refine ⟨g1, k1, ?_, ?_⟩
    · rw [k2]
      show g0.Goutbuf ++ _ = _
      rw [h2, List.append_assoc]
    · rw [hT]
      have : c :: T = [c] ++ T := rfl
      rw [this, doubleDelimiters_append, ← List.append_assoc]
      exact k3
  exact hg0 (if g.Gkvlen < KEYLENGTH + 3 then { g with Gkvlen := KEYLENGTH + 3 } else g)
    (by split_ifs <;> rfl) (by split_ifs <;> rfl)
theorem scan_value_newline (V : List Nat) : ∀ (fuel : Nat) (kv : List Nat) (kvlen : Int)
    (s : in_buffer_type) (pre tail : List Nat), (∀ b ∈ V, b ≠ 36 ∧ b ≠ 10 ∧ b < 256) →
    CursorAt s pre (doubleDelimiters (V ++ [10]) ++ tail) → V.length < fuel →
    ∃ s1 kvlen1, scan_value fuel kv kvlen s = .ok (kv ++ V, 10, s1, kvlen1) ∧
      CursorAt s1 (pre ++ doubleDelimiters (V ++ [10])) tail := by
  induction V with
  | nil =>
    intro fuel kv kvlen s pre tail _ hcur hfuel
    obtain ⟨fuel, rfl⟩ : ∃ k, fuel = k + 1 := ⟨fuel - 1, by simp at hfuel; omega⟩
    obtain ⟨g1, g2, _⟩ := getc_at_byte s pre tail 10 (by simpa using hcur)
    unfold scan_value
    dsimp only
    rw [g1, if_pos (Or.inl (by decide))]
    exact ⟨_, _, by rw [List.append_nil]; rfl, by simpa using g2⟩
  | cons b V ih =>
    intro fuel kv kvlen s pre tail hV hcur hfuel
    obtain ⟨fuel, rfl⟩ : ∃ k, fuel = k + 1 := ⟨fuel - 1, by simp at hfuel; omega⟩
    have hb := hV b (List.mem_cons_self _ _)
    have hsplit : doubleDelimiters (b :: V ++ [10]) =
        doubleDelimiters [b] ++ doubleDelimiters (V ++ [10]) := by
      rw [← doubleDelimiters_append]; rfl
    rw [hsplit, List.append_assoc] at hcur
    obtain ⟨g1, g2, _⟩ := getc_at_byte s pre _ b hcur
    unfold scan_value
    dsimp only
    have hne : ¬ ((b : Int) = 10 ∨ (b : Int) = KDELIM) := by unfold KDELIM; omega
    have hne2 : ¬ ((b : Int) = EOF) := by unfold EOF; omega
    have hmod : ((b : Int) % 256).toNat = b := by omega
    rw [g1, if_neg hne, if_neg hne2, hmod]
    simp only [List.length_cons] at hfuel
    obtain ⟨s1, kvlen1, e1, e2⟩ := ih fuel (kv ++ [b]) _ (in_buffer_getc s).2
      (pre ++ doubleDelimiters [b]) tail (fun x hx => hV x (List.mem_cons_of_mem _ hx)) g2
      (by omega)
    refine ⟨s1, kvlen1, by simpa using e1, ?_⟩
    rw [hsplit, ← List.append_assoc]
    exact e2

/-- A line `$<keyword>:<value>` that is ended by a newline before any closing
`$` is written as it stands, newline included, and
`expandline` returns 2. -/
theorem expandline_unclosed_value (env : Env) (fuel : Nat) (g : Globals) (k : markers)
    (pre V tail : List Nat) (hk : k ≠ .Nomatch)
    (hV : ∀ b ∈ V, b ≠ 36 ∧ b ≠ 10 ∧ b ≠ 0 ∧ b < 256)
    (hcur : CursorAt g.Ginbuf pre
      (doubleDelimiters ([36] ++ (Keyword k ++ [58]) ++ (V ++ [10])) ++ tail))
    (hfuel : 2 ≤ fuel) :
    ∃ g1, expandline env fuel g = .ok (2, g1) ∧
      g1.Goutbuf = g.Goutbuf ++ ([36] ++ (Keyword k ++ [58]) ++ (V ++ [10])) := by
  obtain ⟨fuel, rfl⟩ : ∃ n, fuel = n + 2 := ⟨fuel - 2, by omega⟩
  rw [doubleDelimiters_append, doubleDelimiters_append, List.append_assoc,
    List.append_assoc] at hcur
  obtain ⟨c1, c2, c3⟩ := getc_at_byte g.Ginbuf pre _ 36 hcur
  have hg0 : ∀ g0 : Globals, g0.Ginbuf = g.Ginbuf → g0.Goutbuf = g.Goutbuf →
      ∃ g1, expandline_loop env (fuel + 2) (in_buffer_getc g0.Ginbuf).1 (-1) 0
          { g0 with Ginbuf := (in_buffer_getc g0.Ginbuf).2 } = .ok (2, g1) ∧
        g1.Goutbuf = g.Goutbuf ++ ([36] ++ (Keyword k ++ [58]) ++ (V ++ [10])) := by
    intro g0 h1 h2
    rw [h1, c1]
    obtain ⟨s1, e1, e2, e3⟩ := scan_keyword_letters (Keyword k) (KEYLENGTH + 2) [KDELIM]
      (in_buffer_getc g.Ginbuf).2 (pre ++ doubleDelimiters [36])
      (doubleDelimiters (V ++ [10]) ++ tail) 58
      (by cases k <;> decide) (by decide) (by cases k <;> decide) (Or.inl (by decide))
      (by cases k <;> decide) c2
    obtain ⟨s2, kvlen2, f1, f2⟩ := scan_value_newline V (readFuel s1)
      ([KDELIM] ++ Keyword k ++ [(((58 : Nat) : Int) % 256).toNat]) g0.Gkvlen s1
      (pre ++ doubleDelimiters [36] ++ doubleDelimiters (Keyword k ++ [58])) tail
      (fun b hb => ⟨(hV b hb).1, (hV b hb).2.1, (hV b hb).2.2.2⟩) e2
      (by
        have hb := e2.1
        have hl := length_le_doubleDelimiters (V ++ [10])
        have hp := e2.2
        unfold readFuel
        rw [hb, hp]
        simp only [List.length_append, List.length_singleton] at hl ⊢
        omega)
    have ht : trymatch ([KDELIM] ++ Keyword k ++ [(((58 : Nat) : Int) % 256).toNat]).tail = k := by
      cases k <;> first | exact absurd rfl hk | decide
    unfold expandline_loop
    rw [if_neg (by decide), if_neg (by decide), if_pos (by decide)]
    dsimp only
    rw [e1]
    simp only [Run.bind]
    rw [ht, if_neg hk, if_pos (by decide)]
    rw [f1]
    simp only [Run.bind]
    rw [if_neg (by decide), if_pos (by decide)]
    unfold expandline_loop
    rw [if_neg (by decide), if_pos rfl]
    refine ⟨_, rfl, ?_⟩
    show out_putc 10 (out_fputs _ g0.Goutbuf) = _
    unfold out_fputs out_putc
    rw [h2, cstr_of_nonzero _ (by
      intro x hx
      simp only [List.mem_append, List.mem_singleton] at hx
      rcases hx with ((h | h) | h) | h
      · simp [KDELIM] at h; omega
      · revert h; cases k <;> simp [Keyword] <;> omega
      · subst h; decide
      · exact (hV x h).2.2.1)]
    simp [KDELIM]
  unfold expandline
  exact hg0 (if g.Gkvlen < KEYLENGTH + 3 then { g with Gkvlen := KEYLENGTH + 3 } else g)
    (by split_ifs <;> rfl) (by split_ifs <;> rfl)

/-! ## Pushback -/

/-- C21: when `in_buffer_getc` returns a byte other than `EOF`, a call of
`in_buffer_ungetc` right after it returns the same byte and puts the position
and the read count back to their values before the read, also for a byte that
was decoded from a doubled delimiter; and with a read count of 0
`in_buffer_ungetc` returns `EOF` and leaves the cursor as it is.  The read count
is the number of bytes handed out and is not negative. -/
theorem ungetc_undoes_getc (s : in_buffer_type) (h0 : 0 ≤ s.read_count) :
    ((in_buffer_getc s).1 ≠ EOF →
      in_buffer_ungetc (in_buffer_getc s).2 = ((in_buffer_getc s).1, s)) ∧
    (s.read_count = 0 → in_buffer_ungetc s = (EOF, s)) := by
  constructor
  · intro hc
    by_cases h1 : peek s.buffer s.ptr = SDELIM
    · by_cases h2 : peek s.buffer (s.ptr + 1) = SDELIM
      · -- a doubled delimiter
        rw [in_buffer_getc_doubled s h1 h2]
        unfold in_buffer_ungetc
        dsimp only
        rw [if_neg (by omega)]
        have e1 : s.ptr + 2 - 1 = s.ptr + 1 := by omega
        have e2 : s.ptr + 1 - 1 = s.ptr := by omega
        rw [e1, if_pos h2, e2, h1]
        congr 1
        cases s
        simp
      · rw [in_buffer_getc_eof s h1 h2] at hc
        exact absurd rfl hc
    · -- a byte other than the delimiter
      rw [in_buffer_getc_plain s h1]
      unfold in_buffer_ungetc
      dsimp only
      rw [if_neg (by omega)]
      have e1 : s.ptr + 1 - 1 = s.ptr := by omega
      rw [e1, if_neg h1]
      congr 1
      cases s
      simp
  · intro hz
    unfold in_buffer_ungetc
    rw [if_pos hz]

theorem ungetc_undoes_getc_witness :
    in_buffer_getc cursorBeforeDoubled =
      (64, { cursorBeforeDoubled with ptr := 3, read_count := 2 }) ∧
    ((in_buffer_getc cursorBeforeDoubled).1 ≠ EOF →
      in_buffer_ungetc (in_buffer_getc cursorBeforeDoubled).2 =
        ((in_buffer_getc cursorBeforeDoubled).1, cursorBeforeDoubled)) ∧
    (cursorBeforeDoubled.read_count = 0 →
      in_buffer_ungetc cursorBeforeDoubled = (EOF, cursorBeforeDoubled)) :=
  ⟨by decide, ungetc_undoes_getc cursorBeforeDoubled (by decide)⟩

/-! ## A command line without a newline -/

theorem getc_repeat_at_end (s : in_buffer_type) (h1 : peek s.buffer s.ptr = SDELIM)
    (h2 : peek s.buffer (s.ptr + 1) ≠ SDELIM) (n : Nat) :
    in_buffer_getc_repeat n s = (EOF, s) := by
  induction n with
  | zero => exact in_buffer_getc_eof s h1 h2
  | succ n ih =>
    unfold in_buffer_getc_repeat
    rw [in_buffer_getc_eof s h1 h2]
    exact ih

/-- C22 (failing input): the script text `@d1 1@`, whose command line `d1 1` has
no newline before the closing delimiter.  `parse_next_delta_command` reads the
command and reaches `while (in_buffer_getc() != '\n');` at the end of the text,
where every further read returns `EOF` and leaves the cursor as it is: the loop
never ends, and neither does `process_delta` in `EDIT` mode. -/
theorem parse_hangs_without_newline :
    parse_next_delta_command dcInit scriptNoNewline = .hang ∧
    process_delta_EDIT bufferABC scriptNoNewline = .hang ∧
    skip_to_newline (readFuel { scriptNoNewline with ptr := 4, read_count := 3 })
      { scriptNoNewline with ptr := 4, read_count := 3 } = .hang ∧
    ∀ n, in_buffer_getc_repeat n { scriptNoNewline with ptr := 5, read_count := 4 } =
      (EOF, { scriptNoNewline with ptr := 5, read_count := 4 }) :=
  ⟨by decide, rfl, by decide, getc_repeat_at_end _ (by decide) (by decide)⟩

/-! ## A command line that ends with a newline -/

theorem cursorAfter_nil (s : in_buffer_type) : cursorAfter s [] = s := by
  cases s
  simp [cursorAfter, doubleDelimiters]

theorem cursorAfter_append (s : in_buffer_type) (A B : List Nat) :
    cursorAfter (cursorAfter s A) B = cursorAfter s (A ++ B) := by
  unfold cursorAfter
  rw [doubleDelimiters_append]
  simp only [List.length_append, Nat.cast_add, in_buffer_type.mk.injEq, true_and]
  omega

theorem cursorAt_cursorAfter (s : in_buffer_type) (pre W tail : List Nat)
    (h : CursorAt s pre (doubleDelimiters W ++ tail)) :
    CursorAt (cursorAfter s W) (pre ++ doubleDelimiters W) tail := by
  obtain ⟨hb, hp⟩ := h
  exact ⟨by simp [cursorAfter, hb], by simp [cursorAfter, hp]⟩

theorem getc_after (s : in_buffer_type) (pre tail : List Nat) (c : Nat)
    (h : CursorAt s pre (doubleDelimiters [c] ++ tail)) :
    in_buffer_getc s = ((c : Int), cursorAfter s [c]) := by
  rw [getc_exact s pre tail c h]
  rfl

theorem ungetc_after (s : in_buffer_type) (pre tail W : List Nat) (c : Nat)
    (h : CursorAt s pre (doubleDelimiters (W ++ [c]) ++ tail)) (h0 : 0 ≤ s.read_count) :
    in_buffer_ungetc (cursorAfter s (W ++ [c])) = ((c : Int), cursorAfter s W) := by
  have h1 := cursorAt_cursorAfter s pre (W ++ [c]) tail h
  rw [doubleDelimiters_append, ← List.append_assoc] at h1
  have hrc : (cursorAfter s (W ++ [c])).read_count ≠ 0 := by
    simp only [cursorAfter, List.length_append, List.length_singleton, Nat.cast_add,
      Nat.cast_one]
    omega
  rw [ungetc_exact _ (pre ++ doubleDelimiters W) tail c h1 hrc]
  congr 1
  simp only [cursorAfter, List.length_append, List.length_singleton, Nat.cast_add, Nat.cast_one,
    in_buffer_type.mk.injEq, true_and]
  exact ⟨by rw [h.2], by omega⟩

theorem readFuel_ge (s : in_buffer_type) (pre W tail : List Nat)
    (h : CursorAt s pre (doubleDelimiters W ++ tail)) : W.length + 2 ≤ readFuel s := by
  obtain ⟨hb, hp⟩ := h
  have := length_le_doubleDelimiters W
  unfold readFuel
  rw [hb, hp]
  simp only [List.length_append]
  omega

theorem span_split (p : Nat → Bool) (hp : p 10 = false) : ∀ (S : List Nat),
    ∃ R S2 t rest, S ++ [10] = R ++ (S2 ++ [10]) ∧ S2 ++ [10] = t :: rest ∧ p t = false ∧
      (∀ b ∈ R, p b = true) ∧ (∀ b ∈ S2, b ∈ S) := by
  intro S
  induction S with
  | nil => exact ⟨[], [], 10, [], rfl, rfl, hp, by simp, by simp⟩
  | cons a S ih =>
    by_cases ha : p a = true
    · obtain ⟨R, S2, t, rest, h1, h2, h3, h4, h5⟩ := ih
      refine ⟨a :: R, S2, t, rest, ?_, h2, h3, ?_, fun b hb => List.mem_cons_of_mem _ (h5 b hb)⟩
      · simp only [List.cons_append]; rw [h1]
      · intro b hb
        rcases List.mem_cons.1 hb with h | h
        · subst h; exact ha
        · exact h4 b h
    · exact ⟨[], a :: S, a, S ++ [10], rfl, by simp, by simpa using ha, by simp,
        fun b hb => hb⟩

theorem parsenum_loop_text (D : List Nat) : ∀ (fuel : Nat) (ret : Int) (s : in_buffer_type)
    (pre tail : List Nat) (t : Nat), (∀ b ∈ D, isdigit (b : Int) = true) →
    isdigit (t : Int) = false → CursorAt s pre (doubleDelimiters (D ++ [t]) ++ tail) →
    D.length < fuel →
    ∃ v, parsenum_loop fuel ret (in_buffer_getc s).1 (in_buffer_getc s).2 =
      .ok (v, cursorAfter s (D ++ [t])) := by
  induction D with
  | nil =>
    intro fuel ret s pre tail t _ ht hcur hfuel
    obtain ⟨fuel, rfl⟩ : ∃ k, fuel = k + 1 := ⟨fuel - 1, by simp at hfuel; omega⟩
    rw [getc_after s pre tail t (by simpa using hcur)]
    unfold parsenum_loop
    dsimp only
    rw [ht]
    exact ⟨ret, rfl⟩
  | cons d D ih =>
    intro fuel ret s pre tail t hD ht hcur hfuel
    obtain ⟨fuel, rfl⟩ : ∃ k, fuel = k + 1 := ⟨fuel - 1, by simp at hfuel; omega⟩
    have hsplit : doubleDelimiters (d :: D ++ [t]) =
        doubleDelimiters [d] ++ doubleDelimiters (D ++ [t]) := by
      rw [← doubleDelimiters_append]; rfl
    have hcur0 := hcur
    rw [hsplit, List.append_assoc] at hcur
    rw [getc_after s pre _ d hcur]
    unfold parsenum_loop
    dsimp only
    rw [hD d (List.mem_cons_self _ _), if_pos rfl]
    simp only [List.length_cons] at hfuel
    have hcur1 := cursorAt_cursorAfter s pre [d] _ hcur
    obtain ⟨v, hv⟩ := ih fuel (wrapLong (ret * 10 + ((d : Int) - 48))) (cursorAfter s [d])
      (pre ++ doubleDelimiters [d]) tail t (fun b hb => hD b (List.mem_cons_of_mem _ hb)) ht
      hcur1 (by omega)
    refine ⟨v, ?_⟩
    rw [hv, cursorAfter_append]
    rfl

theorem parsenum_text (D : List Nat) (s : in_buffer_type) (pre tail : List Nat) (t : Nat)
    (hD : ∀ b ∈ D, isdigit (b : Int) = true) (ht : isdigit (t : Int) = false)
    (hcur : CursorAt s pre (doubleDelimiters (D ++ [t]) ++ tail)) (h0 : 0 ≤ s.read_count) :
    ∃ v, parsenum s = .ok (v, cursorAfter s D) := by
  have hf := readFuel_ge s pre (D ++ [t]) tail hcur
  simp only [List.length_append, List.length_singleton] at hf
  obtain ⟨v, hv⟩ := parsenum_loop_text D (readFuel s) 0 s pre tail t hD ht hcur (by omega)
  refine ⟨v, ?_⟩
  unfold parsenum
  rw [hv]
  simp only [Run.bind]
  rw [ungetc_after s pre tail D t hcur h0]

theorem skip_spaces_text (Sp : List Nat) : ∀ (fuel : Nat) (s : in_buffer_type)
    (pre tail : List Nat) (t : Nat), (∀ b ∈ Sp, b = 32) → t ≠ 32 →
    CursorAt s pre (doubleDelimiters (Sp ++ [t]) ++ tail) → Sp.length < fuel →
    skip_spaces fuel s = .ok (cursorAfter s (Sp ++ [t])) := by
  induction Sp with
  | nil =>
    intro fuel s pre tail t _ ht hcur hfuel
    obtain ⟨fuel, rfl⟩ : ∃ k, fuel = k + 1 := ⟨fuel - 1, by simp at hfuel; omega⟩
    unfold skip_spaces
    rw [getc_after s pre tail t (by simpa using hcur)]
    dsimp only
    rw [if_neg (by omega)]
    rfl
  | cons d Sp ih =>
    intro fuel s pre tail t hSp ht hcur hfuel
    obtain ⟨fuel, rfl⟩ : ∃ k, fuel = k + 1 := ⟨fuel - 1, by simp at hfuel; omega⟩
    have hsplit : doubleDelimiters (d :: Sp ++ [t]) =
        doubleDelimiters [d] ++ doubleDelimiters (Sp ++ [t]) := by
      rw [← doubleDelimiters_append]; rfl
    rw [hsplit, List.append_assoc] at hcur
    have hd := hSp d (List.mem_cons_self _ _)
    unfold skip_spaces
    rw [getc_after s pre _ d hcur]
    dsimp only
    rw [if_pos (by omega)]
    simp only [List.length_cons] at hfuel
    rw [ih fuel (cursorAfter s [d]) (pre ++ doubleDelimiters [d]) tail t
      (fun b hb => hSp b (List.mem_cons_of_mem _ hb)) ht (cursorAt_cursorAfter s pre [d] _ hcur)
      (by omega), cursorAfter_append]
    rfl

theorem skip_to_newline_text (X : List Nat) : ∀ (fuel : Nat) (s : in_buffer_type)
    (pre tail : List Nat), (∀ b ∈ X, b ≠ 10) →
    CursorAt s pre (doubleDelimiters (X ++ [10]) ++ tail) → X.length < fuel →
    skip_to_newline fuel s = .ok (cursorAfter s (X ++ [10])) := by
  induction X with
  | nil =>
    intro fuel s pre tail _ hcur hfuel
    obtain ⟨fuel, rfl⟩ : ∃ k, fuel = k + 1 := ⟨fuel - 1, by simp at hfuel; omega⟩
    unfold skip_to_newline
    rw [getc_after s pre tail 10 (by simpa using hcur)]
    dsimp only
    rw [if_pos (by decide)]
    rfl
  | cons d X ih =>
    intro fuel s pre tail hX hcur hfuel
    obtain ⟨fuel, rfl⟩ : ∃ k, fuel = k + 1 := ⟨fuel - 1, by simp at hfuel; omega⟩
    have hsplit : doubleDelimiters (d :: X ++ [10]) =
        doubleDelimiters [d] ++ doubleDelimiters (X ++ [10]) := by
      rw [← doubleDelimiters_append]; rfl
    rw [hsplit, List.append_assoc] at hcur
    have hd := hX d (List.mem_cons_self _ _)
    unfold skip_to_newline
    rw [getc_after s pre _ d hcur]
    dsimp only
    rw [if_neg (by omega), if_neg (by unfold EOF; omega)]
    simp only [List.length_cons] at hfuel
    rw [ih fuel (cursorAfter s [d]) (pre ++ doubleDelimiters [d]) tail
      (fun b hb => hX b (List.mem_cons_of_mem _ hb)) (cursorAt_cursorAfter s pre [d] _ hcur)
      (by omega), cursorAfter_append]
    rfl
/-- On a command line that ends with a newline, the reads of
`parse_next_delta_command` return: the command letter, two numbers, and the
cursor behind the newline of the line. -/
theorem read_delta_command_returns (s : in_buffer_type) (pre Y tail : List Nat) (c : Nat)
    (hY : ∀ b ∈ Y, b ≠ 10)
    (hcur : CursorAt s pre (doubleDelimiters ([c] ++ (Y ++ [10])) ++ tail))
    (h0 : 0 ≤ s.read_count) :
    ∃ L N, read_delta_command s = .ok ((c : Int), L, N, cursorAfter s ([c] ++ (Y ++ [10]))) := by
  rw [doubleDelimiters_append, List.append_assoc] at hcur
  have hg := getc_after s pre _ c hcur
  have hcur1 := cursorAt_cursorAfter s pre [c] _ hcur
  have h01 : 0 ≤ (cursorAfter s [c]).read_count := by simp [cursorAfter]; omega
  -- the first number
  obtain ⟨D1, Y1, t1, r1, a1, a2, a3, a4, a5⟩ :=
    span_split (fun b => isdigit (b : Int)) (by decide) Y
  have hY1 : ∀ b ∈ Y1, b ≠ 10 := fun b hb => hY b (a5 b hb)
  have e1 : Y ++ [10] = (D1 ++ [t1]) ++ r1 := by rw [a1, a2]; simp
  have hc1 : CursorAt (cursorAfter s [c]) (pre ++ doubleDelimiters [c])
      (doubleDelimiters (D1 ++ [t1]) ++ (doubleDelimiters r1 ++ tail)) := by
    rw [← List.append_assoc, ← doubleDelimiters_append, ← e1]; exact hcur1
  obtain ⟨L, hL⟩ := parsenum_text D1 _ _ _ t1 a4 a3 hc1 h01
  have hc2 : CursorAt (cursorAfter (cursorAfter s [c]) D1)
      (pre ++ doubleDelimiters [c] ++ doubleDelimiters D1)
      (doubleDelimiters (Y1 ++ [10]) ++ tail) := by
    apply cursorAt_cursorAfter
    rw [← List.append_assoc, ← doubleDelimiters_append, ← a1]; exact hcur1
  have h02 : 0 ≤ (cursorAfter (cursorAfter s [c]) D1).read_count := by
    simp [cursorAfter]; omega
  -- the blanks
  obtain ⟨Sp, Y2, t2, r2, b1, b2, b3, b4, b5⟩ := span_split (fun b => decide (b = 32)) (by decide) Y1
  have hY2 : ∀ b ∈ Y2, b ≠ 10 := fun b hb => hY1 b (b5 b hb)
  have e2 : Y1 ++ [10] = (Sp ++ [t2]) ++ r2 := by rw [b1, b2]; simp
  have hc3 : CursorAt (cursorAfter (cursorAfter s [c]) D1)
      (pre ++ doubleDelimiters [c] ++ doubleDelimiters D1)
      (doubleDelimiters (Sp ++ [t2]) ++ (doubleDelimiters r2 ++ tail)) := by
    rw [← List.append_assoc, ← doubleDelimiters_append, ← e2]; exact hc2
  have hf3 := readFuel_ge _ _ (Sp ++ [t2]) _ hc3
  simp only [List.length_append, List.length_singleton] at hf3
  have hS := skip_spaces_text Sp (readFuel (cursorAfter (cursorAfter s [c]) D1)) _ _ _ t2
    (fun b hb => by simpa using b4 b hb) (by simpa using b3) hc3 (by omega)
  have hU := ungetc_after _ _ _ Sp t2 hc3 h02
  have hc4 : CursorAt (cursorAfter (cursorAfter (cursorAfter s [c]) D1) Sp)
      (pre ++ doubleDelimiters [c] ++ doubleDelimiters D1 ++ doubleDelimiters Sp)
      (doubleDelimiters (Y2 ++ [10]) ++ tail) := by
    apply cursorAt_cursorAfter
    rw [← List.append_assoc, ← doubleDelimiters_append, ← b1]; exact hc2
  have h04 : 0 ≤ (cursorAfter (cursorAfter (cursorAfter s [c]) D1) Sp).read_count := by
    simp [cursorAfter]; omega
  -- the second number
  obtain ⟨D2, Y3, t3, r3, d1, d2, d3, d4, d5⟩ :=
    span_split (fun b => isdigit (b : Int)) (by decide) Y2
  have hY3 : ∀ b ∈ Y3, b ≠ 10 := fun b hb => hY2 b (d5 b hb)
  have e3 : Y2 ++ [10] = (D2 ++ [t3]) ++ r3 := by rw [d1, d2]; simp
  have hc5 : CursorAt (cursorAfter (cursorAfter (cursorAfter s [c]) D1) Sp)
      (pre ++ doubleDelimiters [c] ++ doubleDelimiters D1 ++ doubleDelimiters Sp)
      (doubleDelimiters (D2 ++ [t3]) ++ (doubleDelimiters r3 ++ tail)) := by
    rw [← List.append_assoc, ← doubleDelimiters_append, ← e3]; exact hc4
  obtain ⟨N, hN⟩ := parsenum_text D2 _ _ _ t3 d4 d3 hc5 h04
  -- the rest of the line
  have hc6 : CursorAt (cursorAfter (cursorAfter (cursorAfter (cursorAfter s [c]) D1) Sp) D2)
      (pre ++ doubleDelimiters [c] ++ doubleDelimiters D1 ++ doubleDelimiters Sp ++
        doubleDelimiters D2)
      (doubleDelimiters (Y3 ++ [10]) ++ tail) := by
    apply cursorAt_cursorAfter
    rw [← List.append_assoc, ← doubleDelimiters_append, ← d1]; exact hc4
  have hf6 := readFuel_ge _ _ (Y3 ++ [10]) _ hc6
  simp only [List.length_append, List.length_singleton] at hf6
  have hT := skip_to_newline_text Y3
    (readFuel (cursorAfter (cursorAfter (cursorAfter (cursorAfter s [c]) D1) Sp) D2)) _ _ _
    hY3 hc6 (by omega)
  refine ⟨L, N, ?_⟩
  unfold read_delta_command
  rw [hg]
  dsimp only
  rw [hL]
  simp only [Run.bind]
  rw [hS]
  simp only [Run.bind]
  rw [hU]
  dsimp only
  rw [hN]
  simp only [Run.bind]
  rw [hT]
  simp only [Run.bind]
  rw [cursorAfter_append, cursorAfter_append, cursorAfter_append, cursorAfter_append]
  rw [a1, b1, d1]

/-- On a command line that ends with a newline, `parse_next_delta_command`
returns a command or stops with a fatal error. -/
theorem parse_next_delta_command_returns (dc : diffcmd) (s : in_buffer_type)
    (pre Y tail : List Nat) (c : Nat) (hY : ∀ b ∈ Y, b ≠ 10)
    (hcur : CursorAt s pre (doubleDelimiters ([c] ++ (Y ++ [10])) ++ tail))
    (h0 : 0 ≤ s.read_count) :
    (∃ r, parse_next_delta_command dc s = .ok r) ∨
      (∃ e, parse_next_delta_command dc s = .fatal e) := by
  obtain ⟨L, N, h⟩ := read_delta_command_returns s pre Y tail c hY hcur h0
  rw [parse_of_read dc s _ (c : Int) L N h (by unfold EOF; omega)]
  split_ifs
  · exact Or.inr ⟨_, rfl⟩
  · exact Or.inr ⟨_, rfl⟩
  · exact Or.inl ⟨_, rfl⟩
  · exact Or.inr ⟨_, rfl⟩
  · exact Or.inl ⟨_, rfl⟩

end Rcs2git
